import Mathlib

/-!
Verification development for the AUFalkon deadline scheduler
(`src/scheduler_deadline.py`, driver `src/mission_runner.py`).

The Python code is shallowly embedded: floats become rationals (`ℚ`),
machine ints become `Int`/`Nat`, dictionaries become either total
functions (when only consumed through `get`-with-default / item access)
or association lists (when the dictionary's length or key order is
observable), and the per-tick mutation of the `DeadlineScheduler` object
becomes explicit state passing.  A tick that raises `RuntimeError`
(mission failure) is modelled by a `TickResult` whose `raised` flag is
set and whose `state` holds the fields mutated up to the raise point,
exactly as the Python object would be left.
-/

namespace AUFalkon

attribute [local semireducible] Rat.mul Rat.add Rat.sub Rat.inv

set_option maxRecDepth 100000

/-- Python `round` rounds half to even (banker's rounding). -/
def pyRound (q : ℚ) : ℤ :=
  let f := ⌊q⌋
  let r := q - f
  if r < 1/2 then f
  else if 1/2 < r then f + 1
  else if f % 2 = 0 then f else f + 1

/-- Python `int(...)` applied to a float: truncation toward zero. -/
def pyInt (q : ℚ) : ℤ :=
  if 0 ≤ q then ⌊q⌋ else -⌊-q⌋

/-- Python string `<`: lexicographic comparison of code-point sequences
(Lean's own `String.lt` is the same relation, but its implementation via
string iterators does not reduce inside the kernel, so the comparison is
spelled out on the character lists). -/
def strLt : List Char → List Char → Bool
  | [], [] => false
  | [], _ :: _ => true
  | _ :: _, [] => false
  | a :: as, b :: bs => if a < b then true else if b < a then false else strLt as bs

/-- Python string `<=` as the negation of the converse strict order. -/
def strLe (a b : String) : Bool := !(strLt b.toList a.toList)

/-- Events recorded by `_emit_event`.  The Python code formats the payload
into the `detail` string; here the payload is kept structured. -/
inductive Ev
  | rotation
  | wakeOverride (d : String)
  | distinctnessWake (d : String)
  | wakeOverrideUsed (d : String)
  | unmetDomain (d : String) (needRemaining : ℤ)
  | unmetAggregate (items : List (String × ℤ × ℤ))
  | missionFailureStreak (items : List (String × ℤ × ℤ))
  | missionFailureGap (d : String) (gap : ℤ)
  | batteryDead (u : String)
  | lowBatteryActive (u : String)
  deriving DecidableEq, Repr

/-- The mutable state of a `DeadlineScheduler` instance, i.e. the fields of
the Python object that the claims depend on.  CSV writers, sampling and
the summary counters (`_ticks_distinct_ok`, `_ticks_multi_role`,
`_total_assignments`, `rest_units`, `last_assign_map`) are pure
observability bookkeeping with no influence on scheduling and are not
modelled.  `requiredGet d` denotes `self.required_map.get(d, 1)` (the only
way the source consumes `required_map`), and `domainWeights d` denotes
`self.domain_weights.get(d, 1.0)`. -/
structure Sched where
  domains : List String
  restDomain : Option String
  domainsActive : List String
  pools : String → List String
  requiredGet : String → ℤ
  maxGapTicks : ℤ
  tickMs : ℚ
  capacityPerUnit : ℤ
  universalRoles : Bool
  batteryLifeMs : ℤ
  swapThresholdPct : ℚ
  batteryReservePct : ℚ
  hysteresisPct : ℚ
  wakeThresholdOverride : Option ℚ
  domainWeights : String → ℚ
  rotationPeriodMs : ℤ
  minDwellTicks : ℤ
  rotationWeight : ℚ
  cooldownWeight : ℚ
  keepBonus : ℚ
  lowBatteryEveryTicks : ℤ
  lowBatteryCrossingOnly : Bool
  strictMissionFailure : Bool
  unmetStreak : ℤ
  tick : ℤ
  lastServiceTick : String → ℤ
  prevAssign : String → List String
  batteryPct : String → Option ℚ
  batteryDead : List String
  batteryDeadFirstTick : String → Option ℤ
  domainFaults : String × String → Option (Option ℤ)
  lastRotationMs : ℤ
  lastAssignedTick : String → Option ℤ
  activeSinceTick : String → Option ℤ
  restingSinceTick : String → Option ℤ
  lastLowBatteryWarnTick : String → Option ℤ

/-- `time_ms` property: `int(round(self.tick * self.tick_ms))`. -/
def timeMs (s : Sched) : ℤ := pyRound (s.tick * s.tickMs)

/-- `_drain_per_role_pct`: `100.0 * (tick_ms / battery_life_ms)`. -/
def drainPerRolePct (s : Sched) : ℚ := 100 * (s.tickMs / (s.batteryLifeMs : ℚ))

/-- `_recharge_pct`: half the per-role drain. -/
def rechargePct (s : Sched) : ℚ := (1/2) * drainPerRolePct s

/-- `alive.get(u, False)` where `alive` is the liveness dict passed to
`schedule_tick`, represented as its key/value list in insertion order. -/
def aliveGet (alive : List (String × Bool)) (u : String) : Bool :=
  ((alive.find? (fun p => p.1 = u)).map Prod.snd).getD false

/-- `battery_pct.get(u, 0.0)`. -/
def batteryGet0 (b : String → Option ℚ) (u : String) : ℚ := (b u).getD 0

/-- `_is_alive`: externally alive and not battery-dead. -/
def isAlive (s : Sched) (alive : List (String × Bool)) (u : String) : Bool :=
  aliveGet alive u && !(s.batteryDead.contains u)

/-- `_can_assign`: alive and with strictly positive battery. -/
def canAssign (s : Sched) (alive : List (String × Bool)) (u : String) : Bool :=
  isAlive s alive u && decide (0 < batteryGet0 s.batteryPct u)

/-- `_wake_threshold_pct`. -/
def wakeThresholdPct (s : Sched) : ℚ :=
  match s.wakeThresholdOverride with
  | some w => w
  | none => min 100 (s.batteryReservePct * 100 + s.hysteresisPct * 100)

/-- `_deadline(d) = last_service_tick[d] + max_gap_ticks`. -/
def deadlineOf (s : Sched) (d : String) : ℤ := s.lastServiceTick d + s.maxGapTicks

/-- `_slack(d) = deadline(d) - tick`. -/
def slackOf (s : Sched) (d : String) : ℤ := deadlineOf s d - s.tick

/-- `_is_rotation_tick`. -/
def isRotationTick (s : Sched) : Bool :=
  decide (0 < s.rotationPeriodMs) && decide (s.rotationPeriodMs ≤ timeMs s - s.lastRotationMs)

/-- `_rotation_ticks`: `max(1, int(rotation_period_ms / max(tick_ms, 0.0001)))`. -/
def rotationTicks (s : Sched) : ℤ :=
  max 1 (pyInt ((s.rotationPeriodMs : ℚ) / max s.tickMs (1/10000)))

/-- `_cooldown_age_norm`. -/
def cooldownAgeNorm (s : Sched) (u : String) : ℚ :=
  let last := (s.lastAssignedTick u).getD (-(10^9 : ℤ))
  let age := max 0 (s.tick - last)
  min 1 ((age : ℚ) / (rotationTicks s : ℚ))

/-- `_recent_active_flag`. -/
def recentActiveFlag (s : Sched) (u : String) : ℚ :=
  if s.lastAssignedTick u = some (s.tick - 1) then 1 else 0

/-- `_dwell_ok`. -/
def dwellOk (s : Sched) (u : String) : Bool :=
  match s.activeSinceTick u with
  | none => true
  | some since => decide (s.minDwellTicks ≤ s.tick - since)

/-- `_score_unit`. -/
def scoreUnit (s : Sched) (u : String) (preferKeep doRotate : Bool) : ℚ :=
  let b := max 0 (min 100 (batteryGet0 s.batteryPct u))
  let batteryNorm := b / 100
  let cooldown := cooldownAgeNorm s u
  let recentPenalty := if doRotate then recentActiveFlag s u else 0
  let score := batteryNorm + s.cooldownWeight * cooldown - s.rotationWeight * recentPenalty
  if preferKeep && !doRotate then score + s.keepBonus else score

/-- `_domain_fault_active`.  The source also deletes an expired entry from
the fault dict as a side effect; deletion of an expired entry changes no
later query (a missing key and an expired entry both answer `False`), so
the predicate is modelled purely. -/
def domainFaultActive (s : Sched) (u d : String) (nowMs : ℤ) : Bool :=
  match s.domainFaults (u, d) with
  | none => false
  | some none => true
  | some (some recoverAt) => decide (nowMs < recoverAt)

/-- `set_domain_fault`.  `int(duration_ms or 0)` maps both `None` and `0`
to `0`. -/
def setDomainFault (s : Sched) (u d : String) (durationMs : Option ℤ)
    (permanent : Bool) : Sched :=
  if permanent then
    { s with domainFaults := fun k => if k = (u, d) then some none else s.domainFaults k }
  else
    { s with domainFaults := fun k =>
        if k = (u, d) then some (some (timeMs s + (durationMs.getD 0))) else s.domainFaults k }

/-- `clear_all_domain_faults`. -/
def clearAllDomainFaults (s : Sched) : Sched :=
  { s with domainFaults := fun _ => none }

/-- First-occurrence deduplication: the `seen`-set idiom the source uses
for pool-based candidates, and the iteration order used for Python sets
whose iteration order is unobservable. -/
def dedupFirst (l : List String) : List String :=
  l.foldl (fun acc u => if acc.contains u then acc else acc ++ [u]) []

/-- The per-unit admissibility test `ok(u)` inside `_candidates_for_domain`. -/
def candOk (s : Sched) (alive : List (String × Bool)) (d : String)
    (allowOverride : Bool) (u : String) : Bool :=
  canAssign s alive u &&
  !domainFaultActive s u d (timeMs s) &&
  (allowOverride ||
    !((s.restingSinceTick u).isSome && decide (batteryGet0 s.batteryPct u < wakeThresholdPct s)))

/-- `_candidates_for_domain`. -/
def candidatesForDomain (s : Sched) (d : String) (alive : List (String × Bool))
    (unitsAll : List String) (allowOverride : Bool) : List String :=
  if s.universalRoles then
    unitsAll.filter (candOk s alive d allowOverride)
  else
    let spares := s.pools "spares"
    let primary := s.pools d
    let primOk := primary.filter (candOk s alive d allowOverride)
    let spareOk := spares.filter (candOk s alive d allowOverride)
    dedupFirst (primOk ++ spareOk)

/-- `_total_required_roles` (computed once in `__init__`; `required_map`
is never mutated afterwards, so recomputing it is equivalent). -/
def totalRequiredRoles (s : Sched) : ℤ :=
  (s.domainsActive.map s.requiredGet).sum

/-- EDF/LLF domain ordering: `sorted(domains_active, key=(deadline, slack))`.
Python `sorted` is stable; `List.insertionSort` with a `≤` comparison is
the same stable sort. -/
def orderedDomains (s : Sched) : List String :=
  s.domainsActive.insertionSort
    (fun d1 d2 => (toLex (deadlineOf s d1, slackOf s d1) : ℤ ×ₗ ℤ) ≤ toLex (deadlineOf s d2, slackOf s d2))

/-- The `force_keep` closure in `schedule_tick`. -/
def forceKeep (s : Sched) (prevActiveSet : List String) (u : String) : Bool :=
  if !prevActiveSet.contains u then false
  else if dwellOk s u then false
  else decide (s.swapThresholdPct < batteryGet0 s.batteryPct u)

/-- Capacity lookup `capacity.get(u, 0)` (keys are unique, so the first
matching entry is the dict entry). -/
def capGet : List (String × ℤ) → String → ℤ
  | [], _ => 0
  | p :: rest, u => if p.1 = u then p.2 else capGet rest u

/-- The `can_take` closure: remaining capacity strictly positive. -/
def canTake (cap : List (String × ℤ)) (u : String) : Bool :=
  decide (0 < capGet cap u)

/-- `capacity[u] -= 1`. -/
def capDec (cap : List (String × ℤ)) (u : String) : List (String × ℤ) :=
  cap.map (fun p => if p.1 = u then (p.1, p.2 - 1) else p)

/-- `used_units.add(u)` — a Python set; modelled as a duplicate-free list. -/
def usedAdd (used : List String) (u : String) : List String :=
  if used.contains u then used else used ++ [u]

/-- The evolving per-domain selection state shared by the five tiers. -/
structure PickSt where
  need : ℤ
  capacity : List (String × ℤ)
  chosen : List String
  used : List String
  deriving Repr

/-- One step of a tier loop.  `keepOnly` is the tier-A restriction to
`keep_candidates`, `chosenSkip` is tier B's `u in chosen` skip, `addUsed`
says whether the tier records the unit in `used_units` (tiers A–C do,
tiers D–E do not).  The Python loops `break` once `need <= 0`; since no
further iteration changes anything after that, the break is modelled by a
guard making the remaining steps the identity. -/
def tierStep (keepSet : List String) (keepOnly chosenSkip addUsed : Bool)
    (st : PickSt) (u : String) : PickSt :=
  if st.need ≤ 0 then st
  else if keepOnly && !keepSet.contains u then st
  else if chosenSkip && st.chosen.contains u then st
  else if !canTake st.capacity u then st
  else
    { need := st.need - 1
      capacity := capDec st.capacity u
      chosen := st.chosen ++ [u]
      used := if addUsed then usedAdd st.used u else st.used }

/-- A whole tier: fold the tier step over the tier's candidate list. -/
def tierRun (keepSet : List String) (keepOnly chosenSkip addUsed : Bool)
    (cands : List String) (st : PickSt) : PickSt :=
  cands.foldl (tierStep keepSet keepOnly chosenSkip addUsed) st

/-- The state threaded through the per-tick domain assignment loop. -/
structure LoopSt where
  used : List String
  capacity : List (String × ℤ)
  assignments : List (String × String)
  assignMap : String → List String
  lastService : String → ℤ
  lastAssigned : String → Option ℤ
  events : List Ev

/-- The comparison induced by the sort key `(-score(u), u)` used by
`sort_by_score`: `u1` sorts no later than `u2` iff its score is higher,
or the scores tie and `u1 <= u2` as strings. -/
def unitKeyLe (s : Sched) (keepCands : List String) (doRotate : Bool)
    (u1 u2 : String) : Bool :=
  let s1 := scoreUnit s u1 (keepCands.contains u1) doRotate
  let s2 := scoreUnit s u2 (keepCands.contains u2) doRotate
  if s2 < s1 then true
  else if s1 < s2 then false
  else strLe u1 u2

/-- `sort_by_score`: stable sort by `(-score, unit)`. -/
def sortByScore (s : Sched) (keepCands : List String) (doRotate : Bool)
    (l : List String) : List String :=
  l.insertionSort (fun u1 u2 => unitKeyLe s keepCands doRotate u1 u2 = true)

/-- The per-tick values that the domain loop body reads but never
writes: the (already tick-advanced) scheduler, the liveness map, the
unit list, the rotation flag, the distinctness target and the previous
tick's active set. -/
structure PdCtx where
  s : Sched
  alive : List (String × Bool)
  unitsAll : List String
  doRotate : Bool
  desiredDistinct : ℤ
  prevActiveSet : List String

/-- `strict = self._candidates_for_domain(d, alive, units_all, allow_override=False)`. -/
def pdStrict0 (c : PdCtx) (d : String) : List String :=
  candidatesForDomain c.s d c.alive c.unitsAll false

/-- `override = self._candidates_for_domain(d, alive, units_all, allow_override=True)`. -/
def pdOverride (c : PdCtx) (d : String) : List String :=
  candidatesForDomain c.s d c.alive c.unitsAll true

/-- The `len(strict) < need` test that swaps in the override candidates. -/
def pdReplaced (c : PdCtx) (d : String) : Bool :=
  decide (((pdStrict0 c d).length : ℤ) < c.s.requiredGet d)

/-- The effective strict list: replaced by `override` when too short. -/
def pdStrictL (c : PdCtx) (d : String) : List String :=
  if pdReplaced c d then pdOverride c d else pdStrict0 c d

/-- `keep_candidates` (a set; only membership is consumed). -/
def pdKeep (c : PdCtx) (d : String) : List String :=
  if !c.doRotate then
    (c.s.prevAssign d).filter (fun u =>
      (pdOverride c d).contains u &&
      (forceKeep c.s c.prevActiveSet u ||
        decide (c.s.swapThresholdPct < batteryGet0 c.s.batteryPct u)))
  else []

/-- `sort_by_score` specialised to this domain's keep set. -/
def pdSort (c : PdCtx) (d : String) (l : List String) : List String :=
  sortByScore c.s (pdKeep c d) c.doRotate l

/-- `unused_strict`. -/
def pdUnusedStrict (c : PdCtx) (used : List String) (d : String) : List String :=
  pdSort c d ((pdStrictL c d).filter (fun u => !used.contains u))

/-- `used_strict`. -/
def pdUsedStrict (c : PdCtx) (used : List String) (d : String) : List String :=
  pdSort c d ((pdStrictL c d).filter (fun u => used.contains u))

/-- `unused_override`. -/
def pdUnusedOverride (c : PdCtx) (used : List String) (d : String) : List String :=
  pdSort c d ((pdOverride c d).filter
    (fun u => !used.contains u && !(pdUnusedStrict c used d).contains u))

/-- `used_override`. -/
def pdUsedOverride (c : PdCtx) (used : List String) (d : String) : List String :=
  pdSort c d ((pdOverride c d).filter
    (fun u => used.contains u && !(pdUsedStrict c used d).contains u))

/-- Selection state before tier A. -/
def pdP0 (c : PdCtx) (st : LoopSt) (d : String) : PickSt :=
  ⟨c.s.requiredGet d, st.capacity, [], st.used⟩

/-- After tier A (keep incumbents among unused strict). -/
def pdP1 (c : PdCtx) (st : LoopSt) (d : String) : PickSt :=
  if !c.doRotate && !(pdKeep c d).isEmpty then
    tierRun (pdKeep c d) true false true (pdUnusedStrict c st.used d) (pdP0 c st d)
  else pdP0 c st d

/-- After tier B (fresh distinct units from unused strict). -/
def pdP2 (c : PdCtx) (st : LoopSt) (d : String) : PickSt :=
  tierRun [] false true true (pdUnusedStrict c st.used d) (pdP1 c st d)

/-- Tier C's gate: still in need, distinctness target not reached, and
some unused override unit exists. -/
def pdTierCOn (c : PdCtx) (st : LoopSt) (d : String) : Bool :=
  decide (0 < (pdP2 c st d).need) &&
  decide (((pdP2 c st d).used.length : ℤ) < c.desiredDistinct) &&
  !(pdUnusedOverride c st.used d).isEmpty

/-- After tier C (wake additional unused override units). -/
def pdP3 (c : PdCtx) (st : LoopSt) (d : String) : PickSt :=
  if pdTierCOn c st d then
    tierRun [] false false true (pdUnusedOverride c st.used d) (pdP2 c st d)
  else pdP2 c st d

/-- After tier D (multi-role among used strict). -/
def pdP4 (c : PdCtx) (st : LoopSt) (d : String) : PickSt :=
  tierRun [] false false false (pdUsedStrict c st.used d) (pdP3 c st d)

/-- Tier E's gate. -/
def pdTierEOn (c : PdCtx) (st : LoopSt) (d : String) : Bool :=
  decide (0 < (pdP4 c st d).need) && !(pdUsedOverride c st.used d).isEmpty

/-- After tier E (used override, last resort). -/
def pdP5 (c : PdCtx) (st : LoopSt) (d : String) : PickSt :=
  if pdTierEOn c st d then
    tierRun [] false false false (pdUsedOverride c st.used d) (pdP4 c st d)
  else pdP4 c st d

/-- The events the body emits for domain `d`, in source order:
`wake_override`, `distinctness_wake`, `wake_override_used`,
`unmet_requirements`. -/
def pdEvents (c : PdCtx) (st : LoopSt) (d : String) : List Ev :=
  (if pdReplaced c d then [Ev.wakeOverride d] else []) ++
  (if pdTierCOn c st d then [Ev.distinctnessWake d] else []) ++
  (if pdTierEOn c st d then [Ev.wakeOverrideUsed d] else []) ++
  (if 0 < (pdP5 c st d).need then [Ev.unmetDomain d (pdP5 c st d).need] else [])

/-- The body of `for d in ordered_domains` in `schedule_tick`: candidate
computation, the five selection tiers A–E, the per-domain
`unmet_requirements` event, and the commit of the chosen units. -/
def processDomain (c : PdCtx) (st : LoopSt) (d : String) : LoopSt :=
  if c.s.requiredGet d ≤ 0 then st
  else
    let p5 := pdP5 c st d
    { used := p5.used
      capacity := p5.capacity
      assignments := st.assignments ++ p5.chosen.map (fun u => (d, u))
      assignMap := fun x => if x = d then st.assignMap d ++ p5.chosen else st.assignMap x
      lastService := if p5.chosen.isEmpty then st.lastService
        else fun x => if x = d then c.s.tick else st.lastService x
      lastAssigned := fun u => if p5.chosen.contains u then some c.s.tick else st.lastAssigned u
      events := st.events ++ pdEvents c st d }

/-- What `schedule_tick` returns to / leaves for the caller.  `raised`
records that `RuntimeError` (mission failure) was raised; in that case
`state` holds exactly the fields mutated before the raise, `events` the
events emitted before it, and `assignMap` the tick's local map at the
raise point (the `rest` entry is only added after both failure checks,
so a raising tick never has it). -/
structure TickResult where
  state : Sched
  assignments : List (String × String)
  assignMap : String → List String
  events : List Ev
  raised : Bool

/-- `_ensure_battery_initialized`: unseen units start at 100%. -/
def ensureBattery (b : String → Option ℚ) (unitsAll : List String) : String → Option ℚ :=
  fun u => if unitsAll.contains u && (b u).isNone then some 100 else b u

/-- The unmet-requirements list built after the assignment loop:
`(domain, need, got)` for every active domain whose requirement was not
fully met. -/
def unmetListFrom (s : Sched) (aMap : String → List String) : List (String × ℤ × ℤ) :=
  s.domainsActive.filterMap (fun d =>
    let needD := s.requiredGet d
    let gotD : ℤ := (aMap d).length
    if 0 < needD ∧ gotD < needD then some (d, needD, gotD) else none)

/-- One domain of the hard gap-enforcement loop.  The second component
records that `RuntimeError` was raised, which skips the remaining
domains. -/
def gapStep (s : Sched) (lastService : String → ℤ) (acc : List Ev × Bool)
    (d : String) : List Ev × Bool :=
  if acc.2 then acc
  else
    let gap := s.tick - lastService d
    if s.maxGapTicks < gap then
      (acc.1 ++ [Ev.missionFailureGap d gap], s.strictMissionFailure)
    else acc

/-- The hard gap-enforcement loop: walks `domains_active`, emits a
`mission_failure` event for each domain whose gap exceeds the bound and,
in strict mode, raises at the first such domain (skipping the rest). -/
def gapCheck (s : Sched) (lastService : String → ℤ) :
    List Ev × Bool :=
  s.domainsActive.foldl (gapStep s lastService) ([], false)

/-- Per-unit total drain this tick: `Σ base * weight[d]` over the tick's
`(d, u)` assignment pairs (the Python code accumulates the same multiset
sum into `drain_per_unit`). -/
def drainOf (s : Sched) (assignments : List (String × String)) (baseDrain : ℚ)
    (u : String) : ℚ :=
  ((assignments.filter (fun p => p.2 = u)).map (fun p => baseDrain * s.domainWeights p.1)).sum

/-- Accumulator of the end-of-tick battery loop. -/
structure BatterySt where
  battery : String → Option ℚ
  dead : List String
  deadFirstTick : String → Option ℤ
  events : List Ev

/-- One unit's battery update: weighted drain with permanent death at
zero, or recharge scaled by the rest domain's weight. -/
def batteryStep (s : Sched) (alive : List (String × Bool))
    (drain : String → ℚ) (recharge : ℚ) (acc : BatterySt) (u : String) : BatterySt :=
  if !(aliveGet alive u && !acc.dead.contains u) then acc
  else if 0 < drain u then
    let newB := batteryGet0 acc.battery u - drain u
    if newB ≤ 0 then
      { battery := fun x => if x = u then some 0 else acc.battery x
        dead := if acc.dead.contains u then acc.dead else acc.dead ++ [u]
        deadFirstTick := if acc.dead.contains u then acc.deadFirstTick
          else fun x => if x = u then some s.tick else acc.deadFirstTick x
        events := if acc.dead.contains u then acc.events else acc.events ++ [Ev.batteryDead u] }
    else
      { acc with battery := fun x => if x = u then some newB else acc.battery x }
  else
    let restW : ℚ := match s.restDomain with
      | some rd => max 0 (s.domainWeights rd)
      | none => 1
    { acc with battery := fun x =>
        if x = u then some (min 100 (batteryGet0 acc.battery u + recharge * restW))
        else acc.battery x }

/-- The rest-domain recharge weight: `max(0.0, weights.get(rest_domain, 1.0))`
when a rest domain exists, else `1.0` (the inline expression in the
recharge arm of the battery loop). -/
def restWeight (s : Sched) : ℚ :=
  match s.restDomain with
  | some rd => max 0 (s.domainWeights rd)
  | none => 1

/-- The low-battery warning loop over this tick's active units. -/
def lowBatteryStep (s : Sched) (prevBattery : String → Option ℚ)
    (battery : String → Option ℚ) (dead : List String)
    (acc : List Ev × (String → Option ℤ)) (u : String) :
    List Ev × (String → Option ℤ) :=
  if dead.contains u then acc
  else
    let b := batteryGet0 battery u
    if b ≤ s.swapThresholdPct then
      if s.lowBatteryCrossingOnly && decide ((prevBattery u).getD b ≤ s.swapThresholdPct) then acc
      else if 1 < s.lowBatteryEveryTicks then
        let lastT := ((acc.2 u).getD (-(10^9 : ℤ)))
        if s.tick - lastT < s.lowBatteryEveryTicks then acc
        else (acc.1 ++ [Ev.lowBatteryActive u],
              fun x => if x = u then some s.tick else acc.2 x)
      else (acc.1 ++ [Ev.lowBatteryActive u], acc.2)
    else acc

/-- Stage 1 of `schedule_tick`: advance the tick and initialise unseen
units' batteries. -/
def tickBase (s0 : Sched) (alive : List (String × Bool)) : Sched :=
  let s1 := { s0 with tick := s0.tick + 1 }
  { s1 with batteryPct := ensureBattery s1.batteryPct (alive.map Prod.fst) }

/-- Stage 2: the rotation-boundary test of this tick. -/
def tickDoRotate (s0 : Sched) (alive : List (String × Bool)) : Bool :=
  isRotationTick (tickBase s0 alive)

/-- Stage 2 continued: the scheduler as the assignment loop sees it
(rotation timestamp advanced on a rotation tick). -/
def tickS (s0 : Sched) (alive : List (String × Bool)) : Sched :=
  if tickDoRotate s0 alive then
    { tickBase s0 alive with lastRotationMs := timeMs (tickBase s0 alive) }
  else tickBase s0 alive

/-- The capacity dict: `{u: capacity_per_unit for u in units_all if can_assign}`. -/
def tickCapacity0 (s0 : Sched) (alive : List (String × Bool)) : List (String × ℤ) :=
  ((alive.map Prod.fst).filter (canAssign (tickS s0 alive) alive)).map
    (fun u => (u, s0.capacityPerUnit))

/-- The loop context for this tick. -/
def tickCtx (s0 : Sched) (alive : List (String × Bool)) : PdCtx :=
  let s := tickS s0 alive
  { s := s
    alive := alive
    unitsAll := alive.map Prod.fst
    doRotate := tickDoRotate s0 alive
    desiredDistinct := min (totalRequiredRoles s) ((tickCapacity0 s0 alive).length : ℤ)
    prevActiveSet := (s.domains.map s.prevAssign).flatten }

/-- The loop state before any domain is processed. -/
def tickLoop0 (s0 : Sched) (alive : List (String × Bool)) : LoopSt :=
  let s := tickS s0 alive
  ⟨[], tickCapacity0 s0 alive, [], fun _ => [],
    s.lastServiceTick, s.lastAssignedTick,
    if tickDoRotate s0 alive then [Ev.rotation] else []⟩

/-- The loop state after the domains in `pre` have been processed (in
that order).  `tickLoopAll` instantiates `pre` with the full EDF
ordering. -/
def tickLoopAfter (s0 : Sched) (alive : List (String × Bool)) (pre : List String) : LoopSt :=
  pre.foldl (processDomain (tickCtx s0 alive)) (tickLoop0 s0 alive)

/-- The loop state after the whole assignment loop. -/
def tickLoopAll (s0 : Sched) (alive : List (String × Bool)) : LoopSt :=
  tickLoopAfter s0 alive (orderedDomains (tickS s0 alive))

/-- The tick's unmet-requirements list (`unmet` in the source). -/
def tickUnmetList (s0 : Sched) (alive : List (String × Bool)) : List (String × ℤ × ℤ) :=
  unmetListFrom (tickS s0 alive) (tickLoopAll s0 alive).assignMap

/-- `self._unmet_requirements_streak` after this tick's update. -/
def tickStreakNew (s0 : Sched) (alive : List (String × Bool)) : ℤ :=
  if (tickUnmetList s0 alive).isEmpty then 0 else s0.unmetStreak + 1

/-- Whether this tick's global unmet streak exceeds the gap bound
(raise point 1 fires, modulo strict mode). -/
def tickStreakFail (s0 : Sched) (alive : List (String × Bool)) : Bool :=
  !(tickUnmetList s0 alive).isEmpty &&
    decide (s0.maxGapTicks < tickStreakNew s0 alive)

/-- The events appended by the streak check, in emission order. -/
def tickEvStreak (s0 : Sched) (alive : List (String × Bool)) : List Ev :=
  (if (tickUnmetList s0 alive).isEmpty then []
    else [Ev.unmetAggregate (tickUnmetList s0 alive)]) ++
  (if tickStreakFail s0 alive then [Ev.missionFailureStreak (tickUnmetList s0 alive)] else [])

/-- All events emitted up to and including the streak check. -/
def tickEvAfterStreak (s0 : Sched) (alive : List (String × Bool)) : List Ev :=
  (tickLoopAll s0 alive).events ++ tickEvStreak s0 alive

/-- Scheduler state after the loop commit and the streak update. -/
def tickSS (s0 : Sched) (alive : List (String × Bool)) : Sched :=
  { tickS s0 alive with
    lastServiceTick := (tickLoopAll s0 alive).lastService
    lastAssignedTick := (tickLoopAll s0 alive).lastAssigned
    unmetStreak := tickStreakNew s0 alive }

/-- The hard gap-enforcement result of this tick. -/
def tickGapRes (s0 : Sched) (alive : List (String × Bool)) : List Ev × Bool :=
  gapCheck (tickSS s0 alive) (tickLoopAll s0 alive).lastService

/-- All events emitted up to and including the gap check. -/
def tickEvAfterGap (s0 : Sched) (alive : List (String × Bool)) : List Ev :=
  tickEvAfterStreak s0 alive ++ (tickGapRes s0 alive).1

/-- `active_set`, as the list of assigned units (a Python set; only
membership and its deduplicated iteration are consumed). -/
def tickActiveSet (s0 : Sched) (alive : List (String × Bool)) : List String :=
  (tickLoopAll s0 alive).assignments.map Prod.snd

/-- `rest_units`. -/
def tickRestUnits (s0 : Sched) (alive : List (String × Bool)) : List String :=
  (alive.map Prod.fst).filter (fun u =>
    isAlive (tickS s0 alive) alive u && !(tickActiveSet s0 alive).contains u)

/-- The tick's assignment map after the reporting-only `rest` entry is
added. -/
def tickAssignMapFinal (s0 : Sched) (alive : List (String × Bool)) : String → List String :=
  match (tickS s0 alive).restDomain with
  | some rd =>
    let restList := (alive.map Prod.fst).filter (fun u =>
      isAlive (tickS s0 alive) alive u && !(tickActiveSet s0 alive).contains u &&
        !(tickS s0 alive).batteryDead.contains u)
    fun x => if x = rd then restList.insertionSort (fun a b => strLe a b = true)
      else (tickLoopAll s0 alive).assignMap x
  | none => (tickLoopAll s0 alive).assignMap

/-- `_active_since_tick` after dwell tracking. -/
def tickActiveSince (s0 : Sched) (alive : List (String × Bool)) : String → Option ℤ :=
  fun u =>
    if (tickActiveSet s0 alive).contains u &&
        !(tickCtx s0 alive).prevActiveSet.contains u then some (tickS s0 alive).tick
    else if (tickCtx s0 alive).prevActiveSet.contains u &&
        !(tickActiveSet s0 alive).contains u then none
    else (tickS s0 alive).activeSinceTick u

/-- `_resting_since_tick` after rest bookkeeping. -/
def tickRestingSince (s0 : Sched) (alive : List (String × Bool)) : String → Option ℤ :=
  fun u =>
    if (tickActiveSet s0 alive).contains u then none
    else if (tickRestUnits s0 alive).contains u &&
        ((tickS s0 alive).restingSinceTick u).isNone then some (tickS s0 alive).tick
    else (tickS s0 alive).restingSinceTick u

/-- Per-unit drain of this tick. -/
def tickDrain (s0 : Sched) (alive : List (String × Bool)) : String → ℚ :=
  drainOf (tickS s0 alive) (tickLoopAll s0 alive).assignments
    (drainPerRolePct (tickS s0 alive))

/-- The end-of-tick battery update (weighted drain, death handling,
recharge). -/
def tickBatteryRes (s0 : Sched) (alive : List (String × Bool)) : BatterySt :=
  (alive.map Prod.fst).foldl
    (batteryStep (tickS s0 alive) alive (tickDrain s0 alive) (rechargePct (tickS s0 alive)))
    ⟨(tickS s0 alive).batteryPct, (tickS s0 alive).batteryDead,
      (tickS s0 alive).batteryDeadFirstTick, tickEvAfterGap s0 alive⟩

/-- The low-battery warning pass: final event list and warn-tick map. -/
def tickLowRes (s0 : Sched) (alive : List (String × Bool)) : List Ev × (String → Option ℤ) :=
  (dedupFirst (tickActiveSet s0 alive)).foldl
    (lowBatteryStep (tickS s0 alive) (tickBase s0 alive).batteryPct
      (tickBatteryRes s0 alive).battery (tickBatteryRes s0 alive).dead)
    ((tickBatteryRes s0 alive).events, (tickS s0 alive).lastLowBatteryWarnTick)

/-- The scheduler state a normally-completing tick leaves behind. -/
def tickFinalState (s0 : Sched) (alive : List (String × Bool)) : Sched :=
  { tickSS s0 alive with
    batteryPct := (tickBatteryRes s0 alive).battery
    batteryDead := (tickBatteryRes s0 alive).dead
    batteryDeadFirstTick := (tickBatteryRes s0 alive).deadFirstTick
    activeSinceTick := tickActiveSince s0 alive
    restingSinceTick := tickRestingSince s0 alive
    lastLowBatteryWarnTick := (tickLowRes s0 alive).2
    prevAssign := fun d =>
      if (tickS s0 alive).domains.contains d then tickAssignMapFinal s0 alive d else [] }

/-- `schedule_tick(alive)`.  Follows the Python stage order exactly via
the `tick*` stage functions above: tick increment, battery
initialisation, rotation boundary, EDF ordering, the per-domain
assignment loop, unmet-requirements streak check (raise point 1), hard
gap enforcement (raise point 2), rest bookkeeping, the battery update
with permanent death, low-battery warnings, and the `prev_assign`
rollover.  Timeline/sample CSV output and the summary counters are pure
observers and are not modelled. -/
def scheduleTick (s0 : Sched) (alive : List (String × Bool)) : TickResult :=
  if tickStreakFail s0 alive && (tickS s0 alive).strictMissionFailure then
    ⟨tickSS s0 alive, (tickLoopAll s0 alive).assignments, (tickLoopAll s0 alive).assignMap,
      tickEvAfterStreak s0 alive, true⟩
  else if (tickGapRes s0 alive).2 then
    ⟨tickSS s0 alive, (tickLoopAll s0 alive).assignments, (tickLoopAll s0 alive).assignMap,
      tickEvAfterGap s0 alive, true⟩
  else
    ⟨tickFinalState s0 alive, (tickLoopAll s0 alive).assignments, tickAssignMapFinal s0 alive,
      (tickLowRes s0 alive).1, false⟩

/-- Constructor arguments of `DeadlineScheduler.__init__`, with the
source defaults. -/
structure Config where
  domains : List String
  pools : List (String × List String)
  requiredMap : List (String × ℤ)
  maxGapTicks : ℤ
  tickMs : ℚ
  capacityPerUnit : ℤ := 2
  universalRoles : Bool := true
  batteryLifeMs : ℤ := 420000
  swapThresholdPct : ℚ := 10
  batteryReservePct : ℚ := 15/100
  hysteresisPct : ℚ := 8/100
  wakeThresholdOverride : Option ℚ := none
  domainWeights : List (String × ℚ) := []
  rotationPeriodMs : ℤ := 120000
  minDwellTicks : ℤ := 30
  rotationWeight : ℚ := 40/100
  cooldownWeight : ℚ := 60/100
  keepBonus : ℚ := 35/100
  lowBatteryEventEveryMs : ℤ := 0
  lowBatteryCrossingOnly : Bool := false
  strictMissionFailure : Bool := true

/-- Python `str(d).lower() == 'rest'`. -/
def isRestName (d : String) : Bool :=
  (d.toList.map Char.toLower) = "rest".toList

/-- Association-list lookup mirroring `dict.get`. -/
def alistGet {α : Type} (l : List (String × α)) (k : String) : Option α :=
  (l.find? (fun p => p.1 = k)).map Prod.snd

/-- `DeadlineScheduler.__init__`: the initial scheduler state.  Dict
fields consumed only through `get` are represented directly as the
corresponding lookup functions (`requiredGet d` is
`required_map.get(d, 1)` after the `rest` key is popped, `domainWeights`
carries the per-domain weights with default `1.0`, `pools` is
`pools.get(d, [])`). -/
def initSched (cfg : Config) : Sched :=
  let restDomain := cfg.domains.find? isRestName
  let domainsActive := cfg.domains.filter (fun d => !(restDomain = some d : Bool))
  { domains := cfg.domains
    restDomain := restDomain
    domainsActive := domainsActive
    pools := fun d => (alistGet cfg.pools d).getD []
    requiredGet := fun d =>
      if restDomain = some d then 1
      else (alistGet cfg.requiredMap d).getD 1
    maxGapTicks := cfg.maxGapTicks
    tickMs := cfg.tickMs
    capacityPerUnit := cfg.capacityPerUnit
    universalRoles := cfg.universalRoles
    batteryLifeMs := cfg.batteryLifeMs
    swapThresholdPct := cfg.swapThresholdPct
    batteryReservePct := cfg.batteryReservePct
    hysteresisPct := cfg.hysteresisPct
    wakeThresholdOverride := cfg.wakeThresholdOverride
    domainWeights := fun d =>
      if cfg.domains.contains d then
        match alistGet cfg.domainWeights d with
        | some w => w
        | none => 1
      else 1
    rotationPeriodMs := cfg.rotationPeriodMs
    minDwellTicks := cfg.minDwellTicks
    rotationWeight := cfg.rotationWeight
    cooldownWeight := cfg.cooldownWeight
    keepBonus := cfg.keepBonus
    lowBatteryEveryTicks :=
      if 0 < cfg.lowBatteryEventEveryMs then
        max 1 (pyRound ((cfg.lowBatteryEventEveryMs : ℚ) / max (1/10000) cfg.tickMs))
      else 0
    lowBatteryCrossingOnly := cfg.lowBatteryCrossingOnly
    strictMissionFailure := cfg.strictMissionFailure
    unmetStreak := 0
    tick := 0
    lastServiceTick := fun _ => 0
    prevAssign := fun _ => []
    batteryPct := fun _ => none
    batteryDead := []
    batteryDeadFirstTick := fun _ => none
    domainFaults := fun _ => none
    lastRotationMs := 0
    lastAssignedTick := fun _ => none
    activeSinceTick := fun _ => none
    restingSinceTick := fun _ => none
    lastLowBatteryWarnTick := fun _ => none }

/-- `run_mission`'s gap-window computation
(`max_gap_ticks = max(1, int(max_gap_ms / tick_ms))` in
`src/mission_runner.py`). -/
def runMissionMaxGapTicks (maxGapMs : ℤ) (tickMs : ℚ) : ℤ :=
  max 1 (pyInt ((maxGapMs : ℚ) / tickMs))

/-- The gap-window conversion the specification describes:
`max_gap_ticks = ⌈max_gap_ms / tick_ms⌉`.  Modelled from the spec wording
for comparison with `runMissionMaxGapTicks`. -/
def specMaxGapTicks (maxGapMs : ℤ) (tickMs : ℚ) : ℤ :=
  ⌈(maxGapMs : ℚ) / tickMs⌉

/-- Drive the scheduler for `n` ticks with a fixed liveness map,
stopping (as a caller would) once a tick raises.  Returns the per-tick
results, oldest first. -/
def runTicks (s : Sched) (alive : List (String × Bool)) : ℕ → List TickResult
  | 0 => []
  | n + 1 =>
    let r := scheduleTick s alive
    if r.raised then [r] else r :: runTicks r.state alive n

/-- Modelled from the spec: "non-rest domains are sorted by
`(deadline(d), slack(d), d)` … lexicographic tie-break on domain name".
For comparison with `orderedDomains` (the code's ordering). -/
def specOrderedDomains (s : Sched) : List String :=
  s.domainsActive.insertionSort (fun d1 d2 =>
    (if deadlineOf s d1 < deadlineOf s d2 then true
     else if deadlineOf s d2 < deadlineOf s d1 then false
     else if slackOf s d1 < slackOf s d2 then true
     else if slackOf s d2 < slackOf s d1 then false
     else strLe d1 d2) = true)

/-- Well-formedness of the scheduler state, as `__init__` establishes it:
the active domains are distinct and the `rest` domain is not among them. -/
def WFSched (s : Sched) : Prop :=
  s.domainsActive.Nodup ∧ s.restDomain.all (fun rd => !s.domainsActive.contains rd) = true

instance (s : Sched) : Decidable (WFSched s) := by
  unfold WFSched; infer_instance

/-- Well-formedness of a tick's liveness map: one entry per unit
(Python dict keys are unique). -/
def WFAlive (alive : List (String × Bool)) : Prop :=
  (alive.map Prod.fst).Nodup

instance (alive : List (String × Bool)) : Decidable (WFAlive alive) := by
  unfold WFAlive; infer_instance

/-- Event classifiers used to state run-level properties. -/
def isGapFailureEv : Ev → Bool
  | Ev.missionFailureGap _ _ => true
  | _ => false

/-- Events that the domain assignment loop can emit. -/
def isLoopEv : Ev → Bool
  | Ev.wakeOverride _ => true
  | Ev.distinctnessWake _ => true
  | Ev.wakeOverrideUsed _ => true
  | Ev.unmetDomain _ _ => true
  | _ => false

/-- The domain a loop event is tagged with. -/
def evTag : Ev → Option String
  | Ev.wakeOverride d => some d
  | Ev.distinctnessWake d => some d
  | Ev.wakeOverrideUsed d => some d
  | Ev.unmetDomain d _ => some d
  | _ => none

/-- All candidate lists the five tiers draw from, for stating that a
domain's chosen units come from its candidate pool. -/
def pdAllCands (c : PdCtx) (used : List String) (d : String) : List String :=
  pdUnusedStrict c used d ++ pdUnusedOverride c used d ++
    pdUsedStrict c used d ++ pdUsedOverride c used d

/-- One selection stage extends another: the bookkeeping facts relating
a `PickSt` to a later one. `Δ` is the list of units the intervening
stages picked, all drawn from `cands`. -/
def PickExt (cands : List String) (p q : PickSt) : Prop :=
  ∃ Δ : List String,
    q.chosen = p.chosen ++ Δ ∧
    (∀ u ∈ Δ, u ∈ cands) ∧
    q.need + (Δ.length : ℤ) = p.need ∧
    (∀ u, u ∉ Δ → capGet q.capacity u = capGet p.capacity u) ∧
    (q.capacity.map Prod.fst = p.capacity.map Prod.fst) ∧
    (∀ v, v ∈ q.used → v ∈ p.used ∨ v ∈ Δ) ∧
    (∀ v ∈ p.used, v ∈ q.used) ∧
    (q.used.length ≤ p.used.length + Δ.length) ∧
    (p.used.Nodup → q.used.Nodup)

def isStreakFailureEv : Ev → Bool
  | Ev.missionFailureStreak _ => true
  | _ => false

def isMissionFailureEv (e : Ev) : Bool :=
  isGapFailureEv e || isStreakFailureEv e

def isUnmetAggregateEv : Ev → Bool
  | Ev.unmetAggregate _ => true
  | _ => false

/- ----------------------------------------------------------------------
Concrete example instances used by counterexamples and witnesses.
---------------------------------------------------------------------- -/

/-- One domain requiring 2 units but only one unit fielded: produces a
partial (1-of-2) assignment every tick.  Non-strict so runs continue. -/
def cfgPartial : Config :=
  { domains := ["radar", "rest"], pools := [], requiredMap := [("radar", 2)],
    maxGapTicks := 1, tickMs := 1, strictMissionFailure := false }

def exPartial1 : TickResult := scheduleTick (initSched cfgPartial) [("u1", true)]

def exPartialRun : List TickResult := runTicks (initSched cfgPartial) [("u1", true)] 2

/-- Two alternately-served domains, one unit of capacity 1, strict mode:
the global unmet streak raises although no single domain is ever unmet
more than one tick in a row. -/
def cfgTwoDom : Config :=
  { domains := ["a", "b", "rest"], pools := [], requiredMap := [("a", 1), ("b", 1)],
    maxGapTicks := 2, tickMs := 1, capacityPerUnit := 1, strictMissionFailure := true }

def exTwoDomRun : List TickResult := runTicks (initSched cfgTwoDom) [("u1", true)] 3

/-- Two domains, two units, capacity 1, and a permanent `(u2, b)` fault:
a perfect matching exists (`a → u2`, `b → u1`) but the greedy tiers give
`a` to `u1` and leave `b` unmet. -/
def cfgFault : Config :=
  { domains := ["a", "b", "rest"], pools := [], requiredMap := [("a", 1), ("b", 1)],
    maxGapTicks := 5, tickMs := 1, capacityPerUnit := 1, strictMissionFailure := false }

def sFault : Sched := setDomainFault (initSched cfgFault) "u2" "b" none true

def aliveFault : List (String × Bool) := [("u1", true), ("u2", true)]

def exFault : TickResult := scheduleTick sFault aliveFault

/-- Mission domain list `["b", "a"]`: with equal deadlines the code keeps
this order while the spec's `(deadline, slack, d)` key would give
`["a", "b"]`. -/
def cfgOrder : Config :=
  { domains := ["b", "a", "rest"], pools := [], requiredMap := [("a", 1), ("b", 1)],
    maxGapTicks := 3, tickMs := 1 }

def sOrder : Sched := initSched cfgOrder

/-- Simple steady-state mission used by witnesses: one domain, two
units. -/
def cfgSteady : Config :=
  { domains := ["radar", "rest"], pools := [], requiredMap := [("radar", 1)],
    maxGapTicks := 100, tickMs := 1, batteryLifeMs := 1000,
    strictMissionFailure := false, domainWeights := [("rest", 2)] }

def aliveSteady : List (String × Bool) := [("u1", true), ("u2", true)]

def exSteady : TickResult := scheduleTick (initSched cfgSteady) aliveSteady

/-- One domain of weight zero: its unit is assigned but accumulates zero
drain, so the end-of-tick battery pass recharges it. -/
def cfgZeroW : Config :=
  { domains := ["radar", "rest"], pools := [], requiredMap := [("radar", 1)],
    maxGapTicks := 100, tickMs := 1, batteryLifeMs := 1000,
    strictMissionFailure := false, domainWeights := [("radar", 0)] }

def sZeroW : Sched :=
  { initSched cfgZeroW with batteryPct := fun _ => some 50 }

def aliveZeroW : List (String × Bool) := [("u1", true)]

def exZeroW : TickResult := scheduleTick sZeroW aliveZeroW

/-- The steady-state mission with `u1` already battery-dead (battery
pinned at 0), as left behind by an earlier death tick. -/
def sDead : Sched :=
  { initSched cfgSteady with
    batteryDead := ["u1"],
    batteryPct := fun u => if u = "u1" then some 0 else (initSched cfgSteady).batteryPct u }

/- ----------------------------------------------------------------------
Theorems.  Helper lemmas about the selection tiers and the assignment
loop come first; the claim theorems follow.
---------------------------------------------------------------------- -/

theorem lem_capGet_capDec_ne (cap : List (String × ℤ)) (u v : String) (h : v ≠ u) :
    capGet (capDec cap u) v = capGet cap v := by
  induction cap with
  | nil => rfl
  | cons p rest ih =>
    rcases p with ⟨a, n⟩
    by_cases hau : a = u
    · have hav : ¬(a = v) := fun hh => h (hh ▸ hau ▸ rfl)
      simp only [capDec, List.map_cons, if_pos hau, capGet]
      rw [if_neg hav, if_neg hav]
      exact ih
    · simp only [capDec, List.map_cons, if_neg hau, capGet]
      by_cases hav : a = v
      · rw [if_pos hav, if_pos hav]
      · rw [if_neg hav, if_neg hav]
        exact ih

theorem lem_capGet_capDec_le (cap : List (String × ℤ)) (u v : String) :
    capGet (capDec cap u) v ≤ capGet cap v := by
  induction cap with
  | nil => exact le_refl 0
  | cons p rest ih =>
    rcases p with ⟨a, n⟩
    by_cases hau : a = u
    · simp only [capDec, List.map_cons, if_pos hau, capGet]
      by_cases hav : a = v
      · rw [if_pos hav, if_pos hav]; omega
      · rw [if_neg hav, if_neg hav]; exact ih
    · simp only [capDec, List.map_cons, if_neg hau, capGet]
      by_cases hav : a = v
      · rw [if_pos hav, if_pos hav]
      · rw [if_neg hav, if_neg hav]; exact ih

theorem lem_capDec_map_fst (cap : List (String × ℤ)) (u : String) :
    (capDec cap u).map Prod.fst = cap.map Prod.fst := by
  induction cap with
  | nil => rfl
  | cons p rest ih =>
    have hcons : capDec (p :: rest) u =
        (if p.1 = u then (p.1, p.2 - 1) else p) :: capDec rest u := rfl
    rw [hcons]
    by_cases hp : p.1 = u
    · rw [if_pos hp, List.map_cons, List.map_cons, ih]
    · rw [if_neg hp, List.map_cons, List.map_cons, ih]

theorem lem_usedAdd_mem (used : List String) (u v : String) :
    v ∈ usedAdd used u ↔ v ∈ used ∨ v = u := by
  unfold usedAdd
  by_cases h : u ∈ used
  · rw [if_pos (List.elem_eq_true_of_mem h)]
    constructor
    · exact Or.inl
    · rintro (hv | rfl)
      · exact hv
      · exact h
  · rw [if_neg (fun hc => h (List.mem_of_elem_eq_true hc))]
    simp [List.mem_append]

theorem lem_usedAdd_length (used : List String) (u : String) :
    (usedAdd used u).length ≤ used.length + 1 := by
  unfold usedAdd
  by_cases h : used.contains u = true
  · rw [if_pos h]; omega
  · rw [if_neg h]; simp

theorem lem_usedAdd_nodup (used : List String) (u : String) (h : used.Nodup) :
    (usedAdd used u).Nodup := by
  unfold usedAdd
  by_cases hc : used.contains u = true
  · rw [if_pos hc]; exact h
  · rw [if_neg hc]
    rw [List.nodup_append]
    refine ⟨h, List.nodup_singleton u, ?_⟩
    intro v hv
    simp only [List.mem_singleton]
    intro hvu
    subst hvu
    exact hc (List.elem_eq_true_of_mem hv)

/-- Each tier step either does nothing or picks the visited unit:
decrements its capacity and the need, appends it to `chosen` and (for
tiers A–C) to `used_units`. -/
theorem lem_tierStep_cases (k : List String) (ko cs au : Bool) (st : PickSt) (u : String) :
    tierStep k ko cs au st u = st ∨
    (0 < st.need ∧ canTake st.capacity u = true ∧ (cs = true → u ∉ st.chosen) ∧
      tierStep k ko cs au st u =
        ⟨st.need - 1, capDec st.capacity u, st.chosen ++ [u],
          if au then usedAdd st.used u else st.used⟩) := by
  unfold tierStep
  by_cases h1 : st.need ≤ 0
  · exact Or.inl (by rw [if_pos h1])
  rw [if_neg h1]
  by_cases h2 : (ko && !k.contains u) = true
  · exact Or.inl (by rw [if_pos h2])
  rw [if_neg h2]
  by_cases h3 : (cs && st.chosen.contains u) = true
  · exact Or.inl (by rw [if_pos h3])
  rw [if_neg h3]
  by_cases h4 : canTake st.capacity u = true
  · refine Or.inr ⟨lt_of_not_le h1, h4, ?_, ?_⟩
    · intro hcs hmem
      have hc : st.chosen.contains u = true := List.elem_eq_true_of_mem hmem
      rw [hcs, hc] at h3
      exact h3 rfl
    · rw [show (!canTake st.capacity u) = false by rw [h4]; rfl]
      rw [if_neg (by simp)]
  · exact Or.inl (by
      rw [if_pos (by
        rw [show canTake st.capacity u = false from Bool.eq_false_iff.2 h4]
        rfl)])

theorem lem_tierRun_chosen_mono (k : List String) (ko cs au : Bool)
    (cands : List String) (st : PickSt) :
    ∀ v ∈ st.chosen, v ∈ (tierRun k ko cs au cands st).chosen := by
  induction cands generalizing st with
  | nil => intro v hv; simpa [tierRun] using hv
  | cons u rest ih =>
    intro v hv
    show v ∈ (tierRun k ko cs au rest (tierStep k ko cs au st u)).chosen
    apply ih
    rcases lem_tierStep_cases k ko cs au st u with heq | ⟨_, _, _, heq⟩ <;> rw [heq]
    · exact hv
    · exact List.mem_append_left _ hv

/-- The combined bookkeeping of one tier: the units `Δ` it picked, drawn
from its candidate list, each consuming one capacity point and one unit
of need; capacities of unpicked units and the capacity key set are
untouched; `used_units` grows by exactly the picked units when the tier
records usage; distinctness of `used_units` is preserved; and with a
duplicate-free candidate list the picks are distinct and (under the
`chosen`-skip used by tier B) disjoint from the previously chosen. -/
theorem lem_tierRun_spec (k : List String) (ko cs au : Bool)
    (cands : List String) (st : PickSt) :
    ∃ Δ : List String,
      (tierRun k ko cs au cands st).chosen = st.chosen ++ Δ ∧
      (∀ u ∈ Δ, u ∈ cands) ∧
      (tierRun k ko cs au cands st).need + (Δ.length : ℤ) = st.need ∧
      (∀ u, u ∉ Δ → capGet (tierRun k ko cs au cands st).capacity u = capGet st.capacity u) ∧
      ((tierRun k ko cs au cands st).capacity.map Prod.fst = st.capacity.map Prod.fst) ∧
      (∀ v, v ∈ (tierRun k ko cs au cands st).used ↔ v ∈ st.used ∨ (au = true ∧ v ∈ Δ)) ∧
      ((tierRun k ko cs au cands st).used.length ≤ st.used.length + Δ.length) ∧
      (st.used.Nodup → (tierRun k ko cs au cands st).used.Nodup) ∧
      (cands.Nodup → Δ.Nodup ∧ (cs = true → ∀ u ∈ Δ, u ∉ st.chosen)) := by
  induction cands generalizing st with
  | nil =>
    exact ⟨[], by simp [tierRun], by simp, by simp [tierRun], fun u _ => rfl, rfl,
      fun v => by simp [tierRun], by simp [tierRun], fun h => h,
      fun _ => ⟨List.nodup_nil, fun _ v hv => absurd hv (List.not_mem_nil v)⟩⟩
  | cons u rest ih =>
    have hrun : tierRun k ko cs au (u :: rest) st =
        tierRun k ko cs au rest (tierStep k ko cs au st u) := rfl
    rcases lem_tierStep_cases k ko cs au st u with heq | ⟨hpos, hcap, hcs0, heq⟩
    · rcases ih (tierStep k ko cs au st u) with
        ⟨Δ, h1, h2, h3, h4, h5, h6, h7, h8, h9⟩
      rw [heq] at h1 h3 h4 h5 h6 h7 h8 h9
      rw [hrun, heq]
      refine ⟨Δ, h1, fun v hv => List.mem_cons_of_mem u (h2 v hv), h3, h4, h5, h6, h7, h8, ?_⟩
      intro hnd
      exact h9 (List.nodup_cons.1 hnd).2
    · rcases ih ⟨st.need - 1, capDec st.capacity u, st.chosen ++ [u],
        if au then usedAdd st.used u else st.used⟩ with
        ⟨Δ, h1, h2, h3, h4, h5, h6, h7, h8, h9⟩
      rw [hrun, heq]
      dsimp only at h1 h3 h4 h5 h6 h7 h8 h9
      refine ⟨u :: Δ, ?_, ?_, ?_, ?_, ?_, ?_, ?_, ?_, ?_⟩
      · rw [h1, List.append_assoc]
        rfl
      · rintro v hv
        rcases List.mem_cons.1 hv with rfl | hv2
        · exact List.mem_cons_self _ _
        · exact List.mem_cons_of_mem u (h2 v hv2)
      · rw [List.length_cons]
        push_cast
        linarith

      · intro v hv
        have hvu : v ≠ u := fun hh => hv (hh ▸ List.mem_cons_self u Δ)
        have hvΔ : v ∉ Δ := fun hh => hv (List.mem_cons_of_mem u hh)
        rw [h4 v hvΔ]
        exact lem_capGet_capDec_ne st.capacity u v hvu
      · rw [h5]
        exact lem_capDec_map_fst st.capacity u
      · intro v
        rw [h6 v]
        have hm : v ∈ (if au then usedAdd st.used u else st.used) ↔
            v ∈ st.used ∨ (au = true ∧ v = u) := by
          cases au with
          | false => simp
          | true => simpa using lem_usedAdd_mem st.used u v
        rw [hm]
        constructor
        · rintro ((hv | ⟨hau, rfl⟩) | ⟨hau, hv⟩)
          · exact Or.inl hv
          · exact Or.inr ⟨hau, List.mem_cons_self _ _⟩
          · exact Or.inr ⟨hau, List.mem_cons_of_mem u hv⟩
        · rintro (hv | ⟨hau, hv⟩)
          · exact Or.inl (Or.inl hv)
          · rcases List.mem_cons.1 hv with rfl | hv2
            · exact Or.inl (Or.inr ⟨hau, rfl⟩)
            · exact Or.inr ⟨hau, hv2⟩
      · have hlen1 : (if au then usedAdd st.used u else st.used).length ≤ st.used.length + 1 := by
          cases au with
          | false => simp
          | true => simpa using lem_usedAdd_length st.used u
        rw [List.length_cons]
        omega
      · intro hnd
        apply h8
        cases au with
        | false => simpa using hnd
        | true => simpa using lem_usedAdd_nodup st.used u hnd
      · intro hnd
        rcases h9 (List.nodup_cons.1 hnd).2 with ⟨hΔ, hdisj⟩
        have huΔ : u ∉ Δ := by
          intro hu
          exact (List.nodup_cons.1 hnd).1 (h2 u hu)
        refine ⟨List.nodup_cons.2 ⟨huΔ, hΔ⟩, ?_⟩
        intro hcseq v hv hvst
        rcases List.mem_cons.1 hv with rfl | hv2
        · exact hcs0 hcseq hvst
        · exact hdisj hcseq v hv2 (List.mem_append_left _ hvst)

theorem lem_tierRun_need_le (k : List String) (ko cs au : Bool)
    (cands : List String) (st : PickSt) :
    (tierRun k ko cs au cands st).need ≤ st.need := by
  rcases lem_tierRun_spec k ko cs au cands st with ⟨Δ, _, _, h3, _⟩
  have h0 : (0 : ℤ) ≤ (Δ.length : ℤ) := Int.ofNat_nonneg _
  linarith

/-- Tier completeness: when a tier finishes with need remaining, every
candidate it saw was either picked (this tier or earlier), rejected by
tier A's keep filter, already chosen (tier B's skip, hence picked
earlier in this domain), or out of capacity before the tier started. -/
theorem lem_tierRun_complete (k : List String) (ko cs au : Bool)
    (cands : List String) (st : PickSt)
    (hnd : cands.Nodup) (hneed : 0 < (tierRun k ko cs au cands st).need) :
    ∀ u ∈ cands, u ∈ (tierRun k ko cs au cands st).chosen ∨
      (ko = true ∧ k.contains u = false) ∨ capGet st.capacity u ≤ 0 := by
  induction cands generalizing st with
  | nil => intro u hu; exact absurd hu (List.not_mem_nil u)
  | cons u rest ih =>
    have hrun : tierRun k ko cs au (u :: rest) st =
        tierRun k ko cs au rest (tierStep k ko cs au st u) := rfl
    have hstpos : 0 < st.need := by
      have h1 := lem_tierRun_need_le k ko cs au rest (tierStep k ko cs au st u)
      rw [hrun] at hneed
      rcases lem_tierStep_cases k ko cs au st u with heq | ⟨hp, _, _, _⟩
      · rw [heq] at hneed h1; linarith
      · exact hp
    intro v hv
    rcases List.mem_cons.1 hv with rfl | hv2
    · by_cases h2 : (ko && !k.contains v) = true
      · rw [Bool.and_eq_true] at h2
        refine Or.inr (Or.inl ⟨h2.1, ?_⟩)
        have hnk := h2.2
        cases hk : k.contains v
        · rfl
        · rw [hk] at hnk; exact absurd hnk (by simp)
      by_cases h3 : (cs && st.chosen.contains v) = true
      · refine Or.inl ?_
        have h3' := h3
        rw [Bool.and_eq_true] at h3'
        have hmem : v ∈ st.chosen := List.mem_of_elem_eq_true h3'.2
        rw [hrun]
        refine lem_tierRun_chosen_mono k ko cs au rest _ v ?_
        rcases lem_tierStep_cases k ko cs au st v with heq | ⟨_, _, _, heq⟩
        · rw [heq]; exact hmem
        · rw [heq]; exact List.mem_append_left _ hmem
      by_cases h4 : canTake st.capacity v = true
      · refine Or.inl ?_
        have heq : tierStep k ko cs au st v =
            ⟨st.need - 1, capDec st.capacity v, st.chosen ++ [v],
              if au then usedAdd st.used v else st.used⟩ := by
          unfold tierStep
          rw [if_neg (not_le.2 hstpos), if_neg h2, if_neg h3,
            show (!canTake st.capacity v) = false by rw [h4]; rfl]
          rw [if_neg (by simp)]
        rw [hrun]
        refine lem_tierRun_chosen_mono k ko cs au rest _ v ?_
        rw [heq]
        exact List.mem_append_right _ (List.mem_singleton_self v)
      · refine Or.inr (Or.inr ?_)
        have : ¬(0 < capGet st.capacity v) := by
          intro hc
          exact h4 (by unfold canTake; exact decide_eq_true hc)
        linarith
    · have hvu : v ≠ u := by
        intro hh
        exact (List.nodup_cons.1 hnd).1 (hh ▸ hv2)
      rw [hrun] at hneed
      have hres := ih (tierStep k ko cs au st u) (List.nodup_cons.1 hnd).2 hneed v hv2
      rcases hres with h | h | h
      · exact Or.inl (by rw [hrun]; exact h)
      · exact Or.inr (Or.inl h)
      · refine Or.inr (Or.inr ?_)
        rcases lem_tierStep_cases k ko cs au st u with heq | ⟨_, _, _, heq⟩
        · rw [heq] at h; exact h
        · rw [heq] at h
          dsimp only at h
          rw [lem_capGet_capDec_ne st.capacity u v hvu] at h
          exact h

theorem lem_PickExt_refl (cands : List String) (p : PickSt) : PickExt cands p p :=
  ⟨[], by simp, by simp, by simp, fun u _ => rfl, rfl, fun v hv => Or.inl hv,
    fun v hv => hv, by simp, fun h => h⟩

theorem lem_PickExt_mono {c1 c2 : List String} {p q : PickSt}
    (h : PickExt c1 p q) (hsub : ∀ u ∈ c1, u ∈ c2) : PickExt c2 p q := by
  rcases h with ⟨Δ, a, b, n, f, k, s, m, l, nd⟩
  exact ⟨Δ, a, fun u hu => hsub u (b u hu), n, f, k, s, m, l, nd⟩

theorem lem_PickExt_trans {c1 c2 : List String} {p q r : PickSt}
    (h1 : PickExt c1 p q) (h2 : PickExt c2 q r) : PickExt (c1 ++ c2) p r := by
  rcases h1 with ⟨Δ1, a1, b1, n1, f1, k1, s1, m1, l1, d1⟩
  rcases h2 with ⟨Δ2, a2, b2, n2, f2, k2, s2, m2, l2, d2⟩
  refine ⟨Δ1 ++ Δ2, ?_, ?_, ?_, ?_, ?_, ?_, ?_, ?_, ?_⟩
  · rw [a2, a1, List.append_assoc]
  · intro u hu
    rcases List.mem_append.1 hu with h | h
    · exact List.mem_append_left _ (b1 u h)
    · exact List.mem_append_right _ (b2 u h)
  · rw [List.length_append]
    push_cast
    linarith
  · intro u hu
    rw [f2 u (fun hh => hu (List.mem_append_right _ hh)),
      f1 u (fun hh => hu (List.mem_append_left _ hh))]
  · rw [k2, k1]
  · intro v hv
    rcases s2 v hv with h | h
    · rcases s1 v h with h2 | h2
      · exact Or.inl h2
      · exact Or.inr (List.mem_append_left _ h2)
    · exact Or.inr (List.mem_append_right _ h)
  · exact fun v hv => m2 v (m1 v hv)
  · rw [List.length_append]
    omega
  · exact fun h => d2 (d1 h)

theorem lem_tierRun_ext (k : List String) (ko cs au : Bool)
    (cands : List String) (st : PickSt) :
    PickExt cands st (tierRun k ko cs au cands st) := by
  rcases lem_tierRun_spec k ko cs au cands st with ⟨Δ, h1, h2, h3, h4, h5, h6, h7, h8, _⟩
  refine ⟨Δ, h1, h2, h3, h4, h5, ?_, ?_, h7, h8⟩
  · intro v hv
    rcases (h6 v).1 hv with h | ⟨_, h⟩
    · exact Or.inl h
    · exact Or.inr h
  · intro v hv
    exact (h6 v).2 (Or.inl hv)

/-- The five tiers together form one stage extension from the initial
selection state to the final one, drawing only from the four candidate
lists. -/
theorem lem_pd_ext (c : PdCtx) (st : LoopSt) (d : String) :
    PickExt (pdAllCands c st.used d) (pdP0 c st d) (pdP5 c st d) := by
  have e1 : PickExt (pdUnusedStrict c st.used d) (pdP0 c st d) (pdP1 c st d) := by
    unfold pdP1
    split
    · exact lem_tierRun_ext _ _ _ _ _ _
    · exact lem_PickExt_refl _ _
  have e2 : PickExt (pdUnusedStrict c st.used d) (pdP1 c st d) (pdP2 c st d) :=
    lem_tierRun_ext _ _ _ _ _ _
  have e3 : PickExt (pdUnusedOverride c st.used d) (pdP2 c st d) (pdP3 c st d) := by
    unfold pdP3
    split
    · exact lem_tierRun_ext _ _ _ _ _ _
    · exact lem_PickExt_refl _ _
  have e4 : PickExt (pdUsedStrict c st.used d) (pdP3 c st d) (pdP4 c st d) :=
    lem_tierRun_ext _ _ _ _ _ _
  have e5 : PickExt (pdUsedOverride c st.used d) (pdP4 c st d) (pdP5 c st d) := by
    unfold pdP5
    split
    · exact lem_tierRun_ext _ _ _ _ _ _
    · exact lem_PickExt_refl _ _
  have hall := lem_PickExt_trans (lem_PickExt_trans (lem_PickExt_trans
    (lem_PickExt_trans e1 e2) e3) e4) e5
  refine lem_PickExt_mono hall ?_
  intro u hu
  unfold pdAllCands
  simp only [List.mem_append] at hu ⊢
  tauto

theorem lem_contains_iff (l : List String) (u : String) :
    l.contains u = true ↔ u ∈ l :=
  ⟨List.mem_of_elem_eq_true, List.elem_eq_true_of_mem⟩

theorem lem_mem_pdSort (c : PdCtx) (d : String) (l : List String) (u : String) :
    u ∈ pdSort c d l ↔ u ∈ l :=
  (List.perm_insertionSort _ l).mem_iff

theorem lem_pdSort_nodup (c : PdCtx) (d : String) (l : List String) (h : l.Nodup) :
    (pdSort c d l).Nodup :=
  ((List.perm_insertionSort _ l).nodup_iff).2 h

theorem lem_dedupFirst_mem_aux (l acc : List String) (u : String) :
    u ∈ l.foldl (fun out v => if out.contains v then out else out ++ [v]) acc ↔
      u ∈ acc ∨ u ∈ l := by
  induction l generalizing acc with
  | nil => simp
  | cons v rest ih =>
    show u ∈ rest.foldl _ (if acc.contains v then acc else acc ++ [v]) ↔ _
    rw [ih]
    by_cases hc : acc.contains v = true
    · rw [if_pos hc]
      have hv : v ∈ acc := (lem_contains_iff acc v).1 hc
      constructor
      · rintro (h | h)
        · exact Or.inl h
        · exact Or.inr (List.mem_cons_of_mem v h)
      · rintro (h | h)
        · exact Or.inl h
        · rcases List.mem_cons.1 h with rfl | h2
          · exact Or.inl hv
          · exact Or.inr h2
    · rw [if_neg hc]
      simp only [List.mem_append, List.mem_singleton, List.mem_cons]
      tauto

theorem lem_dedupFirst_mem (l : List String) (u : String) :
    u ∈ dedupFirst l ↔ u ∈ l := by
  unfold dedupFirst
  rw [lem_dedupFirst_mem_aux]
  simp

theorem lem_dedupFirst_nodup_aux (l acc : List String) (h : acc.Nodup) :
    (l.foldl (fun out v => if out.contains v then out else out ++ [v]) acc).Nodup := by
  induction l generalizing acc with
  | nil => exact h
  | cons v rest ih =>
    show (rest.foldl _ (if acc.contains v then acc else acc ++ [v])).Nodup
    apply ih
    by_cases hc : acc.contains v = true
    · rw [if_pos hc]; exact h
    · rw [if_neg hc]
      rw [List.nodup_append]
      refine ⟨h, List.nodup_singleton v, ?_⟩
      intro w hw
      simp only [List.mem_singleton]
      intro hwv
      subst hwv
      exact hc ((lem_contains_iff acc w).2 hw)

theorem lem_dedupFirst_nodup (l : List String) : (dedupFirst l).Nodup :=
  lem_dedupFirst_nodup_aux l [] List.nodup_nil

theorem lem_candidates_nodup (s : Sched) (d : String) (alive : List (String × Bool))
    (unitsAll : List String) (ao : Bool) (hua : unitsAll.Nodup) :
    (candidatesForDomain s d alive unitsAll ao).Nodup := by
  unfold candidatesForDomain
  split
  · exact hua.filter _
  · exact lem_dedupFirst_nodup _

theorem lem_candidates_ok (s : Sched) (d : String) (alive : List (String × Bool))
    (unitsAll : List String) (ao : Bool) (u : String)
    (hu : u ∈ candidatesForDomain s d alive unitsAll ao) :
    candOk s alive d ao u = true := by
  unfold candidatesForDomain at hu
  split at hu
  · exact List.of_mem_filter hu
  · rw [lem_dedupFirst_mem] at hu
    rcases List.mem_append.1 hu with h | h
    · exact List.of_mem_filter h
    · exact List.of_mem_filter h

theorem lem_candOk_mono (s : Sched) (alive : List (String × Bool)) (d : String)
    (u : String) (h : candOk s alive d false u = true) :
    candOk s alive d true u = true := by
  unfold candOk at h ⊢
  rw [Bool.and_eq_true] at h
  rw [Bool.and_eq_true]
  exact ⟨h.1, by simp⟩

theorem lem_candidates_mono (s : Sched) (d : String) (alive : List (String × Bool))
    (unitsAll : List String) (u : String)
    (hu : u ∈ candidatesForDomain s d alive unitsAll false) :
    u ∈ candidatesForDomain s d alive unitsAll true := by
  unfold candidatesForDomain at hu ⊢
  split at hu <;> rename_i hmode
  · rw [if_pos hmode]
    exact List.mem_filter.2 ⟨List.mem_of_mem_filter hu,
      lem_candOk_mono s alive d u (List.of_mem_filter hu)⟩
  · rw [if_neg hmode]
    rw [lem_dedupFirst_mem] at hu
    rw [lem_dedupFirst_mem]
    rcases List.mem_append.1 hu with h | h
    · exact List.mem_append_left _ (List.mem_filter.2 ⟨List.mem_of_mem_filter h,
        lem_candOk_mono s alive d u (List.of_mem_filter h)⟩)
    · exact List.mem_append_right _ (List.mem_filter.2 ⟨List.mem_of_mem_filter h,
        lem_candOk_mono s alive d u (List.of_mem_filter h)⟩)

theorem lem_pdStrictL_sub (c : PdCtx) (d : String) (u : String)
    (hu : u ∈ pdStrictL c d) : u ∈ pdOverride c d := by
  unfold pdStrictL at hu
  split at hu
  · exact hu
  · exact lem_candidates_mono c.s d c.alive c.unitsAll u hu

theorem lem_mem_US (c : PdCtx) (used : List String) (d : String) (u : String) :
    u ∈ pdUnusedStrict c used d ↔ u ∈ pdStrictL c d ∧ u ∉ used := by
  unfold pdUnusedStrict
  rw [lem_mem_pdSort, List.mem_filter]
  constructor
  · rintro ⟨h1, h2⟩
    refine ⟨h1, ?_⟩
    intro hm
    rw [(lem_contains_iff used u).2 hm] at h2
    exact absurd h2 (by simp)
  · rintro ⟨h1, h2⟩
    refine ⟨h1, ?_⟩
    cases hc : used.contains u
    · rfl
    · exact absurd ((lem_contains_iff used u).1 hc) h2

theorem lem_mem_DS (c : PdCtx) (used : List String) (d : String) (u : String) :
    u ∈ pdUsedStrict c used d ↔ u ∈ pdStrictL c d ∧ u ∈ used := by
  unfold pdUsedStrict
  rw [lem_mem_pdSort, List.mem_filter]
  rw [lem_contains_iff]

theorem lem_mem_UO (c : PdCtx) (used : List String) (d : String) (u : String) :
    u ∈ pdUnusedOverride c used d ↔
      u ∈ pdOverride c d ∧ u ∉ used ∧ u ∉ pdUnusedStrict c used d := by
  unfold pdUnusedOverride
  rw [lem_mem_pdSort, List.mem_filter]
  rw [Bool.and_eq_true]
  constructor
  · rintro ⟨h1, h2, h3⟩
    refine ⟨h1, ?_, ?_⟩
    · intro hm
      rw [(lem_contains_iff used u).2 hm] at h2
      exact absurd h2 (by simp)
    · intro hm
      rw [(lem_contains_iff _ u).2 hm] at h3
      exact absurd h3 (by simp)
  · rintro ⟨h1, h2, h3⟩
    refine ⟨h1, ?_, ?_⟩
    · cases hc : used.contains u
      · rfl
      · exact absurd ((lem_contains_iff used u).1 hc) h2
    · cases hc : (pdUnusedStrict c used d).contains u
      · rfl
      · exact absurd ((lem_contains_iff _ u).1 hc) h3

theorem lem_mem_DO (c : PdCtx) (used : List String) (d : String) (u : String) :
    u ∈ pdUsedOverride c used d ↔
      u ∈ pdOverride c d ∧ u ∈ used ∧ u ∉ pdUsedStrict c used d := by
  unfold pdUsedOverride
  rw [lem_mem_pdSort, List.mem_filter]
  rw [Bool.and_eq_true]
  constructor
  · rintro ⟨h1, h2, h3⟩
    refine ⟨h1, (lem_contains_iff used u).1 h2, ?_⟩
    intro hm
    rw [(lem_contains_iff _ u).2 hm] at h3
    exact absurd h3 (by simp)
  · rintro ⟨h1, h2, h3⟩
    refine ⟨h1, (lem_contains_iff used u).2 h2, ?_⟩
    cases hc : (pdUsedStrict c used d).contains u
    · rfl
    · exact absurd ((lem_contains_iff _ u).1 hc) h3

/-- Every override candidate is on one of the four tier lists. -/
theorem lem_pd_coverage (c : PdCtx) (used : List String) (d : String) (u : String)
    (hu : u ∈ pdOverride c d) : u ∈ pdAllCands c used d := by
  simp only [pdAllCands, List.mem_append]
  by_cases hused : u ∈ used
  · by_cases hs : u ∈ pdStrictL c d
    · exact Or.inl (Or.inr ((lem_mem_DS c used d u).2 ⟨hs, hused⟩))
    · refine Or.inr ((lem_mem_DO c used d u).2 ⟨hu, hused, ?_⟩)
      intro hm
      exact hs ((lem_mem_DS c used d u).1 hm).1
  · by_cases hUS : u ∈ pdUnusedStrict c used d
    · exact Or.inl (Or.inl (Or.inl hUS))
    · by_cases hs : u ∈ pdStrictL c d
      · exact absurd ((lem_mem_US c used d u).2 ⟨hs, hused⟩) hUS
      · exact Or.inl (Or.inl (Or.inr ((lem_mem_UO c used d u).2 ⟨hu, hused, hUS⟩)))

theorem lem_tierRun_need_nonneg (k : List String) (ko cs au : Bool)
    (cands : List String) (st : PickSt) (h : 0 ≤ st.need) :
    0 ≤ (tierRun k ko cs au cands st).need := by
  induction cands generalizing st with
  | nil => exact h
  | cons u rest ih =>
    show 0 ≤ (tierRun k ko cs au rest (tierStep k ko cs au st u)).need
    apply ih
    rcases lem_tierStep_cases k ko cs au st u with heq | ⟨hp, _, _, heq⟩ <;> rw [heq]
    · exact h
    · dsimp only
      omega

theorem lem_pd5_need_nonneg (c : PdCtx) (st : LoopSt) (d : String)
    (h : 0 ≤ c.s.requiredGet d) : 0 ≤ (pdP5 c st d).need := by
  have h0 : 0 ≤ (pdP0 c st d).need := h
  have h1 : 0 ≤ (pdP1 c st d).need := by
    unfold pdP1
    split
    · exact lem_tierRun_need_nonneg _ _ _ _ _ _ h0
    · exact h0
  have h2 : 0 ≤ (pdP2 c st d).need := lem_tierRun_need_nonneg _ _ _ _ _ _ h1
  have h3 : 0 ≤ (pdP3 c st d).need := by
    unfold pdP3
    split
    · exact lem_tierRun_need_nonneg _ _ _ _ _ _ h2
    · exact h2
  have h4 : 0 ≤ (pdP4 c st d).need := lem_tierRun_need_nonneg _ _ _ _ _ _ h3
  unfold pdP5
  split
  · exact lem_tierRun_need_nonneg _ _ _ _ _ _ h4
  · exact h4

/-- The combined bookkeeping of the whole five-tier selection for one
domain. -/
theorem lem_pd5_facts (c : PdCtx) (st : LoopSt) (d : String) :
    (∀ u ∈ (pdP5 c st d).chosen, u ∈ pdAllCands c st.used d) ∧
    ((pdP5 c st d).need + (((pdP5 c st d).chosen.length : ℤ)) = c.s.requiredGet d) ∧
    (∀ u, u ∉ (pdP5 c st d).chosen → capGet (pdP5 c st d).capacity u = capGet st.capacity u) ∧
    ((pdP5 c st d).capacity.map Prod.fst = st.capacity.map Prod.fst) ∧
    (∀ v, v ∈ (pdP5 c st d).used → v ∈ st.used ∨ v ∈ (pdP5 c st d).chosen) ∧
    (∀ v ∈ st.used, v ∈ (pdP5 c st d).used) ∧
    ((pdP5 c st d).used.length ≤ st.used.length + (pdP5 c st d).chosen.length) ∧
    (st.used.Nodup → (pdP5 c st d).used.Nodup) := by
  rcases lem_pd_ext c st d with ⟨Δ, a, b, n, f, k, s, m, l, nd⟩
  have e1 : (pdP0 c st d).need = c.s.requiredGet d := rfl
  have e2 : (pdP0 c st d).capacity = st.capacity := rfl
  have e3 : (pdP0 c st d).used = st.used := rfl
  have e4 : (pdP0 c st d).chosen = [] := rfl
  rw [e1] at n
  rw [e2] at f k
  rw [e3] at s m l nd
  rw [e4, List.nil_append] at a
  rw [a]
  exact ⟨b, n, f, k, s, m, l, nd⟩

/-- A unit on either unused tier list was not on the incoming
`used_units` set, and a unit on a used tier list was. -/
theorem lem_unused_not_used (c : PdCtx) (used : List String) (d : String) (u : String)
    (hu : u ∈ pdUnusedStrict c used d ∨ u ∈ pdUnusedOverride c used d) : u ∉ used := by
  rcases hu with h | h
  · exact ((lem_mem_US c used d u).1 h).2
  · exact ((lem_mem_UO c used d u).1 h).2.1

/-- The units a domain's five tiers choose are pairwise distinct. -/
theorem lem_pd5_chosen_nodup (c : PdCtx) (st : LoopSt) (d : String)
    (hua : c.unitsAll.Nodup) : (pdP5 c st d).chosen.Nodup := by
  have hstrict : (pdStrictL c d).Nodup := by
    unfold pdStrictL
    split
    · exact lem_candidates_nodup _ _ _ _ _ hua
    · exact lem_candidates_nodup _ _ _ _ _ hua
  have hover : (pdOverride c d).Nodup := lem_candidates_nodup _ _ _ _ _ hua
  have hUS : (pdUnusedStrict c st.used d).Nodup := lem_pdSort_nodup _ _ _ (hstrict.filter _)
  have hDSnd : (pdUsedStrict c st.used d).Nodup := lem_pdSort_nodup _ _ _ (hstrict.filter _)
  have hUOnd : (pdUnusedOverride c st.used d).Nodup := lem_pdSort_nodup _ _ _ (hover.filter _)
  have hDOnd : (pdUsedOverride c st.used d).Nodup := lem_pdSort_nodup _ _ _ (hover.filter _)
  -- Stage A
  obtain ⟨hnd1, hsub1⟩ : (pdP1 c st d).chosen.Nodup ∧
      (∀ u ∈ (pdP1 c st d).chosen, u ∈ pdUnusedStrict c st.used d) := by
    unfold pdP1
    split
    · rcases lem_tierRun_spec (pdKeep c d) true false true
        (pdUnusedStrict c st.used d) (pdP0 c st d) with ⟨Δ, a, b, _, _, _, _, _, _, h9⟩
      have e4 : (pdP0 c st d).chosen = [] := rfl
      rw [e4, List.nil_append] at a
      rw [a]
      exact ⟨(h9 hUS).1, b⟩
    · exact ⟨List.nodup_nil, fun u hu => absurd hu (List.not_mem_nil u)⟩
  -- Stage B
  obtain ⟨hnd2, hsub2⟩ : (pdP2 c st d).chosen.Nodup ∧
      (∀ u ∈ (pdP2 c st d).chosen, u ∈ pdUnusedStrict c st.used d) := by
    have hp2 : pdP2 c st d =
        tierRun [] false true true (pdUnusedStrict c st.used d) (pdP1 c st d) := rfl
    rcases lem_tierRun_spec [] false true true (pdUnusedStrict c st.used d) (pdP1 c st d)
      with ⟨Δ, a, b, _, _, _, _, _, _, h9⟩
    rcases h9 hUS with ⟨hΔ, hdisj⟩
    rw [hp2, a]
    constructor
    · refine List.Nodup.append hnd1 hΔ ?_
      intro v hv1 hv2
      exact hdisj rfl v hv2 hv1
    · intro u hu
      rcases List.mem_append.1 hu with h | h
      · exact hsub1 u h
      · exact b u h
  -- Stage C
  obtain ⟨hnd3, hsub3⟩ : (pdP3 c st d).chosen.Nodup ∧
      (∀ u ∈ (pdP3 c st d).chosen,
        u ∈ pdUnusedStrict c st.used d ∨ u ∈ pdUnusedOverride c st.used d) := by
    unfold pdP3
    split
    · rcases lem_tierRun_spec [] false false true (pdUnusedOverride c st.used d) (pdP2 c st d)
        with ⟨Δ, a, b, _, _, _, _, _, _, h9⟩
      rw [a]
      constructor
      · refine List.Nodup.append hnd2 (h9 hUOnd).1 ?_
        intro v hv1 hv2
        exact ((lem_mem_UO c st.used d v).1 (b v hv2)).2.2 (hsub2 v hv1)
      · intro u hu
        rcases List.mem_append.1 hu with h | h
        · exact Or.inl (hsub2 u h)
        · exact Or.inr (b u h)
    · exact ⟨hnd2, fun u hu => Or.inl (hsub2 u hu)⟩
  -- Stage D
  obtain ⟨hnd4, hsub4⟩ : (pdP4 c st d).chosen.Nodup ∧
      (∀ u ∈ (pdP4 c st d).chosen,
        (u ∈ pdUnusedStrict c st.used d ∨ u ∈ pdUnusedOverride c st.used d) ∨
          u ∈ pdUsedStrict c st.used d) := by
    have hp4 : pdP4 c st d =
        tierRun [] false false false (pdUsedStrict c st.used d) (pdP3 c st d) := rfl
    rcases lem_tierRun_spec [] false false false (pdUsedStrict c st.used d) (pdP3 c st d)
      with ⟨Δ, a, b, _, _, _, _, _, _, h9⟩
    rw [hp4, a]
    constructor
    · refine List.Nodup.append hnd3 (h9 hDSnd).1 ?_
      intro v hv1 hv2
      have hvused : v ∈ st.used := ((lem_mem_DS c st.used d v).1 (b v hv2)).2
      exact lem_unused_not_used c st.used d v (hsub3 v hv1) hvused
    · intro u hu
      rcases List.mem_append.1 hu with h | h
      · exact Or.inl (hsub3 u h)
      · exact Or.inr (b u h)
  -- Stage E
  unfold pdP5
  split
  · rcases lem_tierRun_spec [] false false false (pdUsedOverride c st.used d) (pdP4 c st d)
      with ⟨Δ, a, b, _, _, _, _, _, _, h9⟩
    rw [a]
    refine List.Nodup.append hnd4 (h9 hDOnd).1 ?_
    intro v hv1 hv2
    have hmem := (lem_mem_DO c st.used d v).1 (b v hv2)
    rcases hsub4 v hv1 with h | h
    · exact lem_unused_not_used c st.used d v h hmem.2.1
    · exact hmem.2.2 h
  · exact hnd4

theorem lem_mem_ite_singleton {α : Type} (b : Prop) [Decidable b] (x e : α)
    (h : e ∈ if b then [x] else []) : e = x ∧ b := by
  split at h
  · rename_i hb
    exact ⟨by simpa using h, hb⟩
  · exact absurd h (List.not_mem_nil e)

theorem lem_mem_ite_singleton2 {α : Type} (b : Prop) [Decidable b] (x e : α)
    (h : e ∈ if b then [] else [x]) : e = x ∧ ¬b := by
  split at h
  · exact absurd h (List.not_mem_nil e)
  · rename_i hb
    exact ⟨by simpa using h, hb⟩

/-- The per-domain `unmet_requirements` event is emitted exactly when
need remains after all five tiers, and it carries the remaining need. -/
theorem lem_pdEvents_unmet (c : PdCtx) (st : LoopSt) (d : String) (d2 : String) (n : ℤ) :
    Ev.unmetDomain d2 n ∈ pdEvents c st d ↔
      d2 = d ∧ 0 < (pdP5 c st d).need ∧ n = (pdP5 c st d).need := by
  unfold pdEvents
  simp only [List.mem_append]
  constructor
  · rintro (((h | h) | h) | h)
    · rcases lem_mem_ite_singleton _ _ _ h with ⟨h, _⟩
      exact absurd h (by simp)
    · rcases lem_mem_ite_singleton _ _ _ h with ⟨h, _⟩
      exact absurd h (by simp)
    · rcases lem_mem_ite_singleton _ _ _ h with ⟨h, _⟩
      exact absurd h (by simp)
    · rcases lem_mem_ite_singleton _ _ _ h with ⟨h, hb⟩
      rw [Ev.unmetDomain.injEq] at h
      exact ⟨h.1, hb, h.2⟩
  · rintro ⟨rfl, hpos, rfl⟩
    refine Or.inr ?_
    rw [if_pos hpos]
    exact List.mem_singleton_self _

/-- Every event the loop body emits is a loop event tagged with the
processed domain. -/
theorem lem_pdEvents_tag (c : PdCtx) (st : LoopSt) (d : String) :
    ∀ e ∈ pdEvents c st d, isLoopEv e = true ∧ evTag e = some d := by
  intro e he
  unfold pdEvents at he
  simp only [List.mem_append] at he
  rcases he with ((h | h) | h) | h <;>
    rcases lem_mem_ite_singleton _ _ _ h with ⟨rfl, _⟩ <;>
    exact ⟨rfl, rfl⟩

theorem lem_processDomain_pos (c : PdCtx) (st : LoopSt) (d : String)
    (h : 0 < c.s.requiredGet d) :
    processDomain c st d =
      ⟨(pdP5 c st d).used, (pdP5 c st d).capacity,
        st.assignments ++ (pdP5 c st d).chosen.map (fun u => (d, u)),
        fun x => if x = d then st.assignMap d ++ (pdP5 c st d).chosen else st.assignMap x,
        if (pdP5 c st d).chosen.isEmpty then st.lastService
          else fun x => if x = d then c.s.tick else st.lastService x,
        fun u => if (pdP5 c st d).chosen.contains u then some c.s.tick else st.lastAssigned u,
        st.events ++ pdEvents c st d⟩ := by
  unfold processDomain
  rw [if_neg (not_le.2 h)]

theorem lem_processDomain_neg (c : PdCtx) (st : LoopSt) (d : String)
    (h : c.s.requiredGet d ≤ 0) : processDomain c st d = st := by
  unfold processDomain
  rw [if_pos h]

theorem lem_processDomain_assignMap_ne (c : PdCtx) (st : LoopSt) (d x : String)
    (hx : x ≠ d) : (processDomain c st d).assignMap x = st.assignMap x := by
  by_cases h : c.s.requiredGet d ≤ 0
  · rw [lem_processDomain_neg c st d h]
  · rw [lem_processDomain_pos c st d (not_le.1 h)]
    exact if_neg hx

theorem lem_processDomain_lastService_ne (c : PdCtx) (st : LoopSt) (d x : String)
    (hx : x ≠ d) : (processDomain c st d).lastService x = st.lastService x := by
  by_cases h : c.s.requiredGet d ≤ 0
  · rw [lem_processDomain_neg c st d h]
  · rw [lem_processDomain_pos c st d (not_le.1 h)]
    dsimp only
    split
    · rfl
    · exact if_neg hx

theorem lem_loop_assignMap_frame (c : PdCtx) (l : List String) (st : LoopSt) (x : String)
    (hx : x ∉ l) : (l.foldl (processDomain c) st).assignMap x = st.assignMap x := by
  induction l generalizing st with
  | nil => rfl
  | cons d rest ih =>
    show (rest.foldl (processDomain c) (processDomain c st d)).assignMap x = _
    rw [ih (processDomain c st d) (fun hh => hx (List.mem_cons_of_mem d hh))]
    exact lem_processDomain_assignMap_ne c st d x (fun hh => hx (hh ▸ List.mem_cons_self d rest))

theorem lem_loop_lastService_frame (c : PdCtx) (l : List String) (st : LoopSt) (x : String)
    (hx : x ∉ l) : (l.foldl (processDomain c) st).lastService x = st.lastService x := by
  induction l generalizing st with
  | nil => rfl
  | cons d rest ih =>
    show (rest.foldl (processDomain c) (processDomain c st d)).lastService x = _
    rw [ih (processDomain c st d) (fun hh => hx (List.mem_cons_of_mem d hh))]
    exact lem_processDomain_lastService_ne c st d x (fun hh => hx (hh ▸ List.mem_cons_self d rest))

theorem lem_loop_events (c : PdCtx) (l : List String) (st : LoopSt) :
    ∃ E, (l.foldl (processDomain c) st).events = st.events ++ E ∧
      ∀ e ∈ E, isLoopEv e = true ∧ ∃ d2 ∈ l, evTag e = some d2 := by
  induction l generalizing st with
  | nil => exact ⟨[], by simp, fun e he => absurd he (List.not_mem_nil e)⟩
  | cons d rest ih =>
    rcases ih (processDomain c st d) with ⟨E, hE, hprop⟩
    have hstep : ∃ E0, (processDomain c st d).events = st.events ++ E0 ∧
        ∀ e ∈ E0, isLoopEv e = true ∧ evTag e = some d := by
      by_cases h : c.s.requiredGet d ≤ 0
      · exact ⟨[], by rw [lem_processDomain_neg c st d h]; simp, fun e he => absurd he (List.not_mem_nil e)⟩
      · exact ⟨pdEvents c st d, by rw [lem_processDomain_pos c st d (not_le.1 h)],
          lem_pdEvents_tag c st d⟩
    rcases hstep with ⟨E0, hE0, hprop0⟩
    refine ⟨E0 ++ E, ?_, ?_⟩
    · show (rest.foldl (processDomain c) (processDomain c st d)).events = _
      rw [hE, hE0, List.append_assoc]
    · intro e he
      rcases List.mem_append.1 he with h | h
      · rcases hprop0 e h with ⟨h1, h2⟩
        exact ⟨h1, d, List.mem_cons_self d rest, h2⟩
      · rcases hprop e h with ⟨h1, d2, hd2, h2⟩
        exact ⟨h1, d2, List.mem_cons_of_mem d hd2, h2⟩

theorem lem_aliveGet_mem (alive : List (String × Bool)) (u : String)
    (h : aliveGet alive u = true) : u ∈ alive.map Prod.fst := by
  unfold aliveGet at h
  cases hf : alive.find? (fun p => p.1 = u) with
  | none => rw [hf] at h; exact absurd h (by simp)
  | some p =>
    have hp : p ∈ alive := List.mem_of_find?_eq_some hf
    have hpu : p.1 = u := by
      have := List.find?_some hf
      simpa using this
    exact hpu ▸ List.mem_map_of_mem Prod.fst hp

theorem lem_candOk_canAssign (s : Sched) (alive : List (String × Bool)) (d : String)
    (ao : Bool) (u : String) (h : candOk s alive d ao u = true) :
    canAssign s alive u = true ∧ u ∈ alive.map Prod.fst := by
  unfold candOk at h
  rw [Bool.and_eq_true, Bool.and_eq_true] at h
  refine ⟨h.1.1, ?_⟩
  have hca := h.1.1
  unfold canAssign isAlive at hca
  rw [Bool.and_eq_true, Bool.and_eq_true] at hca
  exact lem_aliveGet_mem alive u hca.1.1

/-- Every unit on one of the four tier lists is an override candidate. -/
theorem lem_pdAllCands_override (c : PdCtx) (used : List String) (d : String) (u : String)
    (hu : u ∈ pdAllCands c used d) : u ∈ pdOverride c d := by
  simp only [pdAllCands, List.mem_append] at hu
  rcases hu with ((h | h) | h) | h
  · exact lem_pdStrictL_sub c d u ((lem_mem_US c used d u).1 h).1
  · exact ((lem_mem_UO c used d u).1 h).1
  · exact lem_pdStrictL_sub c d u ((lem_mem_DS c used d u).1 h).1
  · exact ((lem_mem_DO c used d u).1 h).1

theorem lem_batteryStep_events (s : Sched) (alive : List (String × Bool))
    (drain : String → ℚ) (recharge : ℚ) (acc : BatterySt) (u : String) :
    (batteryStep s alive drain recharge acc u).events = acc.events ∨
    (batteryStep s alive drain recharge acc u).events = acc.events ++ [Ev.batteryDead u] := by
  unfold batteryStep
  split
  · exact Or.inl rfl
  split
  · split
    · dsimp only
      split
      · exact Or.inl rfl
      · exact Or.inl rfl
    · dsimp only
      split
      · exact Or.inr rfl
      · exact Or.inl rfl
  · exact Or.inl rfl

theorem lem_batteryFold_events (s : Sched) (alive : List (String × Bool))
    (drain : String → ℚ) (recharge : ℚ) (units : List String) (acc : BatterySt) :
    ∃ E, (units.foldl (batteryStep s alive drain recharge) acc).events = acc.events ++ E ∧
      ∀ e ∈ E, ∃ u, e = Ev.batteryDead u := by
  induction units generalizing acc with
  | nil => exact ⟨[], by simp, fun e he => absurd he (List.not_mem_nil e)⟩
  | cons u rest ih =>
    rcases ih (batteryStep s alive drain recharge acc u) with ⟨E, hE, hprop⟩
    rcases lem_batteryStep_events s alive drain recharge acc u with h | h
    · refine ⟨E, ?_, hprop⟩
      show (rest.foldl _ (batteryStep s alive drain recharge acc u)).events = _
      rw [hE, h]
    · refine ⟨Ev.batteryDead u :: E, ?_, ?_⟩
      · show (rest.foldl _ (batteryStep s alive drain recharge acc u)).events = _
        rw [hE, h, List.append_assoc]
        rfl
      · intro e he
        rcases List.mem_cons.1 he with rfl | he2
        · exact ⟨u, rfl⟩
        · exact hprop e he2

theorem lem_lowBatteryStep_events (s : Sched) (pb b : String → Option ℚ)
    (dead : List String) (acc : List Ev × (String → Option ℤ)) (u : String) :
    (lowBatteryStep s pb b dead acc u).1 = acc.1 ∨
    (lowBatteryStep s pb b dead acc u).1 = acc.1 ++ [Ev.lowBatteryActive u] := by
  unfold lowBatteryStep
  dsimp only
  split_ifs <;> first
    | exact Or.inl rfl
    | exact Or.inr rfl

theorem lem_lowBatteryFold_events (s : Sched) (pb b : String → Option ℚ)
    (dead : List String) (units : List String) (acc : List Ev × (String → Option ℤ)) :
    ∃ E, (units.foldl (lowBatteryStep s pb b dead) acc).1 = acc.1 ++ E ∧
      ∀ e ∈ E, ∃ u, e = Ev.lowBatteryActive u := by
  induction units generalizing acc with
  | nil => exact ⟨[], by simp, fun e he => absurd he (List.not_mem_nil e)⟩
  | cons u rest ih =>
    rcases ih (lowBatteryStep s pb b dead acc u) with ⟨E, hE, hprop⟩
    rcases lem_lowBatteryStep_events s pb b dead acc u with h | h
    · refine ⟨E, ?_, hprop⟩
      show (rest.foldl _ (lowBatteryStep s pb b dead acc u)).1 = _
      rw [hE, h]
    · refine ⟨Ev.lowBatteryActive u :: E, ?_, ?_⟩
      · show (rest.foldl _ (lowBatteryStep s pb b dead acc u)).1 = _
        rw [hE, h, List.append_assoc]
        rfl
      · intro e he
        rcases List.mem_cons.1 he with rfl | he2
        · exact ⟨u, rfl⟩
        · exact hprop e he2

theorem lem_gapFold_frozen (s : Sched) (ls : String → ℤ) (l : List String)
    (acc : List Ev × Bool) (h : acc.2 = true) :
    l.foldl (gapStep s ls) acc = acc := by
  induction l with
  | nil => rfl
  | cons d rest ih =>
    show rest.foldl (gapStep s ls) (gapStep s ls acc d) = acc
    rw [show gapStep s ls acc d = acc by unfold gapStep; rw [if_pos h]]
    exact ih

theorem lem_gapFold_events (s : Sched) (ls : String → ℤ) (l : List String)
    (acc : List Ev × Bool) :
    ∃ E, (l.foldl (gapStep s ls) acc).1 = acc.1 ++ E ∧
      ∀ e ∈ E, ∃ d ∈ l, e = Ev.missionFailureGap d (s.tick - ls d) := by
  induction l generalizing acc with
  | nil => exact ⟨[], by simp, fun e he => absurd he (List.not_mem_nil e)⟩
  | cons d rest ih =>
    rcases ih (gapStep s ls acc d) with ⟨E, hE, hprop⟩
    have hcases : (gapStep s ls acc d).1 = acc.1 ∨
        (gapStep s ls acc d).1 = acc.1 ++ [Ev.missionFailureGap d (s.tick - ls d)] := by
      unfold gapStep
      split
      · exact Or.inl rfl
      dsimp only
      split
      · exact Or.inr rfl
      · exact Or.inl rfl
    have hfold : (rest.foldl (gapStep s ls) (gapStep s ls acc d)).1 =
        (gapStep s ls acc d).1 ++ E := hE
    rcases hcases with h | h
    · refine ⟨E, ?_, fun e he => ?_⟩
      · show (rest.foldl (gapStep s ls) (gapStep s ls acc d)).1 = _
        rw [hfold, h]
      · rcases hprop e he with ⟨d2, hd2, he2⟩
        exact ⟨d2, List.mem_cons_of_mem d hd2, he2⟩
    · refine ⟨Ev.missionFailureGap d (s.tick - ls d) :: E, ?_, fun e he => ?_⟩
      · show (rest.foldl (gapStep s ls) (gapStep s ls acc d)).1 = _
        rw [hfold, h, List.append_assoc]
        rfl
      · rcases List.mem_cons.1 he with rfl | he2
        · exact ⟨d, List.mem_cons_self d rest, rfl⟩
        · rcases hprop e he2 with ⟨d2, hd2, he3⟩
          exact ⟨d2, List.mem_cons_of_mem d hd2, he3⟩

/-- The tick-advanced scheduler only changes the clock, the battery
initialisation and the rotation timestamp. -/
theorem lem_tickS_proj (s0 : Sched) (alive : List (String × Bool)) :
    (tickS s0 alive).restDomain = s0.restDomain ∧
    (tickS s0 alive).domainsActive = s0.domainsActive ∧
    (tickS s0 alive).requiredGet = s0.requiredGet ∧
    (tickS s0 alive).maxGapTicks = s0.maxGapTicks ∧
    (tickS s0 alive).tick = s0.tick + 1 ∧
    (tickS s0 alive).strictMissionFailure = s0.strictMissionFailure ∧
    (tickS s0 alive).unmetStreak = s0.unmetStreak ∧
    (tickS s0 alive).lastServiceTick = s0.lastServiceTick ∧
    (tickS s0 alive).batteryDead = s0.batteryDead ∧
    (tickS s0 alive).domains = s0.domains ∧
    (tickS s0 alive).batteryPct = ensureBattery s0.batteryPct (alive.map Prod.fst) := by
  unfold tickS
  split <;>
    exact ⟨rfl, rfl, rfl, rfl, rfl, rfl, rfl, rfl, rfl, rfl, rfl⟩

theorem lem_WF_rest_ne (s : Sched) (hWF : WFSched s) (rd : String)
    (h : s.restDomain = some rd) (d : String) (hd : d ∈ s.domainsActive) : d ≠ rd := by
  rcases hWF with ⟨_, hrest⟩
  rw [h] at hrest
  have : !s.domainsActive.contains rd = true := by
    simpa [Option.all] using hrest
  intro hdd
  subst hdd
  rw [(lem_contains_iff _ d).2 hd] at this
  exact absurd this (by simp)

theorem lem_ordered_split (s : Sched) (d : String)
    (hnd : s.domainsActive.Nodup) (hd : d ∈ s.domainsActive) :
    ∃ l1 l2, orderedDomains s = l1 ++ d :: l2 ∧ d ∉ l1 ∧ d ∉ l2 := by
  have hperm : (orderedDomains s).Perm s.domainsActive := List.perm_insertionSort _ _
  have hmem : d ∈ orderedDomains s := hperm.mem_iff.2 hd
  have hnd2 : (orderedDomains s).Nodup := hperm.nodup_iff.2 hnd
  rcases List.append_of_mem hmem with ⟨l1, l2, heq⟩
  rw [heq] at hnd2
  rcases List.nodup_append.1 hnd2 with ⟨_, h2, hdisj⟩
  exact ⟨l1, l2, heq, fun hin => hdisj hin (List.mem_cons_self d l2),
    (List.nodup_cons.1 h2).1⟩

/-- In every exit branch of `schedule_tick`, an active (non-rest) domain's
entry in the returned assignment map is exactly what the assignment loop
built for it. -/
theorem lem_tick_assignMap_active (s0 : Sched) (alive : List (String × Bool)) (d : String)
    (hWF : WFSched s0) (hd : d ∈ s0.domainsActive) :
    (scheduleTick s0 alive).assignMap d = (tickLoopAll s0 alive).assignMap d := by
  unfold scheduleTick
  split
  · rfl
  split
  · rfl
  show tickAssignMapFinal s0 alive d = _
  unfold tickAssignMapFinal
  cases hrest : (tickS s0 alive).restDomain with
  | none => rfl
  | some rd =>
    dsimp only
    rw [if_neg ?hne]
    case hne =>
      have h0 : s0.restDomain = some rd := by
        rw [← (lem_tickS_proj s0 alive).1, hrest]
      exact lem_WF_rest_ne s0 hWF rd h0 d hd

/-- The per-domain `unmet_requirements` events of a tick are exactly
those the assignment loop emitted; the later stages only add aggregate,
failure, battery and low-battery events. -/
theorem lem_tick_events_unmet (s0 : Sched) (alive : List (String × Bool)) (d : String) (n : ℤ) :
    Ev.unmetDomain d n ∈ (scheduleTick s0 alive).events ↔
      Ev.unmetDomain d n ∈ (tickLoopAll s0 alive).events := by
  have hstreak : ∀ e ∈ tickEvStreak s0 alive, ∀ n2, e ≠ Ev.unmetDomain d n2 := by
    intro e he n2
    unfold tickEvStreak at he
    rcases List.mem_append.1 he with h | h
    · rcases lem_mem_ite_singleton2 _ _ _ h with ⟨rfl, _⟩
      simp
    · rcases lem_mem_ite_singleton _ _ _ h with ⟨rfl, _⟩
      simp
  have hAfterStreak : Ev.unmetDomain d n ∈ tickEvAfterStreak s0 alive ↔
      Ev.unmetDomain d n ∈ (tickLoopAll s0 alive).events := by
    unfold tickEvAfterStreak
    rw [List.mem_append]
    constructor
    · rintro (h | h)
      · exact h
      · exact absurd rfl (hstreak _ h n)
    · exact Or.inl
  have hAfterGap : Ev.unmetDomain d n ∈ tickEvAfterGap s0 alive ↔
      Ev.unmetDomain d n ∈ (tickLoopAll s0 alive).events := by
    unfold tickEvAfterGap
    rw [List.mem_append]
    constructor
    · rintro (h | h)
      · exact hAfterStreak.1 h
      · rcases lem_gapFold_events (tickSS s0 alive) (tickLoopAll s0 alive).lastService
          (tickSS s0 alive).domainsActive ([], false) with ⟨E, hE, hprop⟩
        have : (tickGapRes s0 alive).1 = E := by
          unfold tickGapRes gapCheck
          rw [hE]
          rfl
        rw [this] at h
        rcases hprop _ h with ⟨d2, _, heq⟩
        exact absurd heq (by simp)
    · exact fun h => Or.inl (hAfterStreak.2 h)
  unfold scheduleTick
  split
  · exact hAfterStreak
  split
  · exact hAfterGap
  show Ev.unmetDomain d n ∈ (tickLowRes s0 alive).1 ↔ _
  rcases lem_lowBatteryFold_events (tickS s0 alive) (tickBase s0 alive).batteryPct
    (tickBatteryRes s0 alive).battery (tickBatteryRes s0 alive).dead
    (dedupFirst (tickActiveSet s0 alive))
    ((tickBatteryRes s0 alive).events, (tickS s0 alive).lastLowBatteryWarnTick)
    with ⟨E2, hE2, hprop2⟩
  have hlow : (tickLowRes s0 alive).1 = (tickBatteryRes s0 alive).events ++ E2 := hE2
  rcases lem_batteryFold_events (tickS s0 alive) alive (tickDrain s0 alive)
    (rechargePct (tickS s0 alive)) (alive.map Prod.fst)
    ⟨(tickS s0 alive).batteryPct, (tickS s0 alive).batteryDead,
      (tickS s0 alive).batteryDeadFirstTick, tickEvAfterGap s0 alive⟩
    with ⟨E1, hE1, hprop1⟩
  have hbat : (tickBatteryRes s0 alive).events = tickEvAfterGap s0 alive ++ E1 := hE1
  rw [hlow, hbat, List.append_assoc, List.mem_append]
  constructor
  · rintro (h | h)
    · exact hAfterGap.1 h
    · rcases List.mem_append.1 h with h2 | h2
      · rcases hprop1 _ h2 with ⟨u, heq⟩
        exact absurd heq (by simp)
      · rcases hprop2 _ h2 with ⟨u, heq⟩
        exact absurd heq (by simp)
  · exact fun h => Or.inl (hAfterGap.2 h)

/-- The loop's output at one active domain `d`: its assignment entry is
exactly the units its five tiers chose, and the loop's `unmet` event
for `d` says exactly that need remained, carrying the remaining need.
`l1`/`l2` decompose the EDF ordering around `d`. -/
theorem lem_loop_at_domain (s0 : Sched) (alive : List (String × Bool)) (d : String)
    (l1 l2 : List String)
    (hsplit : orderedDomains (tickS s0 alive) = l1 ++ d :: l2)
    (hd1 : d ∉ l1) (hd2 : d ∉ l2) (hneed : 0 < s0.requiredGet d) :
    (tickLoopAll s0 alive).assignMap d =
      (pdP5 (tickCtx s0 alive) (tickLoopAfter s0 alive l1) d).chosen ∧
    (∀ n : ℤ, Ev.unmetDomain d n ∈ (tickLoopAll s0 alive).events ↔
      (0 < (pdP5 (tickCtx s0 alive) (tickLoopAfter s0 alive l1) d).need ∧
        n = (pdP5 (tickCtx s0 alive) (tickLoopAfter s0 alive l1) d).need)) := by
  set c := tickCtx s0 alive with hc
  set st1 := tickLoopAfter s0 alive l1 with hst1
  have hcreq : c.s.requiredGet = s0.requiredGet := by
    rw [hc]
    exact (lem_tickS_proj s0 alive).2.2.1
  have hneedc : 0 < c.s.requiredGet d := by rw [hcreq]; exact hneed
  have hfold : tickLoopAll s0 alive = l2.foldl (processDomain c) (processDomain c st1 d) := by
    unfold tickLoopAll tickLoopAfter
    rw [hsplit, List.foldl_append]
    rfl
  have hst1map : st1.assignMap d = [] := by
    rw [hst1]
    unfold tickLoopAfter
    rw [lem_loop_assignMap_frame c l1 (tickLoop0 s0 alive) d hd1]
    rfl
  have hpd := lem_processDomain_pos c st1 d hneedc
  constructor
  · rw [hfold, lem_loop_assignMap_frame c l2 _ d hd2, hpd]
    dsimp only
    rw [if_pos rfl, hst1map, List.nil_append]
  · intro n
    rcases lem_loop_events c l2 (processDomain c st1 d) with ⟨E2, hE2, hprop2⟩
    rcases lem_loop_events c l1 (tickLoop0 s0 alive) with ⟨E1, hE1, hprop1⟩
    have hstep : (processDomain c st1 d).events = st1.events ++ pdEvents c st1 d := by
      rw [hpd]
    have hev : (tickLoopAll s0 alive).events =
        ((tickLoop0 s0 alive).events ++ E1) ++ pdEvents c st1 d ++ E2 := by
      rw [hfold, hE2, hstep]
      rw [hst1]
      show (tickLoopAfter s0 alive l1).events ++ _ ++ _ = _
      unfold tickLoopAfter
      rw [hE1]
    rw [hev]
    simp only [List.mem_append]
    constructor
    · rintro ((h | h) | h)
      · rcases h with h2 | h2
        · have h0 : (tickLoop0 s0 alive).events =
              if tickDoRotate s0 alive then [Ev.rotation] else [] := rfl
          rw [h0] at h2
          rcases lem_mem_ite_singleton _ _ _ h2 with ⟨heq, _⟩
          exact absurd heq (by simp)
        · rcases hprop1 _ h2 with ⟨_, d2, hd2mem, htag⟩
          have : d2 = d := by
            have : evTag (Ev.unmetDomain d n) = some d := rfl
            rw [this] at htag
            exact Option.some.inj htag.symm
          exact absurd (this ▸ hd2mem) hd1
      · rcases (lem_pdEvents_unmet c st1 d d n).1 h with ⟨_, hpos, hn⟩
        exact ⟨hpos, hn⟩
      · rcases hprop2 _ h with ⟨_, d2, hd2mem, htag⟩
        have : d2 = d := by
          have h3 : evTag (Ev.unmetDomain d n) = some d := rfl
          rw [h3] at htag
          exact Option.some.inj htag.symm
        exact absurd (this ▸ hd2mem) hd2
    · rintro ⟨hpos, hn⟩
      exact Or.inl (Or.inr ((lem_pdEvents_unmet c st1 d d n).2 ⟨rfl, hpos, hn⟩))

/-- C1 amended: for an active domain with positive requirement, the tick
assigns between 0 and `required_active[d]` units (partial staffing is
possible), and the count falls short of the requirement — including the
0 case — exactly on a tick where an `unmet_requirements` event was
emitted for `d`. -/
theorem C1_amended (s0 : Sched) (alive : List (String × Bool)) (d : String)
    (hWF : WFSched s0) (hd : d ∈ s0.domainsActive) (hneed : 0 < s0.requiredGet d) :
    (((scheduleTick s0 alive).assignMap d).length : ℤ) ≤ s0.requiredGet d ∧
    ((((scheduleTick s0 alive).assignMap d).length : ℤ) < s0.requiredGet d ↔
      ∃ n, Ev.unmetDomain d n ∈ (scheduleTick s0 alive).events) := by
  obtain ⟨l1, l2, hsplit, hd1, hd2⟩ := lem_ordered_split (tickS s0 alive) d
    (by rw [(lem_tickS_proj s0 alive).2.1]; exact hWF.1)
    (by rw [(lem_tickS_proj s0 alive).2.1]; exact hd)
  obtain ⟨hmap, hev⟩ := lem_loop_at_domain s0 alive d l1 l2 hsplit hd1 hd2 hneed
  set c := tickCtx s0 alive
  set st1 := tickLoopAfter s0 alive l1
  have hcreq : c.s.requiredGet d = s0.requiredGet d := by
    rw [show c.s.requiredGet = s0.requiredGet from (lem_tickS_proj s0 alive).2.2.1]
  have hlen : (pdP5 c st1 d).need + (((pdP5 c st1 d).chosen.length : ℤ)) = s0.requiredGet d := by
    rw [← hcreq]
    exact (lem_pd5_facts c st1 d).2.1
  have hnn : 0 ≤ (pdP5 c st1 d).need := by
    apply lem_pd5_need_nonneg
    rw [hcreq]
    exact le_of_lt hneed
  have hmap2 : (scheduleTick s0 alive).assignMap d = (pdP5 c st1 d).chosen := by
    rw [lem_tick_assignMap_active s0 alive d hWF hd, hmap]
  rw [hmap2]
  constructor
  · linarith
  · constructor
    · intro hlt
      refine ⟨(pdP5 c st1 d).need, ?_⟩
      rw [lem_tick_events_unmet s0 alive d _]
      exact (hev _).2 ⟨by linarith, rfl⟩
    · rintro ⟨n, hn⟩
      rw [lem_tick_events_unmet s0 alive d n] at hn
      rcases (hev n).1 hn with ⟨hpos, _⟩
      linarith

theorem C1_witness :
    (((scheduleTick (initSched cfgSteady) aliveSteady).assignMap "radar").length : ℤ) ≤
      (initSched cfgSteady).requiredGet "radar" :=
  (C1_amended (initSched cfgSteady) aliveSteady "radar" (by decide) (by decide) (by decide)).1

theorem lem_gapFold_nostrict (s : Sched) (ls : String → ℤ) (l : List String)
    (acc : List Ev × Bool) (hacc2 : acc.2 = false)
    (hstrict : s.strictMissionFailure = false) :
    (l.foldl (gapStep s ls) acc).2 = false ∧
    (∀ d g, Ev.missionFailureGap d g ∈ (l.foldl (gapStep s ls) acc).1 ↔
      Ev.missionFailureGap d g ∈ acc.1 ∨
        (d ∈ l ∧ s.maxGapTicks < s.tick - ls d ∧ g = s.tick - ls d)) := by
  induction l generalizing acc with
  | nil =>
    refine ⟨hacc2, fun d g => ?_⟩
    simp
  | cons d0 rest ih =>
    have hstep : gapStep s ls acc d0 =
        (if s.maxGapTicks < s.tick - ls d0 then
          (acc.1 ++ [Ev.missionFailureGap d0 (s.tick - ls d0)], s.strictMissionFailure)
        else acc) := by
      unfold gapStep
      rw [if_neg (by rw [hacc2]; simp)]
    have hacc2' : (gapStep s ls acc d0).2 = false := by
      rw [hstep]
      split
      · exact hstrict
      · exact hacc2
    rcases ih (gapStep s ls acc d0) hacc2' with ⟨hres2, hresmem⟩
    refine ⟨hres2, fun d g => ?_⟩
    show Ev.missionFailureGap d g ∈ (rest.foldl (gapStep s ls) (gapStep s ls acc d0)).1 ↔ _
    rw [hresmem d g]
    by_cases hcond : s.maxGapTicks < s.tick - ls d0
    · rw [hstep, if_pos hcond]
      dsimp only
      rw [List.mem_append]
      constructor
      · rintro ((h | h) | h)
        · exact Or.inl h
        · rcases List.mem_singleton.1 h with h2
          rw [Ev.missionFailureGap.injEq] at h2
          exact Or.inr ⟨h2.1 ▸ List.mem_cons_self d0 rest, h2.1 ▸ hcond, h2.1 ▸ h2.2⟩
        · exact Or.inr ⟨List.mem_cons_of_mem d0 h.1, h.2⟩
      · rintro (h | ⟨hmem, hlt, hg⟩)
        · exact Or.inl (Or.inl h)
        · rcases List.mem_cons.1 hmem with rfl | h2
          · exact Or.inl (Or.inr (by rw [hg]; exact List.mem_singleton_self _))
          · exact Or.inr ⟨h2, hlt, hg⟩
    · rw [hstep, if_neg hcond]
      constructor
      · rintro (h | h)
        · exact Or.inl h
        · exact Or.inr ⟨List.mem_cons_of_mem d0 h.1, h.2⟩
      · rintro (h | ⟨hmem, hlt, hg⟩)
        · exact Or.inl h
        · rcases List.mem_cons.1 hmem with rfl | h2
          · exact absurd hlt hcond
          · exact Or.inr ⟨h2, hlt, hg⟩

theorem lem_gapFold_raised (s : Sched) (ls : String → ℤ) (l : List String)
    (acc : List Ev × Bool) (hacc2 : acc.2 = false) :
    ((l.foldl (gapStep s ls) acc).2 = true ↔
      s.strictMissionFailure = true ∧ ∃ d ∈ l, s.maxGapTicks < s.tick - ls d) := by
  induction l generalizing acc with
  | nil =>
    rw [show (List.foldl (gapStep s ls) acc []).2 = acc.2 from rfl, hacc2]
    simp
  | cons d0 rest ih =>
    have hstep : gapStep s ls acc d0 =
        (if s.maxGapTicks < s.tick - ls d0 then
          (acc.1 ++ [Ev.missionFailureGap d0 (s.tick - ls d0)], s.strictMissionFailure)
        else acc) := by
      unfold gapStep
      rw [if_neg (by rw [hacc2]; simp)]
    show (rest.foldl (gapStep s ls) (gapStep s ls acc d0)).2 = true ↔ _
    by_cases hcond : s.maxGapTicks < s.tick - ls d0
    · rw [hstep, if_pos hcond]
      cases hstr : s.strictMissionFailure
      · rw [ih (acc.1 ++ [Ev.missionFailureGap d0 (s.tick - ls d0)], false) rfl]
        simp [hstr]
      · rw [lem_gapFold_frozen s ls rest _ rfl]
        constructor
        · intro _
          exact ⟨rfl, d0, List.mem_cons_self d0 rest, hcond⟩
        · intro _
          rfl
    · rw [hstep, if_neg hcond]
      rw [ih acc hacc2]
      constructor
      · rintro ⟨h1, d2, hd2, hlt⟩
        exact ⟨h1, d2, List.mem_cons_of_mem d0 hd2, hlt⟩
      · rintro ⟨h1, d2, hd2, hlt⟩
        rcases List.mem_cons.1 hd2 with rfl | h2
        · exact absurd hlt hcond
        · exact ⟨h1, d2, h2, hlt⟩

theorem lem_gapFold_last (s : Sched) (ls : String → ℤ) (l : List String)
    (acc : List Ev × Bool) (hacc2 : acc.2 = false)
    (hres : (l.foldl (gapStep s ls) acc).2 = true) :
    ∃ d g, (l.foldl (gapStep s ls) acc).1.getLast? = some (Ev.missionFailureGap d g) := by
  induction l generalizing acc with
  | nil =>
    rw [List.foldl_nil] at hres
    exact absurd hres (by simp [hacc2])
  | cons d0 rest ih =>
    have hstep : gapStep s ls acc d0 =
        (if s.maxGapTicks < s.tick - ls d0 then
          (acc.1 ++ [Ev.missionFailureGap d0 (s.tick - ls d0)], s.strictMissionFailure)
        else acc) := by
      unfold gapStep
      rw [if_neg (by rw [hacc2]; simp)]
    have hgoal : (d0 :: rest).foldl (gapStep s ls) acc =
        rest.foldl (gapStep s ls) (gapStep s ls acc d0) := rfl
    rw [hgoal] at hres ⊢
    by_cases hcond : s.maxGapTicks < s.tick - ls d0
    · cases hstr : s.strictMissionFailure
      · apply ih (gapStep s ls acc d0)
        · rw [hstep, if_pos hcond]
          show s.strictMissionFailure = false
          exact hstr
        · exact hres
      · have hacc2' : (gapStep s ls acc d0).2 = true := by
          rw [hstep, if_pos hcond]
          exact hstr
        refine ⟨d0, s.tick - ls d0, ?_⟩
        rw [lem_gapFold_frozen s ls rest _ hacc2']
        rw [hstep, if_pos hcond]
        exact List.getLast?_concat _
    · apply ih (gapStep s ls acc d0)
      · rw [hstep, if_neg hcond]
        exact hacc2
      · exact hres

theorem lem_loop_neg_frame (c : PdCtx) (l : List String) (st : LoopSt) (x : String)
    (hx : c.s.requiredGet x ≤ 0) :
    (l.foldl (processDomain c) st).assignMap x = st.assignMap x ∧
    (l.foldl (processDomain c) st).lastService x = st.lastService x := by
  induction l generalizing st with
  | nil => exact ⟨rfl, rfl⟩
  | cons d rest ih =>
    rcases ih (processDomain c st d) with ⟨h1, h2⟩
    by_cases hdx : x = d
    · subst hdx
      refine ⟨?_, ?_⟩
      · show (rest.foldl (processDomain c) (processDomain c st x)).assignMap x = _
        rw [h1, lem_processDomain_neg c st x hx]
      · show (rest.foldl (processDomain c) (processDomain c st x)).lastService x = _
        rw [h2, lem_processDomain_neg c st x hx]
    · refine ⟨?_, ?_⟩
      · show (rest.foldl (processDomain c) (processDomain c st d)).assignMap x = _
        rw [h1, lem_processDomain_assignMap_ne c st d x hdx]
      · show (rest.foldl (processDomain c) (processDomain c st d)).lastService x = _
        rw [h2, lem_processDomain_lastService_ne c st d x hdx]

/-- The loop's `last_service_tick` entry of an active domain after the
tick: advanced to the new tick exactly when the domain received at least
one unit, otherwise untouched (so a fully-unstaffed domain keeps its old
service tick, while a partially staffed one is reset). -/
theorem lem_tick_lastService (s0 : Sched) (alive : List (String × Bool)) (d : String)
    (hWF : WFSched s0) (hd : d ∈ s0.domainsActive) :
    (tickLoopAll s0 alive).lastService d =
      if ((tickLoopAll s0 alive).assignMap d).isEmpty then s0.lastServiceTick d
      else s0.tick + 1 := by
  by_cases hneed : 0 < s0.requiredGet d
  · obtain ⟨l1, l2, hsplit, hd1, hd2⟩ := lem_ordered_split (tickS s0 alive) d
      (by rw [(lem_tickS_proj s0 alive).2.1]; exact hWF.1)
      (by rw [(lem_tickS_proj s0 alive).2.1]; exact hd)
    set c := tickCtx s0 alive with hc
    set st1 := tickLoopAfter s0 alive l1 with hst1
    have hcreq : c.s.requiredGet = s0.requiredGet := by
      rw [hc]
      exact (lem_tickS_proj s0 alive).2.2.1
    have hneedc : 0 < c.s.requiredGet d := by rw [hcreq]; exact hneed
    have hmap := (lem_loop_at_domain s0 alive d l1 l2 hsplit hd1 hd2 hneed).1
    have hpd := lem_processDomain_pos c st1 d hneedc
    have hls1 : st1.lastService d = s0.lastServiceTick d := by
      rw [hst1]
      unfold tickLoopAfter
      rw [lem_loop_lastService_frame c l1 (tickLoop0 s0 alive) d hd1]
      show (tickS s0 alive).lastServiceTick d = _
      rw [(lem_tickS_proj s0 alive).2.2.2.2.2.2.2.1]
    have hfin : (tickLoopAll s0 alive).lastService d =
        (processDomain c st1 d).lastService d := by
      have hfold : tickLoopAll s0 alive =
          l2.foldl (processDomain c) (processDomain c st1 d) := by
        unfold tickLoopAll tickLoopAfter
        rw [hsplit, List.foldl_append]
        rfl
      rw [hfold]
      exact lem_loop_lastService_frame c l2 _ d hd2
    rw [hfin, hmap, hpd]
    dsimp only
    by_cases hch : (pdP5 c st1 d).chosen.isEmpty = true
    · rw [if_pos hch, if_pos hch]
      exact hls1
    · rw [if_neg hch, if_neg hch]
      show (if d = d then c.s.tick else st1.lastService d) = s0.tick + 1
      rw [if_pos rfl, hc]
      exact (lem_tickS_proj s0 alive).2.2.2.2.1
  · have hneg : (tickCtx s0 alive).s.requiredGet d ≤ 0 := by
      have : (tickCtx s0 alive).s.requiredGet = s0.requiredGet :=
        (lem_tickS_proj s0 alive).2.2.1
      rw [this]
      exact not_lt.1 hneed
    have h2 := lem_loop_neg_frame (tickCtx s0 alive) (orderedDomains (tickS s0 alive))
      (tickLoop0 s0 alive) d hneg
    have hmap0 : (tickLoopAll s0 alive).assignMap d = [] := by
      show ((orderedDomains (tickS s0 alive)).foldl (processDomain (tickCtx s0 alive))
        (tickLoop0 s0 alive)).assignMap d = []
      rw [h2.1]
      rfl
    have hls0 : (tickLoopAll s0 alive).lastService d = s0.lastServiceTick d := by
      show ((orderedDomains (tickS s0 alive)).foldl (processDomain (tickCtx s0 alive))
        (tickLoop0 s0 alive)).lastService d = _
      rw [h2.2]
      show (tickS s0 alive).lastServiceTick d = _
      rw [(lem_tickS_proj s0 alive).2.2.2.2.2.2.2.1]
    rw [hmap0, hls0]
    rfl

/-- The committed scheduler state agrees with the loop's service map and
the updated streak counter in every exit branch of the tick. -/
theorem lem_tick_state_proj (s0 : Sched) (alive : List (String × Bool)) :
    (scheduleTick s0 alive).state.lastServiceTick = (tickLoopAll s0 alive).lastService ∧
    (scheduleTick s0 alive).state.unmetStreak = tickStreakNew s0 alive ∧
    (scheduleTick s0 alive).state.tick = s0.tick + 1 := by
  have htick : (tickSS s0 alive).tick = s0.tick + 1 :=
    (lem_tickS_proj s0 alive).2.2.2.2.1
  unfold scheduleTick
  split
  · exact ⟨rfl, rfl, htick⟩
  split
  · exact ⟨rfl, rfl, htick⟩
  · exact ⟨rfl, rfl, htick⟩

/-- When the streak check does not raise, the tick raises exactly when
the hard gap check does. -/
theorem lem_tick_raised (s0 : Sched) (alive : List (String × Bool))
    (hnb : (tickStreakFail s0 alive && (tickS s0 alive).strictMissionFailure) = false) :
    (scheduleTick s0 alive).raised = (tickGapRes s0 alive).2 := by
  unfold scheduleTick
  rw [if_neg (by rw [hnb]; exact Bool.false_ne_true)]
  cases hgr : (tickGapRes s0 alive).2
  · rw [if_neg Bool.false_ne_true]
  · rw [if_pos rfl]

/-- Whatever branch the tick exits by, its event list starts with the
loop and streak-check events, and everything after them is a gap
failure, battery death or low-battery warning. -/
theorem lem_tick_events_shape (s0 : Sched) (alive : List (String × Bool)) :
    ∃ E, (scheduleTick s0 alive).events = tickEvAfterStreak s0 alive ++ E ∧
      ∀ e ∈ E, (∃ d g, e = Ev.missionFailureGap d g) ∨ (∃ u, e = Ev.batteryDead u) ∨
        (∃ u, e = Ev.lowBatteryActive u) := by
  have hgap : ∀ e ∈ (tickGapRes s0 alive).1, ∃ d g, e = Ev.missionFailureGap d g := by
    rcases lem_gapFold_events (tickSS s0 alive) (tickLoopAll s0 alive).lastService
      (tickSS s0 alive).domainsActive ([], false) with ⟨E, hE, hprop⟩
    have heq : (tickGapRes s0 alive).1 = E := by
      unfold tickGapRes gapCheck
      rw [hE]
      rfl
    intro e he
    rw [heq] at he
    rcases hprop e he with ⟨d2, _, h2⟩
    exact ⟨d2, _, h2⟩
  unfold scheduleTick
  split
  · exact ⟨[], (List.append_nil _).symm, fun e he => absurd he (List.not_mem_nil e)⟩
  split
  · exact ⟨(tickGapRes s0 alive).1, rfl, fun e he => Or.inl (hgap e he)⟩
  · rcases lem_batteryFold_events (tickS s0 alive) alive (tickDrain s0 alive)
      (rechargePct (tickS s0 alive)) (alive.map Prod.fst)
      ⟨(tickS s0 alive).batteryPct, (tickS s0 alive).batteryDead,
        (tickS s0 alive).batteryDeadFirstTick, tickEvAfterGap s0 alive⟩
      with ⟨E1, hE1, hprop1⟩
    rcases lem_lowBatteryFold_events (tickS s0 alive) (tickBase s0 alive).batteryPct
      (tickBatteryRes s0 alive).battery (tickBatteryRes s0 alive).dead
      (dedupFirst (tickActiveSet s0 alive))
      ((tickBatteryRes s0 alive).events, (tickS s0 alive).lastLowBatteryWarnTick)
      with ⟨E2, hE2, hprop2⟩
    refine ⟨(tickGapRes s0 alive).1 ++ E1 ++ E2, ?_, ?_⟩
    · show (tickLowRes s0 alive).1 = _
      have hlow : (tickLowRes s0 alive).1 = (tickBatteryRes s0 alive).events ++ E2 := hE2
      have hbat : (tickBatteryRes s0 alive).events = tickEvAfterGap s0 alive ++ E1 := hE1
      rw [hlow, hbat]
      show (tickEvAfterStreak s0 alive ++ (tickGapRes s0 alive).1) ++ E1 ++ E2 = _
      simp [List.append_assoc]
    · intro e he
      rcases List.mem_append.1 he with h | h
      · rcases List.mem_append.1 h with h2 | h2
        · exact Or.inl (hgap e h2)
        · exact Or.inr (Or.inl (hprop1 e h2))
      · exact Or.inr (Or.inr (hprop2 e h))

/-- A gap-failure event never comes from the loop or the streak check,
so once the streak check is known not to raise, a tick's emitted gap
failures are exactly those of the gap-enforcement pass. -/
theorem lem_tick_events_gap (s0 : Sched) (alive : List (String × Bool)) (d : String) (g : ℤ)
    (hnb : (tickStreakFail s0 alive && (tickS s0 alive).strictMissionFailure) = false) :
    (Ev.missionFailureGap d g ∈ (scheduleTick s0 alive).events ↔
      Ev.missionFailureGap d g ∈ (tickGapRes s0 alive).1) := by
  have hAfterStreak : Ev.missionFailureGap d g ∉ tickEvAfterStreak s0 alive := by
    unfold tickEvAfterStreak
    intro h
    rcases List.mem_append.1 h with h | h
    · rcases lem_loop_events (tickCtx s0 alive) (orderedDomains (tickS s0 alive))
        (tickLoop0 s0 alive) with ⟨E0, hE0, hprop0⟩
      have hLA : (tickLoopAll s0 alive).events = (tickLoop0 s0 alive).events ++ E0 := hE0
      rw [hLA] at h
      rcases List.mem_append.1 h with h2 | h2
      · have h0 : (tickLoop0 s0 alive).events =
            if tickDoRotate s0 alive then [Ev.rotation] else [] := rfl
        rw [h0] at h2
        rcases lem_mem_ite_singleton _ _ _ h2 with ⟨heq, _⟩
        exact absurd heq (by simp)
      · rcases hprop0 _ h2 with ⟨h3, _⟩
        simp [isLoopEv] at h3
    · unfold tickEvStreak at h
      rcases List.mem_append.1 h with h2 | h2
      · rcases lem_mem_ite_singleton2 _ _ _ h2 with ⟨heq, _⟩
        exact absurd heq (by simp)
      · rcases lem_mem_ite_singleton _ _ _ h2 with ⟨heq, _⟩
        exact absurd heq (by simp)
  unfold scheduleTick
  rw [if_neg (by rw [hnb]; exact Bool.false_ne_true)]
  split
  · show Ev.missionFailureGap d g ∈ tickEvAfterGap s0 alive ↔ _
    unfold tickEvAfterGap
    rw [List.mem_append]
    exact ⟨fun h => h.resolve_left hAfterStreak, Or.inr⟩
  · show Ev.missionFailureGap d g ∈ (tickLowRes s0 alive).1 ↔ _
    rcases lem_batteryFold_events (tickS s0 alive) alive (tickDrain s0 alive)
      (rechargePct (tickS s0 alive)) (alive.map Prod.fst)
      ⟨(tickS s0 alive).batteryPct, (tickS s0 alive).batteryDead,
        (tickS s0 alive).batteryDeadFirstTick, tickEvAfterGap s0 alive⟩
      with ⟨E1, hE1, hprop1⟩
    rcases lem_lowBatteryFold_events (tickS s0 alive) (tickBase s0 alive).batteryPct
      (tickBatteryRes s0 alive).battery (tickBatteryRes s0 alive).dead
      (dedupFirst (tickActiveSet s0 alive))
      ((tickBatteryRes s0 alive).events, (tickS s0 alive).lastLowBatteryWarnTick)
      with ⟨E2, hE2, hprop2⟩
    have hlow : (tickLowRes s0 alive).1 = (tickBatteryRes s0 alive).events ++ E2 := hE2
    have hbat : (tickBatteryRes s0 alive).events = tickEvAfterGap s0 alive ++ E1 := hE1
    rw [hlow, hbat]
    rw [show tickEvAfterGap s0 alive =
      tickEvAfterStreak s0 alive ++ (tickGapRes s0 alive).1 from rfl]
    simp only [List.mem_append]
    constructor
    · rintro (((h | h) | h) | h)
      · exact absurd h hAfterStreak
      · exact h
      · rcases hprop1 _ h with ⟨u, heq⟩
        exact absurd heq (by simp)
      · rcases hprop2 _ h with ⟨u, heq⟩
        exact absurd heq (by simp)
    · exact fun h => Or.inl (Or.inl (Or.inr h))

/-- C3 amended: (a) the gap used by the hard check counts the ticks
since `d` last received at least one unit — any nonempty assignment,
including a partial one, resets `last_service_tick[d]` to the current
tick, while an empty one leaves it unchanged; (b) in non-strict mode a
`mission_failure` gap event for `d` is emitted exactly when that gap
exceeds `max_gap_ticks`; (c) when the streak check does not fire,
`schedule_tick` raises exactly when strict mode is on and some active
domain's gap exceeds `max_gap_ticks`. -/
theorem C3_amended (s0 : Sched) (alive : List (String × Bool)) (d : String)
    (hWF : WFSched s0) (hd : d ∈ s0.domainsActive) :
    ((scheduleTick s0 alive).state.lastServiceTick d =
      if ((scheduleTick s0 alive).assignMap d).isEmpty then s0.lastServiceTick d
      else s0.tick + 1) ∧
    (s0.strictMissionFailure = false →
      ∀ g : ℤ, (Ev.missionFailureGap d g ∈ (scheduleTick s0 alive).events ↔
        (g = s0.tick + 1 - (scheduleTick s0 alive).state.lastServiceTick d ∧
          s0.maxGapTicks < g))) ∧
    ((tickStreakFail s0 alive && s0.strictMissionFailure) = false →
      ((scheduleTick s0 alive).raised = true ↔
        s0.strictMissionFailure = true ∧
          ∃ d2 ∈ s0.domainsActive,
            s0.maxGapTicks <
              s0.tick + 1 - (scheduleTick s0 alive).state.lastServiceTick d2)) := by
  have hproj := lem_tick_state_proj s0 alive
  have hlsf : ∀ x, (scheduleTick s0 alive).state.lastServiceTick x =
      (tickLoopAll s0 alive).lastService x := fun x => congrFun hproj.1 x
  have hSSstrict : (tickSS s0 alive).strictMissionFailure = s0.strictMissionFailure :=
    (lem_tickS_proj s0 alive).2.2.2.2.2.1
  have hSSact : (tickSS s0 alive).domainsActive = s0.domainsActive :=
    (lem_tickS_proj s0 alive).2.1
  have hSStick : (tickSS s0 alive).tick = s0.tick + 1 :=
    (lem_tickS_proj s0 alive).2.2.2.2.1
  have hSSmax : (tickSS s0 alive).maxGapTicks = s0.maxGapTicks :=
    (lem_tickS_proj s0 alive).2.2.2.1
  refine ⟨?_, ?_, ?_⟩
  · rw [hlsf d, lem_tick_assignMap_active s0 alive d hWF hd]
    exact lem_tick_lastService s0 alive d hWF hd
  · intro hstrict g
    have hstrictS : (tickS s0 alive).strictMissionFailure = false := by
      rw [(lem_tickS_proj s0 alive).2.2.2.2.2.1]
      exact hstrict
    have hnb : (tickStreakFail s0 alive && (tickS s0 alive).strictMissionFailure) = false := by
      rw [hstrictS]
      exact Bool.and_false _
    rw [lem_tick_events_gap s0 alive d g hnb]
    have hSSfalse : (tickSS s0 alive).strictMissionFailure = false := by
      rw [hSSstrict]
      exact hstrict
    have hmem2 := (lem_gapFold_nostrict (tickSS s0 alive) (tickLoopAll s0 alive).lastService
      (tickSS s0 alive).domainsActive ([], false) rfl hSSfalse).2 d g
    have hconv : Ev.missionFailureGap d g ∈ (tickGapRes s0 alive).1 ↔
        (Ev.missionFailureGap d g ∈ ([] : List Ev) ∨
          (d ∈ (tickSS s0 alive).domainsActive ∧
            (tickSS s0 alive).maxGapTicks <
              (tickSS s0 alive).tick - (tickLoopAll s0 alive).lastService d ∧
            g = (tickSS s0 alive).tick - (tickLoopAll s0 alive).lastService d)) := hmem2
    rw [hconv]
    constructor
    · rintro (h | ⟨_, hlt, hg⟩)
      · exact absurd h (List.not_mem_nil _)
      · rw [hSSmax] at hlt
        rw [hSStick] at hlt hg
        refine ⟨?_, ?_⟩
        · rw [hlsf d, hg]
        · rw [hg]
          exact hlt
    · rintro ⟨hg, hlt⟩
      rw [hlsf d] at hg
      refine Or.inr ⟨by rw [hSSact]; exact hd, ?_, ?_⟩
      · rw [hSSmax, hSStick, ← hg]
        exact hlt
      · rw [hSStick, ← hg]
  · intro hnb0
    have hnb : (tickStreakFail s0 alive && (tickS s0 alive).strictMissionFailure) = false := by
      rw [(lem_tickS_proj s0 alive).2.2.2.2.2.1]
      exact hnb0
    rw [lem_tick_raised s0 alive hnb]
    have hraise := lem_gapFold_raised (tickSS s0 alive) (tickLoopAll s0 alive).lastService
      (tickSS s0 alive).domainsActive ([], false) rfl
    have hconv : ((tickGapRes s0 alive).2 = true ↔
        ((tickSS s0 alive).strictMissionFailure = true ∧
          ∃ d2 ∈ (tickSS s0 alive).domainsActive,
            (tickSS s0 alive).maxGapTicks <
              (tickSS s0 alive).tick - (tickLoopAll s0 alive).lastService d2)) := hraise
    rw [hconv]
    constructor
    · rintro ⟨h1, d2, hd2, hlt⟩
      rw [hSSstrict] at h1
      rw [hSSact] at hd2
      rw [hSSmax, hSStick] at hlt
      rw [← hlsf d2] at hlt
      exact ⟨h1, d2, hd2, hlt⟩
    · rintro ⟨h1, d2, hd2, hlt⟩
      rw [hlsf d2] at hlt
      refine ⟨by rw [hSSstrict]; exact h1, d2, by rw [hSSact]; exact hd2, ?_⟩
      rw [hSSmax, hSStick]
      exact hlt

theorem C3_witness :
    (scheduleTick (initSched cfgSteady) aliveSteady).state.lastServiceTick "radar" =
      if ((scheduleTick (initSched cfgSteady) aliveSteady).assignMap "radar").isEmpty
      then (initSched cfgSteady).lastServiceTick "radar"
      else (initSched cfgSteady).tick + 1 :=
  (C3_amended (initSched cfgSteady) aliveSteady "radar" (by decide) (by decide)).1

/-- C4 amended: the failing streak condition (a tick with unmet
requirements whose updated global streak exceeds `max_gap_ticks`) emits
the `mission_failure` streak event; in strict mode that same tick raises
and the streak event is the last event in the sink (observability before
the raise).  When the condition does not hold, no streak event is
emitted, and any raise comes from the hard gap check with a gap event
last.  The streak counter itself increments on any tick with an unmet
domain and resets to zero otherwise. -/
theorem C4_amended (s0 : Sched) (alive : List (String × Bool)) :
    (tickStreakFail s0 alive = true →
      Ev.missionFailureStreak (tickUnmetList s0 alive) ∈ (scheduleTick s0 alive).events ∧
      (s0.strictMissionFailure = true →
        (scheduleTick s0 alive).raised = true ∧
        (scheduleTick s0 alive).events.getLast? =
          some (Ev.missionFailureStreak (tickUnmetList s0 alive)))) ∧
    (tickStreakFail s0 alive = false →
      (∀ items, Ev.missionFailureStreak items ∉ (scheduleTick s0 alive).events) ∧
      ((scheduleTick s0 alive).raised = true →
        ∃ d g, (scheduleTick s0 alive).events.getLast? =
          some (Ev.missionFailureGap d g))) ∧
    ((tickUnmetList s0 alive).isEmpty = false →
      (scheduleTick s0 alive).state.unmetStreak = s0.unmetStreak + 1) ∧
    ((tickUnmetList s0 alive).isEmpty = true →
      (scheduleTick s0 alive).state.unmetStreak = 0) := by
  have hproj := lem_tick_state_proj s0 alive
  refine ⟨?_, ?_, ?_, ?_⟩
  · intro h
    have hne : (tickUnmetList s0 alive).isEmpty = false := by
      have h' : (!(tickUnmetList s0 alive).isEmpty &&
          decide (s0.maxGapTicks < tickStreakNew s0 alive)) = true := by
        unfold tickStreakFail at h
        exact h
      rw [Bool.and_eq_true] at h'
      have h1 := h'.1
      cases hE : (tickUnmetList s0 alive).isEmpty
      · rfl
      · rw [hE] at h1
        exact absurd h1 (by decide)
    have hevS : tickEvStreak s0 alive =
        [Ev.unmetAggregate (tickUnmetList s0 alive),
          Ev.missionFailureStreak (tickUnmetList s0 alive)] := by
      unfold tickEvStreak
      rw [if_neg (by rw [hne]; exact Bool.false_ne_true), if_pos h]
      rfl
    have hmemS : Ev.missionFailureStreak (tickUnmetList s0 alive) ∈
        tickEvAfterStreak s0 alive := by
      unfold tickEvAfterStreak
      rw [hevS]
      exact List.mem_append.2 (Or.inr (by simp))
    constructor
    · rcases lem_tick_events_shape s0 alive with ⟨E, hE, _⟩
      rw [hE]
      exact List.mem_append.2 (Or.inl hmemS)
    · intro hstrict
      have hstrictS : (tickS s0 alive).strictMissionFailure = true := by
        rw [(lem_tickS_proj s0 alive).2.2.2.2.2.1]
        exact hstrict
      have hcond : (tickStreakFail s0 alive && (tickS s0 alive).strictMissionFailure) = true := by
        rw [h, hstrictS]
        rfl
      have hbranch : scheduleTick s0 alive =
          ⟨tickSS s0 alive, (tickLoopAll s0 alive).assignments,
            (tickLoopAll s0 alive).assignMap, tickEvAfterStreak s0 alive, true⟩ := by
        unfold scheduleTick
        rw [if_pos hcond]
      refine ⟨by rw [hbranch], ?_⟩
      rw [hbranch]
      show (tickEvAfterStreak s0 alive).getLast? = _
      unfold tickEvAfterStreak
      rw [hevS]
      rw [show [Ev.unmetAggregate (tickUnmetList s0 alive),
          Ev.missionFailureStreak (tickUnmetList s0 alive)] =
        [Ev.unmetAggregate (tickUnmetList s0 alive)] ++
          [Ev.missionFailureStreak (tickUnmetList s0 alive)] from rfl]
      rw [← List.append_assoc]
      exact List.getLast?_concat _
  · intro h
    have hnb : (tickStreakFail s0 alive && (tickS s0 alive).strictMissionFailure) = false := by
      rw [h]
      exact Bool.false_and _
    constructor
    · intro items hmem
      rcases lem_tick_events_shape s0 alive with ⟨E, hE, hprop⟩
      rw [hE] at hmem
      rcases List.mem_append.1 hmem with h1 | h1
      · unfold tickEvAfterStreak at h1
        rcases List.mem_append.1 h1 with h2 | h2
        · rcases lem_loop_events (tickCtx s0 alive) (orderedDomains (tickS s0 alive))
            (tickLoop0 s0 alive) with ⟨E0, hE0, hprop0⟩
          have hLA : (tickLoopAll s0 alive).events = (tickLoop0 s0 alive).events ++ E0 := hE0
          rw [hLA] at h2
          rcases List.mem_append.1 h2 with h3 | h3
          · have h0 : (tickLoop0 s0 alive).events =
                if tickDoRotate s0 alive then [Ev.rotation] else [] := rfl
            rw [h0] at h3
            rcases lem_mem_ite_singleton _ _ _ h3 with ⟨heq, _⟩
            exact absurd heq (by simp)
          · rcases hprop0 _ h3 with ⟨h4, _⟩
            simp [isLoopEv] at h4
        · unfold tickEvStreak at h2
          rcases List.mem_append.1 h2 with h3 | h3
          · rcases lem_mem_ite_singleton2 _ _ _ h3 with ⟨heq, _⟩
            exact absurd heq (by simp)
          · rcases lem_mem_ite_singleton _ _ _ h3 with ⟨_, hb⟩
            exact absurd hb (by rw [h]; exact Bool.false_ne_true)
      · rcases hprop _ h1 with (⟨d2, g2, heq⟩ | ⟨u2, heq⟩ | ⟨u2, heq⟩) <;>
          exact absurd heq (by simp)
    · intro hr
      have hr2 : (tickGapRes s0 alive).2 = true := by
        rw [← lem_tick_raised s0 alive hnb]
        exact hr
      have hr3 : (((tickSS s0 alive).domainsActive).foldl
          (gapStep (tickSS s0 alive) (tickLoopAll s0 alive).lastService) ([], false)).2 =
          true := hr2
      obtain ⟨d, g, hlast⟩ := lem_gapFold_last (tickSS s0 alive)
        (tickLoopAll s0 alive).lastService (tickSS s0 alive).domainsActive ([], false) rfl hr3
      have hlast2 : (tickGapRes s0 alive).1.getLast? =
          some (Ev.missionFailureGap d g) := hlast
      have hbranch : scheduleTick s0 alive =
          ⟨tickSS s0 alive, (tickLoopAll s0 alive).assignments,
            (tickLoopAll s0 alive).assignMap, tickEvAfterGap s0 alive, true⟩ := by
        unfold scheduleTick
        rw [if_neg (by rw [hnb]; exact Bool.false_ne_true), if_pos hr2]
      refine ⟨d, g, ?_⟩
      rw [hbranch]
      show (tickEvAfterGap s0 alive).getLast? = _
      rw [show tickEvAfterGap s0 alive =
        tickEvAfterStreak s0 alive ++ (tickGapRes s0 alive).1 from rfl]
      rw [List.getLast?_append, hlast2]
      rfl
  · intro h
    rw [hproj.2.1]
    unfold tickStreakNew
    rw [if_neg (by rw [h]; exact Bool.false_ne_true)]
  · intro h
    rw [hproj.2.1]
    unfold tickStreakNew
    rw [if_pos h]

theorem C4_witness :
    (scheduleTick (initSched cfgSteady) aliveSteady).state.unmetStreak = 0 :=
  (C4_amended (initSched cfgSteady) aliveSteady).2.2.2 (by decide)

/-- C7: with distinct active domains and one liveness entry per unit,
every domain's assignment list — including the reporting-only `rest`
entry — contains no unit more than once, across all five tiers even
when tiers D/E reuse units already assigned to other domains. -/
theorem C7_nodup (s0 : Sched) (alive : List (String × Bool))
    (hWF : WFSched s0) (hA : WFAlive alive) (d : String) :
    ((scheduleTick s0 alive).assignMap d).Nodup := by
  have hUA : (tickCtx s0 alive).unitsAll.Nodup := hA
  have hloop : ((tickLoopAll s0 alive).assignMap d).Nodup := by
    by_cases hmem : d ∈ orderedDomains (tickS s0 alive)
    · by_cases hneed : 0 < s0.requiredGet d
      · have hdact : d ∈ (tickS s0 alive).domainsActive :=
          (List.perm_insertionSort _ _).mem_iff.1 hmem
        obtain ⟨l1, l2, hsplit, hd1, hd2⟩ := lem_ordered_split (tickS s0 alive) d
          (by rw [(lem_tickS_proj s0 alive).2.1]; exact hWF.1) hdact
        rw [(lem_loop_at_domain s0 alive d l1 l2 hsplit hd1 hd2 hneed).1]
        exact lem_pd5_chosen_nodup _ _ _ hUA
      · have hneg : (tickCtx s0 alive).s.requiredGet d ≤ 0 := by
          have heq : (tickCtx s0 alive).s.requiredGet = s0.requiredGet :=
            (lem_tickS_proj s0 alive).2.2.1
          rw [heq]
          exact not_lt.1 hneed
        have h0 : (tickLoopAll s0 alive).assignMap d = [] := by
          show ((orderedDomains (tickS s0 alive)).foldl (processDomain (tickCtx s0 alive))
            (tickLoop0 s0 alive)).assignMap d = []
          rw [(lem_loop_neg_frame (tickCtx s0 alive) (orderedDomains (tickS s0 alive))
            (tickLoop0 s0 alive) d hneg).1]
          rfl
        rw [h0]
        exact List.nodup_nil
    · have h0 : (tickLoopAll s0 alive).assignMap d = [] := by
        show ((orderedDomains (tickS s0 alive)).foldl (processDomain (tickCtx s0 alive))
          (tickLoop0 s0 alive)).assignMap d = []
        rw [lem_loop_assignMap_frame (tickCtx s0 alive) (orderedDomains (tickS s0 alive))
          (tickLoop0 s0 alive) d hmem]
        rfl
      rw [h0]
      exact List.nodup_nil
  unfold scheduleTick
  split
  · exact hloop
  split
  · exact hloop
  show ((tickAssignMapFinal s0 alive) d).Nodup
  unfold tickAssignMapFinal
  cases hrest : (tickS s0 alive).restDomain with
  | none => exact hloop
  | some rd =>
    dsimp only
    by_cases hdr : d = rd
    · rw [if_pos hdr]
      exact ((List.perm_insertionSort _ _).nodup_iff).2 (hA.filter _)
    · rw [if_neg hdr]
      exact hloop

theorem C7_witness :
    ((scheduleTick (initSched cfgSteady) aliveSteady).assignMap "radar").Nodup :=
  C7_nodup (initSched cfgSteady) aliveSteady (by decide) (by decide) "radar"

theorem lem_batteryStep_frame (s : Sched) (alive : List (String × Bool))
    (drain : String → ℚ) (recharge : ℚ) (acc : BatterySt) (u2 u : String)
    (hne : u2 ≠ u) :
    (batteryStep s alive drain recharge acc u2).battery u = acc.battery u ∧
    (u ∈ (batteryStep s alive drain recharge acc u2).dead ↔ u ∈ acc.dead) ∧
    ∃ E0, (batteryStep s alive drain recharge acc u2).events = acc.events ++ E0 ∧
      ∀ e ∈ E0, e ≠ Ev.batteryDead u := by
  unfold batteryStep
  split
  · exact ⟨rfl, Iff.rfl, [], by simp, by simp⟩
  split
  · dsimp only
    split
    · refine ⟨?_, ?_, ?_⟩
      · show (if u = u2 then some 0 else acc.battery u) = acc.battery u
        rw [if_neg (fun h => hne h.symm)]
      · show u ∈ (if acc.dead.contains u2 then acc.dead else acc.dead ++ [u2]) ↔ _
        split
        · exact Iff.rfl
        · constructor
          · intro h
            rcases List.mem_append.1 h with h | h
            · exact h
            · rcases List.mem_singleton.1 h with rfl
              exact absurd rfl hne
          · exact fun h => List.mem_append.2 (Or.inl h)
      · refine ⟨if acc.dead.contains u2 then [] else [Ev.batteryDead u2], ?_, ?_⟩
        · show (if acc.dead.contains u2 then acc.events
              else acc.events ++ [Ev.batteryDead u2]) = _
          split
          · simp
          · rfl
        · intro e he
          rcases lem_mem_ite_singleton2 _ _ _ he with ⟨rfl, _⟩
          exact fun h => hne (Ev.batteryDead.inj h)
    · refine ⟨?_, Iff.rfl, [], by simp, by simp⟩
      show (if u = u2 then _ else acc.battery u) = acc.battery u
      rw [if_neg (fun h => hne h.symm)]
  · dsimp only
    refine ⟨?_, Iff.rfl, [], by simp, by simp⟩
    show (if u = u2 then _ else acc.battery u) = acc.battery u
    rw [if_neg (fun h => hne h.symm)]

theorem lem_batteryFold_frame (s : Sched) (alive : List (String × Bool))
    (drain : String → ℚ) (recharge : ℚ) (units : List String) (acc : BatterySt)
    (u : String) (hu : u ∉ units) :
    (units.foldl (batteryStep s alive drain recharge) acc).battery u = acc.battery u ∧
    (u ∈ (units.foldl (batteryStep s alive drain recharge) acc).dead ↔ u ∈ acc.dead) ∧
    ∃ E, (units.foldl (batteryStep s alive drain recharge) acc).events = acc.events ++ E ∧
      ∀ e ∈ E, e ≠ Ev.batteryDead u := by
  induction units generalizing acc with
  | nil => exact ⟨rfl, Iff.rfl, [], by simp, by simp⟩
  | cons u2 rest ih =>
    have hne : u2 ≠ u := fun h => hu (h ▸ List.mem_cons_self u2 rest)
    rcases lem_batteryStep_frame s alive drain recharge acc u2 u hne with ⟨h1, h2, E0, hE0, hp0⟩
    rcases ih (batteryStep s alive drain recharge acc u2)
      (fun hh => hu (List.mem_cons_of_mem u2 hh)) with ⟨g1, g2, E, hE, hp⟩
    refine ⟨?_, ?_, E0 ++ E, ?_, ?_⟩
    · show (rest.foldl (batteryStep s alive drain recharge)
        (batteryStep s alive drain recharge acc u2)).battery u = _
      rw [g1, h1]
    · show u ∈ (rest.foldl (batteryStep s alive drain recharge)
        (batteryStep s alive drain recharge acc u2)).dead ↔ _
      rw [g2, h2]
    · show (rest.foldl (batteryStep s alive drain recharge)
        (batteryStep s alive drain recharge acc u2)).events = _
      rw [hE, hE0, List.append_assoc]
    · intro e he
      rcases List.mem_append.1 he with h | h
      · exact hp0 e h
      · exact hp e h

theorem lem_batteryStep_dead_frame (s : Sched) (alive : List (String × Bool))
    (drain : String → ℚ) (recharge : ℚ) (acc : BatterySt) (u2 u : String)
    (hu : u ∈ acc.dead) :
    (batteryStep s alive drain recharge acc u2).battery u = acc.battery u ∧
    u ∈ (batteryStep s alive drain recharge acc u2).dead ∧
    ∃ E0, (batteryStep s alive drain recharge acc u2).events = acc.events ++ E0 ∧
      ∀ e ∈ E0, e ≠ Ev.batteryDead u := by
  by_cases hne : u2 = u
  · subst hne
    have hc : acc.dead.contains u2 = true := (lem_contains_iff _ u2).2 hu
    unfold batteryStep
    rw [if_pos (by rw [hc]; simp)]
    exact ⟨rfl, hu, [], by simp, by simp⟩
  · rcases lem_batteryStep_frame s alive drain recharge acc u2 u hne with ⟨h1, h2, E0, hE0, hp0⟩
    exact ⟨h1, h2.2 hu, E0, hE0, hp0⟩

theorem lem_batteryFold_dead_frame (s : Sched) (alive : List (String × Bool))
    (drain : String → ℚ) (recharge : ℚ) (units : List String) (acc : BatterySt)
    (u : String) (hu : u ∈ acc.dead) :
    (units.foldl (batteryStep s alive drain recharge) acc).battery u = acc.battery u ∧
    u ∈ (units.foldl (batteryStep s alive drain recharge) acc).dead ∧
    ∃ E, (units.foldl (batteryStep s alive drain recharge) acc).events = acc.events ++ E ∧
      ∀ e ∈ E, e ≠ Ev.batteryDead u := by
  induction units generalizing acc with
  | nil => exact ⟨rfl, hu, [], by simp, by simp⟩
  | cons u2 rest ih =>
    rcases lem_batteryStep_dead_frame s alive drain recharge acc u2 u hu with ⟨h1, h2, E0, hE0, hp0⟩
    rcases ih (batteryStep s alive drain recharge acc u2) h2 with ⟨g1, g2, E, hE, hp⟩
    refine ⟨?_, g2, E0 ++ E, ?_, ?_⟩
    · show (rest.foldl (batteryStep s alive drain recharge)
        (batteryStep s alive drain recharge acc u2)).battery u = _
      rw [g1, h1]
    · show (rest.foldl (batteryStep s alive drain recharge)
        (batteryStep s alive drain recharge acc u2)).events = _
      rw [hE, hE0, List.append_assoc]
    · intro e he
      rcases List.mem_append.1 he with h | h
      · exact hp0 e h
      · exact hp e h

theorem lem_batteryStep_death (s : Sched) (alive : List (String × Bool))
    (drain : String → ℚ) (recharge : ℚ) (acc : BatterySt) (u : String)
    (hal : aliveGet alive u = true) (hnd : acc.dead.contains u = false)
    (hdr : 0 < drain u) (hle : batteryGet0 acc.battery u - drain u ≤ 0) :
    (batteryStep s alive drain recharge acc u).battery u = some 0 ∧
    (batteryStep s alive drain recharge acc u).dead = acc.dead ++ [u] ∧
    (batteryStep s alive drain recharge acc u).events =
      acc.events ++ [Ev.batteryDead u] := by
  unfold batteryStep
  rw [if_neg (by rw [hal, hnd]; decide), if_pos hdr]
  dsimp only
  rw [if_pos hle]
  refine ⟨?_, ?_, ?_⟩
  · show (if u = u then some 0 else acc.battery u) = some 0
    rw [if_pos rfl]
  · show (if acc.dead.contains u then acc.dead else acc.dead ++ [u]) = _
    rw [if_neg (by rw [hnd]; exact Bool.false_ne_true)]
  · show (if acc.dead.contains u then acc.events else acc.events ++ [Ev.batteryDead u]) = _
    rw [if_neg (by rw [hnd]; exact Bool.false_ne_true)]

theorem lem_loop_dead_not_assigned (c : PdCtx) (l : List String) (st : LoopSt) (u : String)
    (hdead : c.s.batteryDead.contains u = true)
    (hst : ∀ d, u ∉ st.assignMap d) :
    ∀ d, u ∉ (l.foldl (processDomain c) st).assignMap d := by
  induction l generalizing st with
  | nil => exact hst
  | cons d0 rest ih =>
    apply ih (processDomain c st d0)
    intro d
    by_cases hneed : c.s.requiredGet d0 ≤ 0
    · rw [lem_processDomain_neg c st d0 hneed]
      exact hst d
    · rw [lem_processDomain_pos c st d0 (not_le.1 hneed)]
      dsimp only
      by_cases hdd : d = d0
      · subst hdd
        rw [if_pos rfl]
        intro hmem
        rcases List.mem_append.1 hmem with h | h
        · exact hst d h
        · have hcand := (lem_pd5_facts c st d).1 u h
          have hov := lem_pdAllCands_override c st.used d u hcand
          have hok := lem_candidates_ok c.s d c.alive c.unitsAll true u hov
          rcases lem_candOk_canAssign c.s c.alive d true u hok with ⟨hca, _⟩
          unfold canAssign isAlive at hca
          rw [Bool.and_eq_true, Bool.and_eq_true] at hca
          have h2 := hca.1.2
          rw [hdead] at h2
          exact absurd h2 (by decide)
      · rw [if_neg hdd]
        exact hst d

theorem lem_tick_dead_not_assigned (s0 : Sched) (alive : List (String × Bool)) (u : String)
    (hdead : u ∈ s0.batteryDead) (d : String) :
    u ∉ (scheduleTick s0 alive).assignMap d := by
  have hdc : (tickCtx s0 alive).s.batteryDead.contains u = true := by
    have heq : (tickCtx s0 alive).s.batteryDead = s0.batteryDead :=
      (lem_tickS_proj s0 alive).2.2.2.2.2.2.2.2.1
    rw [heq]
    exact (lem_contains_iff _ u).2 hdead
  have hloop : ∀ d2, u ∉ (tickLoopAll s0 alive).assignMap d2 := by
    intro d2
    show u ∉ ((orderedDomains (tickS s0 alive)).foldl (processDomain (tickCtx s0 alive))
      (tickLoop0 s0 alive)).assignMap d2
    exact lem_loop_dead_not_assigned (tickCtx s0 alive) _ (tickLoop0 s0 alive) u hdc
      (fun _ => List.not_mem_nil u) d2
  unfold scheduleTick
  split
  · exact hloop d
  split
  · exact hloop d
  show u ∉ tickAssignMapFinal s0 alive d
  unfold tickAssignMapFinal
  cases hrest : (tickS s0 alive).restDomain with
  | none => exact hloop d
  | some rd =>
    dsimp only
    by_cases hdr : d = rd
    · rw [if_pos hdr]
      intro hmem
      rw [(List.perm_insertionSort _ _).mem_iff] at hmem
      have hflt := List.of_mem_filter hmem
      rw [Bool.and_eq_true] at hflt
      have h2 := hflt.2
      have heq : (tickS s0 alive).batteryDead = s0.batteryDead :=
        (lem_tickS_proj s0 alive).2.2.2.2.2.2.2.2.1
      rw [heq, (lem_contains_iff _ u).2 hdead] at h2
      exact absurd h2 (by decide)
    · rw [if_neg hdr]
      exact hloop d

theorem lem_afterGap_no_batteryDead (s0 : Sched) (alive : List (String × Bool)) (u : String) :
    Ev.batteryDead u ∉ tickEvAfterGap s0 alive := by
  intro h
  unfold tickEvAfterGap at h
  rcases List.mem_append.1 h with h | h
  · unfold tickEvAfterStreak at h
    rcases List.mem_append.1 h with h2 | h2
    · rcases lem_loop_events (tickCtx s0 alive) (orderedDomains (tickS s0 alive))
        (tickLoop0 s0 alive) with ⟨E0, hE0, hprop0⟩
      have hLA : (tickLoopAll s0 alive).events = (tickLoop0 s0 alive).events ++ E0 := hE0
      rw [hLA] at h2
      rcases List.mem_append.1 h2 with h3 | h3
      · have h0 : (tickLoop0 s0 alive).events =
            if tickDoRotate s0 alive then [Ev.rotation] else [] := rfl
        rw [h0] at h3
        rcases lem_mem_ite_singleton _ _ _ h3 with ⟨heq, _⟩
        exact absurd heq (by simp)
      · rcases hprop0 _ h3 with ⟨h4, _⟩
        simp [isLoopEv] at h4
    · unfold tickEvStreak at h2
      rcases List.mem_append.1 h2 with h3 | h3
      · rcases lem_mem_ite_singleton2 _ _ _ h3 with ⟨heq, _⟩
        exact absurd heq (by simp)
      · rcases lem_mem_ite_singleton _ _ _ h3 with ⟨heq, _⟩
        exact absurd heq (by simp)
  · rcases lem_gapFold_events (tickSS s0 alive) (tickLoopAll s0 alive).lastService
      (tickSS s0 alive).domainsActive ([], false) with ⟨E, hE, hprop⟩
    have heq : (tickGapRes s0 alive).1 = E := by
      unfold tickGapRes gapCheck
      rw [hE]
      rfl
    rw [heq] at h
    rcases hprop _ h with ⟨d2, _, h2⟩
    exact absurd h2 (by simp)

theorem lem_countP_zero_of_ne (L : List Ev) (u : String)
    (hL : ∀ e ∈ L, e ≠ Ev.batteryDead u) :
    L.countP (fun e => decide (e = Ev.batteryDead u)) = 0 := by
  rw [List.countP_eq_zero]
  intro a ha
  simp only [decide_eq_true_eq]
  exact hL a ha

/-- C6: battery death is exact and terminal.  (a) On a normally
completing tick where an alive, not-yet-dead unit's accumulated drain
takes its battery to or below zero, the battery is clamped to exactly 0,
the unit is marked dead, and exactly one `battery_dead` event for it is
emitted.  (b) A unit already dead with battery 0 stays out of every
domain's assignment (including the `rest` entry), keeps battery exactly
0 (it is never recharged), stays marked dead, and triggers no further
`battery_dead` event. -/
theorem C6_dead_terminal (s0 : Sched) (alive : List (String × Bool)) (u : String) :
    ((scheduleTick s0 alive).raised = false →
      WFAlive alive →
      aliveGet alive u = true →
      u ∉ s0.batteryDead →
      0 < tickDrain s0 alive u →
      batteryGet0 (tickS s0 alive).batteryPct u - tickDrain s0 alive u ≤ 0 →
        ((scheduleTick s0 alive).state.batteryPct u = some 0 ∧
         u ∈ (scheduleTick s0 alive).state.batteryDead ∧
         ((scheduleTick s0 alive).events.countP
           (fun e => decide (e = Ev.batteryDead u))) = 1)) ∧
    (u ∈ s0.batteryDead →
      s0.batteryPct u = some 0 →
        ((∀ d, u ∉ (scheduleTick s0 alive).assignMap d) ∧
         (scheduleTick s0 alive).state.batteryPct u = some 0 ∧
         u ∈ (scheduleTick s0 alive).state.batteryDead ∧
         Ev.batteryDead u ∉ (scheduleTick s0 alive).events)) := by
  have hdead_eq : (tickS s0 alive).batteryDead = s0.batteryDead :=
    (lem_tickS_proj s0 alive).2.2.2.2.2.2.2.2.1
  have hbpct : (tickS s0 alive).batteryPct =
      ensureBattery s0.batteryPct (alive.map Prod.fst) :=
    (lem_tickS_proj s0 alive).2.2.2.2.2.2.2.2.2.2
  constructor
  · intro hnr hA hal hnd0 hdr hle
    cases hc1 : (tickStreakFail s0 alive && (tickS s0 alive).strictMissionFailure)
    case true =>
      unfold scheduleTick at hnr
      rw [if_pos hc1] at hnr
      simp at hnr
    cases hc2 : (tickGapRes s0 alive).2
    case true =>
      unfold scheduleTick at hnr
      rw [if_neg (by rw [hc1]; exact Bool.false_ne_true), if_pos hc2] at hnr
      simp at hnr
    have hrew : scheduleTick s0 alive =
        ⟨tickFinalState s0 alive, (tickLoopAll s0 alive).assignments,
          tickAssignMapFinal s0 alive, (tickLowRes s0 alive).1, false⟩ := by
      unfold scheduleTick
      rw [if_neg (by rw [hc1]; exact Bool.false_ne_true),
        if_neg (by rw [hc2]; exact Bool.false_ne_true)]
    have hmem : u ∈ alive.map Prod.fst := lem_aliveGet_mem alive u hal
    rcases List.append_of_mem hmem with ⟨l1, l2, heq⟩
    have hnd2 : (alive.map Prod.fst).Nodup := hA
    rw [heq] at hnd2
    rcases List.nodup_append.1 hnd2 with ⟨_, hndr, hdisj⟩
    have hu1 : u ∉ l1 := fun hin => hdisj hin (List.mem_cons_self u l2)
    have hu2 : u ∉ l2 := (List.nodup_cons.1 hndr).1
    set step := batteryStep (tickS s0 alive) alive (tickDrain s0 alive)
      (rechargePct (tickS s0 alive)) with hstepdef
    set acc : BatterySt := ⟨(tickS s0 alive).batteryPct, (tickS s0 alive).batteryDead,
      (tickS s0 alive).batteryDeadFirstTick, tickEvAfterGap s0 alive⟩ with haccdef
    set A1 := l1.foldl step acc with hA1def
    rcases lem_batteryFold_frame (tickS s0 alive) alive (tickDrain s0 alive)
      (rechargePct (tickS s0 alive)) l1 acc u hu1 with ⟨f1, f2, E1a, hE1a, hp1a⟩
    have hA1dead : u ∉ A1.dead := fun hin => by
      have h2 := f2.1 hin
      rw [show acc.dead = s0.batteryDead from by rw [haccdef]; exact hdead_eq] at h2
      exact hnd0 h2
    have hA1c : A1.dead.contains u = false := by
      cases hc0 : A1.dead.contains u
      · rfl
      · exact absurd ((lem_contains_iff _ u).1 hc0) hA1dead
    have hA1bat : A1.battery u = (tickS s0 alive).batteryPct u := f1
    have hA1le : batteryGet0 A1.battery u - tickDrain s0 alive u ≤ 0 := by
      unfold batteryGet0
      rw [hA1bat]
      exact hle
    rcases lem_batteryStep_death (tickS s0 alive) alive (tickDrain s0 alive)
      (rechargePct (tickS s0 alive)) A1 u hal hA1c hdr hA1le with ⟨d1, d2, d3⟩
    set S := step A1 u with hSdef
    rcases lem_batteryFold_frame (tickS s0 alive) alive (tickDrain s0 alive)
      (rechargePct (tickS s0 alive)) l2 S u hu2 with ⟨g1, g2, E1b, hE1b, hp1b⟩
    have hfold : tickBatteryRes s0 alive = l2.foldl step S := by
      show (alive.map Prod.fst).foldl step acc = _
      rw [heq, List.foldl_append]
      rfl
    have hbres : (tickBatteryRes s0 alive).battery u = some 0 := by
      rw [hfold, g1, hSdef, d1]
    have hdres : u ∈ (tickBatteryRes s0 alive).dead := by
      rw [hfold]
      refine g2.2 ?_
      rw [hSdef, d2]
      exact List.mem_append.2 (Or.inr (List.mem_singleton_self u))
    have hevres : (tickBatteryRes s0 alive).events =
        ((tickEvAfterGap s0 alive ++ E1a) ++ [Ev.batteryDead u]) ++ E1b := by
      rw [hfold, hE1b, hSdef, d3, hE1a]
    rcases lem_lowBatteryFold_events (tickS s0 alive) (tickBase s0 alive).batteryPct
      (tickBatteryRes s0 alive).battery (tickBatteryRes s0 alive).dead
      (dedupFirst (tickActiveSet s0 alive))
      ((tickBatteryRes s0 alive).events, (tickS s0 alive).lastLowBatteryWarnTick)
      with ⟨E2, hE2, hp2⟩
    have hlowev : (tickLowRes s0 alive).1 = (tickBatteryRes s0 alive).events ++ E2 := hE2
    rw [hrew]
    refine ⟨hbres, hdres, ?_⟩
    show ((tickLowRes s0 alive).1.countP (fun e => decide (e = Ev.batteryDead u))) = 1
    rw [hlowev, hevres]
    rw [List.countP_append, List.countP_append, List.countP_append, List.countP_append]
    rw [lem_countP_zero_of_ne _ u (fun e he => fun hcontra =>
      lem_afterGap_no_batteryDead s0 alive u (hcontra ▸ he))]
    rw [lem_countP_zero_of_ne _ u hp1a, lem_countP_zero_of_ne _ u hp1b]
    rw [lem_countP_zero_of_ne E2 u (fun e he => by
      rcases hp2 e he with ⟨u2, rfl⟩
      simp)]
    simp
  · intro hdead hbat
    have hensure : ensureBattery s0.batteryPct (alive.map Prod.fst) u = some 0 := by
      unfold ensureBattery
      rw [show (s0.batteryPct u).isNone = false from by rw [hbat]; rfl, Bool.and_false]
      rw [if_neg Bool.false_ne_true]
      exact hbat
    have hSSbat : (tickSS s0 alive).batteryPct u = some 0 := by
      show (tickS s0 alive).batteryPct u = some 0
      rw [hbpct]
      exact hensure
    have hSSdead : u ∈ (tickSS s0 alive).batteryDead := by
      show u ∈ (tickS s0 alive).batteryDead
      rw [hdead_eq]
      exact hdead
    refine ⟨fun d => lem_tick_dead_not_assigned s0 alive u hdead d, ?_, ?_, ?_⟩
    · unfold scheduleTick
      split
      · exact hSSbat
      split
      · exact hSSbat
      show (tickBatteryRes s0 alive).battery u = some 0
      have hfdead : u ∈ ((tickS s0 alive).batteryDead : List String) := by
        rw [hdead_eq]
        exact hdead
      rcases lem_batteryFold_dead_frame (tickS s0 alive) alive (tickDrain s0 alive)
        (rechargePct (tickS s0 alive)) (alive.map Prod.fst)
        ⟨(tickS s0 alive).batteryPct, (tickS s0 alive).batteryDead,
          (tickS s0 alive).batteryDeadFirstTick, tickEvAfterGap s0 alive⟩ u hfdead
        with ⟨h1, _, _⟩
      have hb : (tickBatteryRes s0 alive).battery u = (tickS s0 alive).batteryPct u := h1
      rw [hb, hbpct]
      exact hensure
    · unfold scheduleTick
      split
      · exact hSSdead
      split
      · exact hSSdead
      show u ∈ (tickBatteryRes s0 alive).dead
      have hfdead : u ∈ ((tickS s0 alive).batteryDead : List String) := by
        rw [hdead_eq]
        exact hdead
      rcases lem_batteryFold_dead_frame (tickS s0 alive) alive (tickDrain s0 alive)
        (rechargePct (tickS s0 alive)) (alive.map Prod.fst)
        ⟨(tickS s0 alive).batteryPct, (tickS s0 alive).batteryDead,
          (tickS s0 alive).batteryDeadFirstTick, tickEvAfterGap s0 alive⟩ u hfdead
        with ⟨_, h2, _⟩
      exact h2
    · unfold scheduleTick
      split
      · intro h
        exact lem_afterGap_no_batteryDead s0 alive u (List.mem_append.2 (Or.inl h))
      split
      · exact lem_afterGap_no_batteryDead s0 alive u
      show Ev.batteryDead u ∉ (tickLowRes s0 alive).1
      have hfdead : u ∈ ((tickS s0 alive).batteryDead : List String) := by
        rw [hdead_eq]
        exact hdead
      rcases lem_batteryFold_dead_frame (tickS s0 alive) alive (tickDrain s0 alive)
        (rechargePct (tickS s0 alive)) (alive.map Prod.fst)
        ⟨(tickS s0 alive).batteryPct, (tickS s0 alive).batteryDead,
          (tickS s0 alive).batteryDeadFirstTick, tickEvAfterGap s0 alive⟩ u hfdead
        with ⟨_, _, E, hE, hpE⟩
      rcases lem_lowBatteryFold_events (tickS s0 alive) (tickBase s0 alive).batteryPct
        (tickBatteryRes s0 alive).battery (tickBatteryRes s0 alive).dead
        (dedupFirst (tickActiveSet s0 alive))
        ((tickBatteryRes s0 alive).events, (tickS s0 alive).lastLowBatteryWarnTick)
        with ⟨E2, hE2, hp2⟩
      have hlowev : (tickLowRes s0 alive).1 = (tickBatteryRes s0 alive).events ++ E2 := hE2
      have hbatev : (tickBatteryRes s0 alive).events = tickEvAfterGap s0 alive ++ E := hE
      rw [hlowev, hbatev]
      intro h
      rcases List.mem_append.1 h with h2 | h2
      · rcases List.mem_append.1 h2 with h3 | h3
        · exact lem_afterGap_no_batteryDead s0 alive u h3
        · exact hpE _ h3 rfl
      · rcases hp2 _ h2 with ⟨u2, heq2⟩
        exact absurd heq2 (by simp)

theorem C6_witness :
    (scheduleTick sDead aliveSteady).state.batteryPct "u1" = some 0 :=
  ((C6_dead_terminal sDead aliveSteady "u1").2 (by decide) (by decide)).2.1

theorem lem_batteryStep_at (s : Sched) (alive : List (String × Bool))
    (drain : String → ℚ) (recharge : ℚ) (acc : BatterySt) (u : String)
    (hal : aliveGet alive u = true) (hnd : acc.dead.contains u = false) :
    (batteryStep s alive drain recharge acc u).battery u =
      (if 0 < drain u then
        (if batteryGet0 acc.battery u - drain u ≤ 0 then some 0
         else some (batteryGet0 acc.battery u - drain u))
      else some (min 100 (batteryGet0 acc.battery u + recharge * restWeight s))) := by
  unfold batteryStep
  rw [if_neg (by rw [hal, hnd]; decide)]
  by_cases hdr : 0 < drain u
  · rw [if_pos hdr, if_pos hdr]
    dsimp only
    by_cases hle : batteryGet0 acc.battery u - drain u ≤ 0
    · rw [if_pos hle, if_pos hle]
      show (if u = u then some 0 else acc.battery u) = some 0
      rw [if_pos rfl]
    · rw [if_neg hle, if_neg hle]
      show (if u = u then some (batteryGet0 acc.battery u - drain u)
        else acc.battery u) = _
      rw [if_pos rfl]
  · rw [if_neg hdr, if_neg hdr]
    dsimp only
    show (if u = u then some (min 100 (batteryGet0 acc.battery u +
        recharge * restWeight s)) else acc.battery u) = _
    rw [if_pos rfl]

theorem lem_batteryStep_down (s : Sched) (alive : List (String × Bool))
    (drain : String → ℚ) (recharge : ℚ) (acc : BatterySt) (u : String)
    (hal : aliveGet alive u = false) :
    batteryStep s alive drain recharge acc u = acc := by
  unfold batteryStep
  rw [if_pos (by rw [hal]; simp)]

/-- C5 amended: for a unit in the liveness map on a normally completing
tick — alive and not dead: if its accumulated weighted drain is
positive it ends at max(0, pre − drain); with nonpositive drain
(including the no-assignment case, where the drain is 0) it recharges
to min(100, pre + 0.5·base·max(0, weight[rest])); the spec formula
therefore only holds when every assigned domain has positive weight and
the rest weight is nonnegative.  Down and dead units keep their
battery. -/
theorem C5_amended (s0 : Sched) (alive : List (String × Bool)) (u : String)
    (hA : WFAlive alive)
    (hnr : (scheduleTick s0 alive).raised = false)
    (hmem : u ∈ alive.map Prod.fst) :
    (aliveGet alive u = true → u ∉ s0.batteryDead →
      (0 < tickDrain s0 alive u →
        (scheduleTick s0 alive).state.batteryPct u =
          some (max 0 (batteryGet0 (tickS s0 alive).batteryPct u -
            tickDrain s0 alive u))) ∧
      (tickDrain s0 alive u ≤ 0 →
        (scheduleTick s0 alive).state.batteryPct u =
          some (min 100 (batteryGet0 (tickS s0 alive).batteryPct u +
            rechargePct (tickS s0 alive) * restWeight (tickS s0 alive))))) ∧
    (aliveGet alive u = false →
      (scheduleTick s0 alive).state.batteryPct u = (tickS s0 alive).batteryPct u) ∧
    (u ∈ s0.batteryDead →
      (scheduleTick s0 alive).state.batteryPct u = (tickS s0 alive).batteryPct u) ∧
    (u ∉ tickActiveSet s0 alive → tickDrain s0 alive u = 0) := by
  have hdead_eq : (tickS s0 alive).batteryDead = s0.batteryDead :=
    (lem_tickS_proj s0 alive).2.2.2.2.2.2.2.2.1
  have hrew : scheduleTick s0 alive =
      ⟨tickFinalState s0 alive, (tickLoopAll s0 alive).assignments,
        tickAssignMapFinal s0 alive, (tickLowRes s0 alive).1, false⟩ := by
    cases hc1 : (tickStreakFail s0 alive && (tickS s0 alive).strictMissionFailure)
    case true =>
      unfold scheduleTick at hnr
      rw [if_pos hc1] at hnr
      simp at hnr
    cases hc2 : (tickGapRes s0 alive).2
    case true =>
      unfold scheduleTick at hnr
      rw [if_neg (by rw [hc1]; exact Bool.false_ne_true), if_pos hc2] at hnr
      simp at hnr
    unfold scheduleTick
    rw [if_neg (by rw [hc1]; exact Bool.false_ne_true),
      if_neg (by rw [hc2]; exact Bool.false_ne_true)]
  rcases List.append_of_mem hmem with ⟨l1, l2, heq⟩
  have hnd2 : (alive.map Prod.fst).Nodup := hA
  rw [heq] at hnd2
  rcases List.nodup_append.1 hnd2 with ⟨_, hndr, hdisj⟩
  have hu1 : u ∉ l1 := fun hin => hdisj hin (List.mem_cons_self u l2)
  have hu2 : u ∉ l2 := (List.nodup_cons.1 hndr).1
  set step := batteryStep (tickS s0 alive) alive (tickDrain s0 alive)
    (rechargePct (tickS s0 alive)) with hstepdef
  set acc : BatterySt := ⟨(tickS s0 alive).batteryPct, (tickS s0 alive).batteryDead,
    (tickS s0 alive).batteryDeadFirstTick, tickEvAfterGap s0 alive⟩ with haccdef
  set A1 := l1.foldl step acc with hA1def
  rcases lem_batteryFold_frame (tickS s0 alive) alive (tickDrain s0 alive)
    (rechargePct (tickS s0 alive)) l1 acc u hu1 with ⟨f1, f2, _, _, _⟩
  have hfold : tickBatteryRes s0 alive = l2.foldl step (step A1 u) := by
    show (alive.map Prod.fst).foldl step acc = _
    rw [heq, List.foldl_append]
    rfl
  have hfin : (scheduleTick s0 alive).state.batteryPct = (tickBatteryRes s0 alive).battery := by
    rw [hrew]
    rfl
  refine ⟨?_, ?_, ?_, ?_⟩
  · intro hal hd0
    have hA1dead : u ∉ A1.dead := fun hin => by
      have h2 := f2.1 hin
      rw [show acc.dead = s0.batteryDead from by rw [haccdef]; exact hdead_eq] at h2
      exact hd0 h2
    have hA1c : A1.dead.contains u = false := by
      cases hc0 : A1.dead.contains u
      · rfl
      · exact absurd ((lem_contains_iff _ u).1 hc0) hA1dead
    have hstep_at := lem_batteryStep_at (tickS s0 alive) alive (tickDrain s0 alive)
      (rechargePct (tickS s0 alive)) A1 u hal hA1c
    rcases lem_batteryFold_frame (tickS s0 alive) alive (tickDrain s0 alive)
      (rechargePct (tickS s0 alive)) l2 (step A1 u) u hu2 with ⟨g1, _, _, _, _⟩
    have hbat_final : (scheduleTick s0 alive).state.batteryPct u = (step A1 u).battery u := by
      rw [hfin, hfold]
      exact g1
    have hbg : batteryGet0 A1.battery u = batteryGet0 (tickS s0 alive).batteryPct u := by
      unfold batteryGet0
      rw [f1]
    constructor
    · intro hdr
      rw [hbat_final, hstep_at, if_pos hdr, hbg]
      by_cases hle : batteryGet0 (tickS s0 alive).batteryPct u - tickDrain s0 alive u ≤ 0
      · rw [if_pos hle]
        rw [max_eq_left hle]
      · rw [if_neg hle]
        rw [max_eq_right (le_of_lt (not_le.1 hle))]
    · intro hdr
      rw [hbat_final, hstep_at, if_neg (not_lt.2 hdr), hbg]
  · intro hal
    have hstepid : step A1 u = A1 :=
      lem_batteryStep_down (tickS s0 alive) alive (tickDrain s0 alive)
        (rechargePct (tickS s0 alive)) A1 u hal
    rcases lem_batteryFold_frame (tickS s0 alive) alive (tickDrain s0 alive)
      (rechargePct (tickS s0 alive)) l2 (step A1 u) u hu2 with ⟨g1, _, _, _, _⟩
    rw [hfin, hfold, g1, hstepid, f1]
  · intro hdead
    have hfdead : u ∈ ((tickS s0 alive).batteryDead : List String) := by
      rw [hdead_eq]
      exact hdead
    rcases lem_batteryFold_dead_frame (tickS s0 alive) alive (tickDrain s0 alive)
      (rechargePct (tickS s0 alive)) (alive.map Prod.fst) acc u hfdead with ⟨h1, _, _⟩
    rw [hfin]
    exact h1
  · intro hact
    show drainOf (tickS s0 alive) (tickLoopAll s0 alive).assignments
      (drainPerRolePct (tickS s0 alive)) u = 0
    unfold drainOf
    have hflt : ((tickLoopAll s0 alive).assignments.filter (fun p => p.2 = u)) = [] := by
      rw [List.filter_eq_nil_iff]
      intro p hp
      simp only [decide_eq_true_eq]
      intro hpu
      exact hact (hpu ▸ List.mem_map_of_mem Prod.snd hp)
    rw [hflt]
    rfl

/-- C5 counterexample: a domain with weight 0.  Its unit is assigned,
the spec formula predicts battery max(0, pre − 0) = pre = 50, but the
code's drain test `drain > 0` fails and the unit is recharged to
50 + 0.5·base·weight[rest] = 50.05 instead. -/
theorem C5_counterexample :
    exZeroW.assignMap "radar" = ["u1"] ∧
    tickDrain sZeroW aliveZeroW "u1" = 0 ∧
    exZeroW.state.batteryPct "u1" = some (1001/20) ∧
    ¬(exZeroW.state.batteryPct "u1" =
      some (max 0 (50 - tickDrain sZeroW aliveZeroW "u1"))) := by decide

theorem C5_witness :
    (scheduleTick (initSched cfgSteady) aliveSteady).state.batteryPct "u1" =
      some (max 0 (batteryGet0 (tickS (initSched cfgSteady) aliveSteady).batteryPct "u1" -
        tickDrain (initSched cfgSteady) aliveSteady "u1")) :=
  ((C5_amended (initSched cfgSteady) aliveSteady "u1" (by decide) (by decide)
    (by decide)).1 (by decide) (by decide)).1 (by decide)

theorem lem_capGet_pos_mem (cap : List (String × ℤ)) (u : String)
    (h : 0 < capGet cap u) : u ∈ cap.map Prod.fst := by
  induction cap with
  | nil => exact absurd h (by simp [capGet])
  | cons p rest ih =>
    by_cases hpu : p.1 = u
    · exact hpu ▸ List.mem_map_of_mem Prod.fst (List.mem_cons_self p rest)
    · have e : capGet (p :: rest) u = capGet rest u := by
        show (if p.1 = u then p.2 else capGet rest u) = _
        rw [if_neg hpu]
      rw [e] at h
      rw [List.map_cons]
      exact List.mem_cons_of_mem _ (ih h)

/-- Every unit a tier picks was a key of the capacity map the tier
started from. -/
theorem lem_tierRun_chosen_keys (k : List String) (ko cs au : Bool)
    (cands : List String) (st : PickSt) :
    ∀ v ∈ (tierRun k ko cs au cands st).chosen,
      v ∈ st.chosen ∨ v ∈ st.capacity.map Prod.fst := by
  induction cands generalizing st with
  | nil => exact fun v hv => Or.inl hv
  | cons u rest ih =>
    intro v hv
    have hrun : tierRun k ko cs au (u :: rest) st =
        tierRun k ko cs au rest (tierStep k ko cs au st u) := rfl
    rw [hrun] at hv
    rcases lem_tierStep_cases k ko cs au st u with heq | ⟨_, hcap, _, heq⟩
    · rw [heq] at hv
      exact ih st v hv
    · rcases ih (tierStep k ko cs au st u) v hv with h | h
      · rw [heq] at h
        dsimp only at h
        rcases List.mem_append.1 h with h2 | h2
        · exact Or.inl h2
        · rcases List.mem_singleton.1 h2 with rfl
          refine Or.inr (lem_capGet_pos_mem st.capacity v ?_)
          unfold canTake at hcap
          exact of_decide_eq_true hcap
      · rw [heq] at h
        dsimp only at h
        rw [lem_capDec_map_fst st.capacity u] at h
        exact Or.inr h

/-- Every unit the five tiers choose for a domain was a key of the
capacity map as it stood when the domain was processed. -/
theorem lem_pd5_chosen_keys (c : PdCtx) (st : LoopSt) (d : String) :
    ∀ v ∈ (pdP5 c st d).chosen, v ∈ st.capacity.map Prod.fst := by
  have k0 : (pdP0 c st d).capacity = st.capacity := rfl
  have s1 : ∀ v ∈ (pdP1 c st d).chosen, v ∈ st.capacity.map Prod.fst := by
    unfold pdP1
    split
    · intro v hv
      rcases lem_tierRun_chosen_keys (pdKeep c d) true false true
        (pdUnusedStrict c st.used d) (pdP0 c st d) v hv with h | h
      · exact absurd h (List.not_mem_nil v)
      · exact h
    · intro v hv
      exact absurd hv (List.not_mem_nil v)
  have k1 : (pdP1 c st d).capacity.map Prod.fst = st.capacity.map Prod.fst := by
    unfold pdP1
    split
    · rcases lem_tierRun_ext (pdKeep c d) true false true
        (pdUnusedStrict c st.used d) (pdP0 c st d) with ⟨Δ, a, b, n, f, k, s, m, l, nd⟩
      exact k
    · rfl
  have s2 : ∀ v ∈ (pdP2 c st d).chosen, v ∈ st.capacity.map Prod.fst := by
    intro v hv
    rcases lem_tierRun_chosen_keys [] false true true
      (pdUnusedStrict c st.used d) (pdP1 c st d) v hv with h | h
    · exact s1 v h
    · rw [k1] at h
      exact h
  have k2 : (pdP2 c st d).capacity.map Prod.fst = st.capacity.map Prod.fst := by
    rcases lem_tierRun_ext [] false true true
      (pdUnusedStrict c st.used d) (pdP1 c st d) with ⟨Δ, a, b, n, f, k, s, m, l, nd⟩
    rw [show (pdP2 c st d).capacity.map Prod.fst =
      (pdP1 c st d).capacity.map Prod.fst from k, k1]
  have s3 : ∀ v ∈ (pdP3 c st d).chosen, v ∈ st.capacity.map Prod.fst := by
    unfold pdP3
    split
    · intro v hv
      rcases lem_tierRun_chosen_keys [] false false true
        (pdUnusedOverride c st.used d) (pdP2 c st d) v hv with h | h
      · exact s2 v h
      · rw [k2] at h
        exact h
    · exact s2
  have k3 : (pdP3 c st d).capacity.map Prod.fst = st.capacity.map Prod.fst := by
    unfold pdP3
    split
    · rcases lem_tierRun_ext [] false false true
        (pdUnusedOverride c st.used d) (pdP2 c st d) with ⟨Δ, a, b, n, f, k, s, m, l, nd⟩
      rw [show (tierRun [] false false true (pdUnusedOverride c st.used d)
        (pdP2 c st d)).capacity.map Prod.fst =
        (pdP2 c st d).capacity.map Prod.fst from k, k2]
    · exact k2
  have s4 : ∀ v ∈ (pdP4 c st d).chosen, v ∈ st.capacity.map Prod.fst := by
    intro v hv
    rcases lem_tierRun_chosen_keys [] false false false
      (pdUsedStrict c st.used d) (pdP3 c st d) v hv with h | h
    · exact s3 v h
    · rw [k3] at h
      exact h
  have k4 : (pdP4 c st d).capacity.map Prod.fst = st.capacity.map Prod.fst := by
    rcases lem_tierRun_ext [] false false false
      (pdUsedStrict c st.used d) (pdP3 c st d) with ⟨Δ, a, b, n, f, k, s, m, l, nd⟩
    rw [show (pdP4 c st d).capacity.map Prod.fst =
      (pdP3 c st d).capacity.map Prod.fst from k, k3]
  unfold pdP5
  split
  · intro v hv
    rcases lem_tierRun_chosen_keys [] false false false
      (pdUsedOverride c st.used d) (pdP4 c st d) v hv with h | h
    · exact s4 v h
    · rw [k4] at h
      exact h
  · exact s4

/-- Loop invariants carried across processed domains: `used_units` stays
duplicate-free, all its members are capacity keys, the capacity key set
never changes, and the number of used units is bounded by the sum of
the processed requirements. -/
theorem lem_loop_inv (c : PdCtx) (l : List String) (st : LoopSt)
    (hreq : ∀ x ∈ l, 0 ≤ c.s.requiredGet x)
    (h1 : st.used.Nodup)
    (h2 : ∀ v ∈ st.used, v ∈ st.capacity.map Prod.fst) :
    (l.foldl (processDomain c) st).used.Nodup ∧
    (∀ v ∈ (l.foldl (processDomain c) st).used,
      v ∈ (l.foldl (processDomain c) st).capacity.map Prod.fst) ∧
    (l.foldl (processDomain c) st).capacity.map Prod.fst = st.capacity.map Prod.fst ∧
    (((l.foldl (processDomain c) st).used.length : ℤ) ≤
      (st.used.length : ℤ) + (l.map c.s.requiredGet).sum) := by
  induction l generalizing st with
  | nil =>
    refine ⟨h1, h2, rfl, ?_⟩
    simp
  | cons d0 rest ih =>
    have hreq0 : 0 ≤ c.s.requiredGet d0 := hreq d0 (List.mem_cons_self d0 rest)
    have hreqr : ∀ x ∈ rest, 0 ≤ c.s.requiredGet x :=
      fun x hx => hreq x (List.mem_cons_of_mem d0 hx)
    have hsum : ((d0 :: rest).map c.s.requiredGet).sum =
        c.s.requiredGet d0 + (rest.map c.s.requiredGet).sum := by
      rw [List.map_cons, List.sum_cons]
    by_cases hneed : c.s.requiredGet d0 ≤ 0
    · have hid : processDomain c st d0 = st := lem_processDomain_neg c st d0 hneed
      rcases ih st hreqr h1 h2 with ⟨g1, g2, g3, g4⟩
      have e : (d0 :: rest).foldl (processDomain c) st =
          rest.foldl (processDomain c) st := by
        show rest.foldl (processDomain c) (processDomain c st d0) = _
        rw [hid]
      rw [e, hsum]
      have : (0:ℤ) ≤ (rest.map c.s.requiredGet).sum :=
        List.sum_nonneg (fun x hx => by
          rcases List.mem_map.1 hx with ⟨y, hy, rfl⟩
          exact hreqr y hy)
      exact ⟨g1, g2, g3, by linarith⟩
    · have hpd := lem_processDomain_pos c st d0 (not_le.1 hneed)
      rcases lem_pd5_facts c st d0 with ⟨_, hlen, _, hkeys, hused_mem, _, hused_len, hnd⟩
      have hst'1 : (processDomain c st d0).used.Nodup := by
        rw [hpd]
        exact hnd h1
      have hkeys' : (processDomain c st d0).capacity.map Prod.fst =
          st.capacity.map Prod.fst := by
        rw [hpd]
        exact hkeys
      have hst'2 : ∀ v ∈ (processDomain c st d0).used,
          v ∈ (processDomain c st d0).capacity.map Prod.fst := by
        intro v hv
        rw [hkeys']
        rw [hpd] at hv
        rcases hused_mem v hv with h | h
        · exact h2 v h
        · exact lem_pd5_chosen_keys c st d0 v h
      rcases ih (processDomain c st d0) hreqr hst'1 hst'2 with ⟨g1, g2, g3, g4⟩
      have e : (d0 :: rest).foldl (processDomain c) st =
          rest.foldl (processDomain c) (processDomain c st d0) := rfl
      rw [e]
      refine ⟨g1, g2, by rw [g3, hkeys'], ?_⟩
      have hlen' : ((processDomain c st d0).used.length : ℤ) ≤
          (st.used.length : ℤ) + c.s.requiredGet d0 := by
        have hn5 : 0 ≤ (pdP5 c st d0).need := lem_pd5_need_nonneg c st d0 hreq0
        have hchlen : ((pdP5 c st d0).chosen.length : ℤ) ≤ c.s.requiredGet d0 := by
          linarith
        have : (processDomain c st d0).used.length ≤
            st.used.length + (pdP5 c st d0).chosen.length := by
          rw [hpd]
          exact hused_len
        have hcast : ((processDomain c st d0).used.length : ℤ) ≤
            (st.used.length : ℤ) + ((pdP5 c st d0).chosen.length : ℤ) := by
          exact_mod_cast this
        linarith
      rw [hsum]
      linarith

/-- Five-tier completeness for one domain: if, when the domain is
processed, at least `required_active[d]` override candidates still have
per-unit capacity, then the tiers fill the requirement completely.
`hdd` ties the distinctness target to its defining minimum and `hB`
bounds the used-units count by the total requirement, as the loop
invariants guarantee. -/
theorem lem_pd5_complete (c : PdCtx) (st : LoopSt) (d : String)
    (hUA : c.unitsAll.Nodup)
    (hcap : c.s.requiredGet d ≤
      (((pdOverride c d).filter (canTake st.capacity)).length : ℤ))
    (hndU : st.used.Nodup)
    (hsubU : ∀ v ∈ st.used, v ∈ st.capacity.map Prod.fst)
    (hkeysnd : (st.capacity.map Prod.fst).Nodup)
    (hdd : min (totalRequiredRoles c.s) ((st.capacity.map Prod.fst).length : ℤ) =
      c.desiredDistinct)
    (hB : (st.used.length : ℤ) + c.s.requiredGet d ≤ totalRequiredRoles c.s) :
    (pdP5 c st d).need ≤ 0 := by
  by_contra hpos0
  have hpos : 0 < (pdP5 c st d).need := not_le.1 hpos0
  have hstrictnd : (pdStrictL c d).Nodup := by
    unfold pdStrictL
    split
    · exact lem_candidates_nodup _ _ _ _ _ hUA
    · exact lem_candidates_nodup _ _ _ _ _ hUA
  have hovernd : (pdOverride c d).Nodup := lem_candidates_nodup _ _ _ _ _ hUA
  have hUSnd : (pdUnusedStrict c st.used d).Nodup :=
    lem_pdSort_nodup _ _ _ (hstrictnd.filter _)
  have hDSnd : (pdUsedStrict c st.used d).Nodup :=
    lem_pdSort_nodup _ _ _ (hstrictnd.filter _)
  have hUOnd2 : (pdUnusedOverride c st.used d).Nodup :=
    lem_pdSort_nodup _ _ _ (hovernd.filter _)
  have hDOnd2 : (pdUsedOverride c st.used d).Nodup :=
    lem_pdSort_nodup _ _ _ (hovernd.filter _)
  have e1 : PickExt (pdUnusedStrict c st.used d) (pdP0 c st d) (pdP1 c st d) := by
    unfold pdP1
    split
    · exact lem_tierRun_ext _ _ _ _ _ _
    · exact lem_PickExt_refl _ _
  have e2 : PickExt (pdUnusedStrict c st.used d) (pdP1 c st d) (pdP2 c st d) :=
    lem_tierRun_ext _ _ _ _ _ _
  have e3 : PickExt (pdUnusedOverride c st.used d) (pdP2 c st d) (pdP3 c st d) := by
    unfold pdP3
    split
    · exact lem_tierRun_ext _ _ _ _ _ _
    · exact lem_PickExt_refl _ _
  have e4 : PickExt (pdUsedStrict c st.used d) (pdP3 c st d) (pdP4 c st d) :=
    lem_tierRun_ext _ _ _ _ _ _
  have e5 : PickExt (pdUsedOverride c st.used d) (pdP4 c st d) (pdP5 c st d) := by
    unfold pdP5
    split
    · exact lem_tierRun_ext _ _ _ _ _ _
    · exact lem_PickExt_refl _ _
  rcases e1 with ⟨Δ1, a1, b1, n1, f1, k1v, s1v, m1, l1v, nd1⟩
  rcases e2 with ⟨Δ2, a2, b2, n2, f2, k2v, s2v, m2, l2v, nd2⟩
  rcases e3 with ⟨Δ3, a3, b3, n3, f3, k3v, s3v, m3, l3v, nd3⟩
  rcases e4 with ⟨Δ4, a4, b4, n4, f4, k4v, s4v, m4, l4v, nd4⟩
  rcases e5 with ⟨Δ5, a5, b5, n5, f5, k5v, s5v, m5, l5v, nd5⟩
  have hch1 : (pdP1 c st d).chosen = Δ1 := by
    rw [a1]
    rfl
  have hch2 : (pdP2 c st d).chosen = Δ1 ++ Δ2 := by
    rw [a2, hch1]
  have hmono25 : ∀ v ∈ (pdP2 c st d).chosen, v ∈ (pdP5 c st d).chosen := by
    intro v hv
    rw [a5, a4, a3]
    exact List.mem_append_left _ (List.mem_append_left _ (List.mem_append_left _ hv))
  have hmono35 : ∀ v ∈ (pdP3 c st d).chosen, v ∈ (pdP5 c st d).chosen := by
    intro v hv
    rw [a5, a4]
    exact List.mem_append_left _ (List.mem_append_left _ hv)
  have hmono45 : ∀ v ∈ (pdP4 c st d).chosen, v ∈ (pdP5 c st d).chosen := by
    intro v hv
    rw [a5]
    exact List.mem_append_left _ hv
  have hΔ1c5 : ∀ v ∈ Δ1, v ∈ (pdP5 c st d).chosen := fun v hv =>
    hmono25 v (by rw [hch2]; exact List.mem_append_left _ hv)
  have hΔ2c5 : ∀ v ∈ Δ2, v ∈ (pdP5 c st d).chosen := fun v hv =>
    hmono25 v (by rw [hch2]; exact List.mem_append_right _ hv)
  have hΔ3c5 : ∀ v ∈ Δ3, v ∈ (pdP5 c st d).chosen := fun v hv =>
    hmono35 v (by rw [a3]; exact List.mem_append_right _ hv)
  have hΔ4c5 : ∀ v ∈ Δ4, v ∈ (pdP5 c st d).chosen := fun v hv =>
    hmono45 v (by rw [a4]; exact List.mem_append_right _ hv)
  have hlen5 := (lem_pd5_facts c st d).2.1
  have hn4 : 0 < (pdP4 c st d).need := by
    have h0 : (0:ℤ) ≤ (Δ5.length : ℤ) := Int.ofNat_nonneg _
    linarith
  have hn3 : 0 < (pdP3 c st d).need := by
    have h0 : (0:ℤ) ≤ (Δ4.length : ℤ) := Int.ofNat_nonneg _
    linarith
  have hn2 : 0 < (pdP2 c st d).need := by
    have h0 : (0:ℤ) ≤ (Δ3.length : ℤ) := Int.ofNat_nonneg _
    linarith
  have hnd5 : (pdP5 c st d).chosen.Nodup := lem_pd5_chosen_nodup c st d hUA
  have hCnd : ((pdOverride c d).filter (canTake st.capacity)).Nodup := hovernd.filter _
  have hlt : ((pdP5 c st d).chosen.length : ℤ) <
      (((pdOverride c d).filter (canTake st.capacity)).length : ℤ) := by
    linarith
  have hltn : (pdP5 c st d).chosen.length <
      ((pdOverride c d).filter (canTake st.capacity)).length := by
    exact_mod_cast hlt
  have hex : ∃ u ∈ (pdOverride c d).filter (canTake st.capacity),
      u ∉ (pdP5 c st d).chosen := by
    by_contra hno
    push_neg at hno
    have hsub : ((pdOverride c d).filter (canTake st.capacity)).toFinset ⊆
        (pdP5 c st d).chosen.toFinset := by
      intro x hx
      rw [List.mem_toFinset] at hx ⊢
      exact hno x hx
    have hcard1 : ((pdOverride c d).filter (canTake st.capacity)).toFinset.card =
        ((pdOverride c d).filter (canTake st.capacity)).length :=
      List.toFinset_card_of_nodup hCnd
    have hcard2 : (pdP5 c st d).chosen.toFinset.card ≤ (pdP5 c st d).chosen.length :=
      List.toFinset_card_le _
    have := Finset.card_le_card hsub
    omega
  rcases hex with ⟨u, huC, hunc⟩
  have huov : u ∈ pdOverride c d := List.mem_of_mem_filter huC
  have hutake : canTake st.capacity u = true := List.of_mem_filter huC
  have hucap : 0 < capGet st.capacity u := by
    unfold canTake at hutake
    exact of_decide_eq_true hutake
  have hfr1 : capGet (pdP1 c st d).capacity u = capGet st.capacity u :=
    f1 u (fun hh => hunc (hΔ1c5 u hh))
  have hfr2 : capGet (pdP2 c st d).capacity u = capGet st.capacity u := by
    rw [f2 u (fun hh => hunc (hΔ2c5 u hh))]
    exact hfr1
  have hfr3 : capGet (pdP3 c st d).capacity u = capGet st.capacity u := by
    rw [f3 u (fun hh => hunc (hΔ3c5 u hh))]
    exact hfr2
  have hfr4 : capGet (pdP4 c st d).capacity u = capGet st.capacity u := by
    rw [f4 u (fun hh => hunc (hΔ4c5 u hh))]
    exact hfr3
  by_cases hused : u ∈ st.used
  · by_cases hstr : u ∈ pdStrictL c d
    · have hDS : u ∈ pdUsedStrict c st.used d := (lem_mem_DS c st.used d u).2 ⟨hstr, hused⟩
      have hn4' : 0 < (tierRun [] false false false (pdUsedStrict c st.used d)
          (pdP3 c st d)).need := hn4
      rcases lem_tierRun_complete [] false false false (pdUsedStrict c st.used d)
        (pdP3 c st d) hDSnd hn4' u hDS with h | h | h
      · exact hunc (hmono45 u h)
      · exact absurd h.1 (by decide)
      · rw [hfr3] at h
        linarith
    · have hDO : u ∈ pdUsedOverride c st.used d := (lem_mem_DO c st.used d u).2
        ⟨huov, hused, fun hm => hstr ((lem_mem_DS c st.used d u).1 hm).1⟩
      have hDOne : (pdUsedOverride c st.used d).isEmpty = false := by
        cases hl : pdUsedOverride c st.used d with
        | nil =>
          rw [hl] at hDO
          exact absurd hDO (List.not_mem_nil u)
        | cons a t => rfl
      have hEon : pdTierEOn c st d = true := by
        unfold pdTierEOn
        rw [hDOne, decide_eq_true hn4]
        rfl
      have hp5run : pdP5 c st d =
          tierRun [] false false false (pdUsedOverride c st.used d) (pdP4 c st d) := by
        unfold pdP5
        rw [if_pos hEon]
      have hn5' : 0 < (tierRun [] false false false (pdUsedOverride c st.used d)
          (pdP4 c st d)).need := by
        rw [← hp5run]
        exact hpos
      rcases lem_tierRun_complete [] false false false (pdUsedOverride c st.used d)
        (pdP4 c st d) hDOnd2 hn5' u hDO with h | h | h
      · exact hunc (by rw [hp5run]; exact h)
      · exact absurd h.1 (by decide)
      · rw [hfr4] at h
        linarith
  · by_cases hstr : u ∈ pdStrictL c d
    · have hUS : u ∈ pdUnusedStrict c st.used d := (lem_mem_US c st.used d u).2 ⟨hstr, hused⟩
      have hn2' : 0 < (tierRun [] false true true (pdUnusedStrict c st.used d)
          (pdP1 c st d)).need := hn2
      rcases lem_tierRun_complete [] false true true (pdUnusedStrict c st.used d)
        (pdP1 c st d) hUSnd hn2' u hUS with h | h | h
      · exact hunc (hmono25 u h)
      · exact absurd h.1 (by decide)
      · rw [hfr1] at h
        linarith
    · have hUO : u ∈ pdUnusedOverride c st.used d := (lem_mem_UO c st.used d u).2
        ⟨huov, hused, fun hm => hstr ((lem_mem_US c st.used d u).1 hm).1⟩
      have hUOne : (pdUnusedOverride c st.used d).isEmpty = false := by
        cases hl : pdUnusedOverride c st.used d with
        | nil =>
          rw [hl] at hUO
          exact absurd hUO (List.not_mem_nil u)
        | cons a t => rfl
      cases hgate : pdTierCOn c st d
      rotate_left
      · have hp3run : pdP3 c st d =
            tierRun [] false false true (pdUnusedOverride c st.used d) (pdP2 c st d) := by
          unfold pdP3
          rw [if_pos hgate]
        have hn3' : 0 < (tierRun [] false false true (pdUnusedOverride c st.used d)
            (pdP2 c st d)).need := by
          rw [← hp3run]
          exact hn3
        rcases lem_tierRun_complete [] false false true (pdUnusedOverride c st.used d)
          (pdP2 c st d) hUOnd2 hn3' u hUO with h | h | h
        · exact hunc (hmono35 u (by rw [hp3run]; exact h))
        · exact absurd h.1 (by decide)
        · rw [hfr2] at h
          linarith
      · have hgate2 : c.desiredDistinct ≤ ((pdP2 c st d).used.length : ℤ) := by
          unfold pdTierCOn at hgate
          rw [decide_eq_true hn2, hUOne] at hgate
          simp at hgate
          exact hgate
        have hused2len : ((pdP2 c st d).used.length : ℤ) ≤
            (st.used.length : ℤ) + ((pdP2 c st d).chosen.length : ℤ) := by
          have hl2 : (pdP2 c st d).used.length ≤
              st.used.length + Δ1.length + Δ2.length := by
            have := l2v
            have h1 : (pdP1 c st d).used.length ≤ st.used.length + Δ1.length := l1v
            omega
          have hch2len : (pdP2 c st d).chosen.length = Δ1.length + Δ2.length := by
            rw [hch2, List.length_append]
          have : ((pdP2 c st d).used.length : ℤ) ≤
              (st.used.length : ℤ) + (Δ1.length : ℤ) + (Δ2.length : ℤ) := by
            exact_mod_cast hl2
          rw [hch2len]
          push_cast
          linarith
        have hch25 : ((pdP2 c st d).chosen.length : ℤ) ≤
            ((pdP5 c st d).chosen.length : ℤ) := by
          have h5 : (pdP5 c st d).chosen =
              (pdP2 c st d).chosen ++ Δ3 ++ Δ4 ++ Δ5 := by
            rw [a5, a4, a3]
          have : (pdP2 c st d).chosen.length ≤ (pdP5 c st d).chosen.length := by
            rw [h5]
            simp only [List.length_append]
            omega
          exact_mod_cast this
        have hused2ltA : ((pdP2 c st d).used.length : ℤ) < totalRequiredRoles c.s := by
          have hc5 : ((pdP5 c st d).chosen.length : ℤ) = c.s.requiredGet d -
              (pdP5 c st d).need := by
            linarith
          linarith
        have hBle : ((st.capacity.map Prod.fst).length : ℤ) ≤
            ((pdP2 c st d).used.length : ℤ) := by
          rcases le_or_lt (totalRequiredRoles c.s)
            ((st.capacity.map Prod.fst).length : ℤ) with hAB | hAB
          · rw [min_eq_left hAB] at hdd
            rw [← hdd] at hgate2
            linarith
          · rw [min_eq_right (le_of_lt hAB)] at hdd
            rw [hdd]
            exact hgate2
        have hnd2U : (pdP2 c st d).used.Nodup := nd2 (nd1 hndU)
        have hsub2U : ∀ v ∈ (pdP2 c st d).used, v ∈ st.capacity.map Prod.fst := by
          intro v hv
          rcases s2v v hv with h | h
          · rcases s1v v h with h2 | h2
            · exact hsubU v h2
            · exact lem_pd5_chosen_keys c st d v (hΔ1c5 v h2)
          · exact lem_pd5_chosen_keys c st d v (hΔ2c5 v h)
        have hkeyslen : (st.capacity.map Prod.fst).length ≤ (pdP2 c st d).used.length := by
          exact_mod_cast hBle
        have hsubF : (pdP2 c st d).used.toFinset ⊆
            (st.capacity.map Prod.fst).toFinset := by
          intro x hx
          rw [List.mem_toFinset] at hx ⊢
          exact hsub2U x hx
        have hcard1 : (st.capacity.map Prod.fst).toFinset.card =
            (st.capacity.map Prod.fst).length := List.toFinset_card_of_nodup hkeysnd
        have hcard2 : (pdP2 c st d).used.toFinset.card = (pdP2 c st d).used.length :=
          List.toFinset_card_of_nodup hnd2U
        have heqF : (pdP2 c st d).used.toFinset =
            (st.capacity.map Prod.fst).toFinset := by
          apply Finset.eq_of_subset_of_card_le hsubF
          rw [hcard1, hcard2]
          exact hkeyslen
        have hukey : u ∈ st.capacity.map Prod.fst := lem_capGet_pos_mem st.capacity u hucap
        have huused2 : u ∈ (pdP2 c st d).used := by
          have h1 : u ∈ (pdP2 c st d).used.toFinset := by
            rw [heqF]
            exact List.mem_toFinset.2 hukey
          exact List.mem_toFinset.1 h1
        rcases s2v u huused2 with h | h
        · rcases s1v u h with h2 | h2
          · exact hused h2
          · exact hunc (hΔ1c5 u h2)
        · exact hunc (hΔ2c5 u h)

/-- C2 amended: a per-domain sufficiency guarantee that is true of the
greedy tiers.  If, at the moment domain `d` comes up in the EDF order
(`ordered = l1 ++ d :: l2`), at least `required_active[d]` override
candidates for `d` still have per-unit capacity left, then `d`'s
requirement is met in full and no `unmet_requirements` event is emitted
for it.  The original matching-theoretic "whenever physically possible"
guarantee is refuted by the counterexample. -/
theorem C2_amended (s0 : Sched) (alive : List (String × Bool)) (d : String)
    (l1 l2 : List String)
    (hWF : WFSched s0) (hA : WFAlive alive)
    (hreq0 : ∀ x ∈ s0.domainsActive, 0 ≤ s0.requiredGet x)
    (hsplit : orderedDomains (tickS s0 alive) = l1 ++ d :: l2)
    (hcap : s0.requiredGet d ≤
      (((pdOverride (tickCtx s0 alive) d).filter
        (canTake (tickLoopAfter s0 alive l1).capacity)).length : ℤ)) :
    ∀ n : ℤ, Ev.unmetDomain d n ∉ (scheduleTick s0 alive).events := by
  set c := tickCtx s0 alive with hc
  set st1 := tickLoopAfter s0 alive l1 with hst1
  have hcreq : c.s.requiredGet = s0.requiredGet := by
    rw [hc]
    exact (lem_tickS_proj s0 alive).2.2.1
  have hperm : (orderedDomains (tickS s0 alive)).Perm (tickS s0 alive).domainsActive :=
    List.perm_insertionSort _ _
  have hsubl : ∀ x ∈ orderedDomains (tickS s0 alive), x ∈ s0.domainsActive := by
    intro x hx
    rw [← (lem_tickS_proj s0 alive).2.1]
    exact hperm.mem_iff.1 hx
  have hordnd : (orderedDomains (tickS s0 alive)).Nodup := by
    refine hperm.nodup_iff.2 ?_
    rw [(lem_tickS_proj s0 alive).2.1]
    exact hWF.1
  rw [hsplit] at hordnd
  rcases List.nodup_append.1 hordnd with ⟨_, hndr, hdisj⟩
  have hd1 : d ∉ l1 := fun hin => hdisj hin (List.mem_cons_self d l2)
  have hd2 : d ∉ l2 := (List.nodup_cons.1 hndr).1
  have hreqc : ∀ x ∈ l1, 0 ≤ c.s.requiredGet x := by
    intro x hx
    rw [show c.s.requiredGet x = s0.requiredGet x from by rw [hcreq]]
    refine hreq0 x (hsubl x ?_)
    rw [hsplit]
    exact List.mem_append_left _ hx
  have hinv := lem_loop_inv c l1 (tickLoop0 s0 alive) hreqc List.nodup_nil
    (fun v hv => absurd hv (List.not_mem_nil v))
  have hndU1 : st1.used.Nodup := hinv.1
  have hsubU1 : ∀ v ∈ st1.used, v ∈ st1.capacity.map Prod.fst := hinv.2.1
  have hkeys1 : st1.capacity.map Prod.fst = (tickCapacity0 s0 alive).map Prod.fst :=
    hinv.2.2.1
  have hlen1 : (st1.used.length : ℤ) ≤
      (([] : List String).length : ℤ) + (l1.map c.s.requiredGet).sum := hinv.2.2.2
  have hkmap : (tickCapacity0 s0 alive).map Prod.fst =
      (alive.map Prod.fst).filter (canAssign (tickS s0 alive) alive) := by
    unfold tickCapacity0
    rw [List.map_map]
    exact List.map_id _
  have hkeysnd1 : (st1.capacity.map Prod.fst).Nodup := by
    rw [hkeys1, hkmap]
    exact hA.filter _
  have hdd1 : min (totalRequiredRoles c.s) ((st1.capacity.map Prod.fst).length : ℤ) =
      c.desiredDistinct := by
    have hklen : ((st1.capacity.map Prod.fst).length : ℤ) =
        ((tickCapacity0 s0 alive).length : ℤ) := by
      rw [hkeys1, List.length_map]
    show min (totalRequiredRoles (tickS s0 alive)) _ =
      min (totalRequiredRoles (tickS s0 alive)) ((tickCapacity0 s0 alive).length : ℤ)
    rw [hklen]
  have hsum_or : ((orderedDomains (tickS s0 alive)).map c.s.requiredGet).sum =
      totalRequiredRoles c.s :=
    (hperm.map c.s.requiredGet).sum_eq
  have hB1 : (st1.used.length : ℤ) + c.s.requiredGet d ≤ totalRequiredRoles c.s := by
    have hs2 : (0:ℤ) ≤ (l2.map c.s.requiredGet).sum := by
      refine List.sum_nonneg ?_
      intro x hx
      rcases List.mem_map.1 hx with ⟨y, hy, rfl⟩
      rw [show c.s.requiredGet y = s0.requiredGet y from by rw [hcreq]]
      refine hreq0 y (hsubl y ?_)
      rw [hsplit]
      exact List.mem_append_right _ (List.mem_cons_of_mem d hy)
    have hsplitsum : ((l1 ++ d :: l2).map c.s.requiredGet).sum =
        (l1.map c.s.requiredGet).sum + c.s.requiredGet d + (l2.map c.s.requiredGet).sum := by
      rw [List.map_append, List.sum_append, List.map_cons, List.sum_cons]
      ring
    have htot : (l1.map c.s.requiredGet).sum + c.s.requiredGet d +
        (l2.map c.s.requiredGet).sum = totalRequiredRoles c.s := by
      rw [← hsum_or, hsplit, hsplitsum]
    simp only [List.length_nil, Nat.cast_zero, zero_add] at hlen1
    linarith
  have hcap' : c.s.requiredGet d ≤
      (((pdOverride c d).filter (canTake st1.capacity)).length : ℤ) := by
    rw [show c.s.requiredGet d = s0.requiredGet d from by rw [hcreq]]
    exact hcap
  have hcomplete : (pdP5 c st1 d).need ≤ 0 :=
    lem_pd5_complete c st1 d hA hcap' hndU1 hsubU1 hkeysnd1 hdd1 hB1
  intro n hn
  rw [lem_tick_events_unmet s0 alive d n] at hn
  by_cases hneed : 0 < s0.requiredGet d
  · rcases ((lem_loop_at_domain s0 alive d l1 l2 hsplit hd1 hd2 hneed).2 n).1 hn with
      ⟨hpos5, _⟩
    exact absurd hpos5 (not_lt.2 hcomplete)
  · have hnegc : c.s.requiredGet d ≤ 0 := by
      rw [show c.s.requiredGet d = s0.requiredGet d from by rw [hcreq]]
      exact not_lt.1 hneed
    have hfold : tickLoopAll s0 alive = l2.foldl (processDomain c) (processDomain c st1 d) := by
      unfold tickLoopAll tickLoopAfter
      rw [hsplit, List.foldl_append]
      rfl
    have hid : processDomain c st1 d = st1 := lem_processDomain_neg c st1 d hnegc
    rcases lem_loop_events c l2 (processDomain c st1 d) with ⟨E2, hE2, hp2⟩
    rcases lem_loop_events c l1 (tickLoop0 s0 alive) with ⟨E1, hE1, hp1⟩
    have hev : (tickLoopAll s0 alive).events = ((tickLoop0 s0 alive).events ++ E1) ++ E2 := by
      rw [hfold, hE2, hid]
      rw [hst1]
      show (tickLoopAfter s0 alive l1).events ++ E2 = _
      unfold tickLoopAfter
      rw [hE1]
    rw [hev] at hn
    rcases List.mem_append.1 hn with h | h
    · rcases List.mem_append.1 h with h2 | h2
      · have h0 : (tickLoop0 s0 alive).events =
            if tickDoRotate s0 alive then [Ev.rotation] else [] := rfl
        rw [h0] at h2
        rcases lem_mem_ite_singleton _ _ _ h2 with ⟨heq, _⟩
        exact absurd heq (by simp)
      · rcases hp1 _ h2 with ⟨_, d2, hd2mem, htag⟩
        have hd2d : d2 = d := by
          have h3 : evTag (Ev.unmetDomain d n) = some d := rfl
          rw [h3] at htag
          exact Option.some.inj htag.symm
        exact absurd (hd2d ▸ hd2mem) hd1
    · rcases hp2 _ h with ⟨_, d2, hd2mem, htag⟩
      have hd2d : d2 = d := by
        have h3 : evTag (Ev.unmetDomain d n) = some d := rfl
        rw [h3] at htag
        exact Option.some.inj htag.symm
      exact absurd (hd2d ▸ hd2mem) hd2

theorem C2_witness :
    Ev.unmetDomain "radar" 0 ∉ (scheduleTick (initSched cfgSteady) aliveSteady).events :=
  C2_amended (initSched cfgSteady) aliveSteady "radar" [] [] (by decide) (by decide)
    (by decide) (by decide) (by decide) 0

/-- C9 counterexample: with `max_gap_ms = 10` and `tick_ms = 4.0` the
driver computes `max(1, int(10 / 4.0)) = 2`, not the ceiling `3` the
specification prescribes. -/
theorem C9_counterexample :
    runMissionMaxGapTicks 10 4 = 2 ∧ specMaxGapTicks 10 4 = 3 ∧
    runMissionMaxGapTicks 10 4 ≠ specMaxGapTicks 10 4 := by decide

/-- C9 amended: for a non-negative gap window and positive tick length,
`run_mission` computes `max_gap_ticks` as the **floor** of
`max_gap_ms / tick_ms`, clamped below by 1. -/
theorem C9_amended (maxGapMs : ℤ) (tickMs : ℚ)
    (hm : 0 ≤ maxGapMs) (ht : 0 < tickMs) :
    runMissionMaxGapTicks maxGapMs tickMs = max 1 ⌊(maxGapMs : ℚ) / tickMs⌋ := by
  have hq : 0 ≤ (maxGapMs : ℚ) / tickMs :=
    div_nonneg (by exact_mod_cast hm) ht.le
  simp [runMissionMaxGapTicks, pyInt, hq]

theorem C9_witness : runMissionMaxGapTicks 10 4 = max 1 ⌊((10 : ℤ) : ℚ) / (4 : ℚ)⌋ :=
  C9_amended 10 4 (by norm_num) (by norm_num)

/-- C8 counterexample: a mission whose domain list is `["b", "a"]` and
whose domains have equal deadlines and slacks is processed in list order
`["b", "a"]`, not in the lexicographic order `["a", "b"]` the
specification's `(deadline, slack, d)` key would produce. -/
theorem C8_counterexample :
    deadlineOf sOrder "a" = deadlineOf sOrder "b" ∧
    slackOf sOrder "a" = slackOf sOrder "b" ∧
    orderedDomains sOrder = ["b", "a"] ∧
    specOrderedDomains sOrder = ["a", "b"] ∧
    orderedDomains sOrder ≠ specOrderedDomains sOrder := by decide

/-- C8 amended: the processing order is the stable sort of
`domains_active` by the key `(deadline(d), slack(d))` — a permutation of
the active domains, non-decreasing in deadline, and equal to the
mission's list order whenever all deadlines tie (Python's `sorted` is
stable and the key carries no name component). -/
theorem C8_amended (s : Sched) :
    (orderedDomains s).Perm s.domainsActive ∧
    (orderedDomains s).Sorted (fun d1 d2 => deadlineOf s d1 ≤ deadlineOf s d2) ∧
    ((∀ d1 ∈ s.domainsActive, ∀ d2 ∈ s.domainsActive,
        deadlineOf s d1 = deadlineOf s d2) →
      orderedDomains s = s.domainsActive) := by
  set r := fun d1 d2 : String =>
    (toLex (deadlineOf s d1, slackOf s d1) : ℤ ×ₗ ℤ) ≤ toLex (deadlineOf s d2, slackOf s d2)
    with hr
  haveI : IsTotal String r := ⟨fun a b => le_total (α := ℤ ×ₗ ℤ) _ _⟩
  haveI : IsTrans String r := ⟨fun a b c hab hbc => le_trans (α := ℤ ×ₗ ℤ) hab hbc⟩
  refine ⟨List.perm_insertionSort r _, ?_, ?_⟩
  · have hs : (orderedDomains s).Sorted r := List.sorted_insertionSort r _
    refine hs.imp ?_
    intro d1 d2 h12
    rw [hr] at h12
    rcases (Prod.Lex.le_iff _ _).1 h12 with hlt | ⟨heq, _⟩
    · exact le_of_lt hlt
    · exact le_of_eq heq
  · intro hall
    have hsorted : s.domainsActive.Sorted r := by
      apply List.pairwise_of_forall_mem_list
      intro d1 h1 d2 h2
      have hd : deadlineOf s d1 = deadlineOf s d2 := hall d1 h1 d2 h2
      have hsl : slackOf s d1 = slackOf s d2 := by
        simp [slackOf, hd]
      show (toLex (deadlineOf s d1, slackOf s d1) : ℤ ×ₗ ℤ) ≤ toLex (deadlineOf s d2, slackOf s d2)
      rw [Prod.Lex.le_iff]
      exact Or.inr ⟨hd, le_of_eq hsl⟩
    exact hsorted.insertionSort_eq

theorem C8_witness : orderedDomains sOrder = sOrder.domainsActive :=
  (C8_amended sOrder).2.2 (by decide)

/-- Candidate computation only depends on the scheduler state through the
pool tables, the universal-roles flag and the per-unit admissibility
test. -/
theorem lem_candidates_congr (x y : Sched) (d2 : String) (alive : List (String × Bool))
    (unitsAll : List String) (allowOv : Bool)
    (huniv : y.universalRoles = x.universalRoles) (hpools : y.pools = x.pools)
    (hok : ∀ u2, candOk y alive d2 allowOv u2 = candOk x alive d2 allowOv u2) :
    candidatesForDomain y d2 alive unitsAll allowOv =
      candidatesForDomain x d2 alive unitsAll allowOv := by
  unfold candidatesForDomain
  rw [huniv, hpools]
  cases hu : x.universalRoles
  · simp only [Bool.false_eq_true, if_false]
    rw [List.filter_congr (fun u2 _ => hok u2), List.filter_congr (fun u2 _ => hok u2)]
  · simp only [if_true]
    exact List.filter_congr (fun u2 _ => hok u2)

/-- C10: a `set_domain_fault(unit, domain)` call with `permanent=False`
and `duration_ms` omitted/`None`/`0` records a fault whose recovery time
is the current simulated time.  At every check at or after that time the
fault is already expired (`_domain_fault_active` answers `False`), and —
provided no other fault was registered for that `(unit, domain)` pair —
every candidate set computed from any later state carrying this fault
table is exactly what it would be with the fault entry absent. -/
theorem C10_noop (s : Sched) (u d : String) (dur : Option ℤ)
    (hdur : dur = none ∨ dur = some 0) (now : ℤ) (hnow : timeMs s ≤ now) :
    domainFaultActive (setDomainFault s u d dur false) u d now = false ∧
    (∀ x : Sched, x.domainFaults = (setDomainFault s u d dur false).domainFaults →
      timeMs s ≤ timeMs x →
      ∀ (d2 : String) (alive : List (String × Bool)) (unitsAll : List String) (allowOv : Bool),
        candidatesForDomain x d2 alive unitsAll allowOv =
          candidatesForDomain
            { x with domainFaults := fun k => if k = (u, d) then none else x.domainFaults k }
            d2 alive unitsAll allowOv) := by
  have hfault : (setDomainFault s u d dur false).domainFaults (u, d) = some (some (timeMs s)) := by
    rcases hdur with h | h <;> subst h <;> simp [setDomainFault]
  constructor
  · simp only [domainFaultActive, hfault]
    simp only [decide_eq_false_iff_not, not_lt]
    exact hnow
  · intro x hx hxnow d2 alive unitsAll allowOv
    refine (lem_candidates_congr x
      { x with domainFaults := fun k => if k = (u, d) then none else x.domainFaults k }
      d2 alive unitsAll allowOv rfl rfl ?_).symm
    intro u2
    have hfa : domainFaultActive
        { x with domainFaults := fun k => if k = (u, d) then none else x.domainFaults k }
          u2 d2 (timeMs x) = domainFaultActive x u2 d2 (timeMs x) := by
      show (match (if ((u2, d2) : String × String) = (u, d) then none else x.domainFaults (u2, d2)) with
            | none => false
            | some none => true
            | some (some recoverAt) => decide (timeMs x < recoverAt)) =
          domainFaultActive x u2 d2 (timeMs x)
      by_cases hkey : ((u2, d2) : String × String) = (u, d)
      · rw [if_pos hkey]
        have hx2 : x.domainFaults (u2, d2) = some (some (timeMs s)) := by
          rw [hx, hkey, hfault]
        unfold domainFaultActive
        rw [hx2]
        symm
        simp only [decide_eq_false_iff_not, not_lt]
        exact hxnow
      · rw [if_neg hkey]
        rfl
    show (canAssign x alive u2 &&
        !(domainFaultActive
          { x with domainFaults := fun k => if k = (u, d) then none else x.domainFaults k }
          u2 d2 (timeMs x)) &&
        (allowOv || !((x.restingSinceTick u2).isSome &&
          decide (batteryGet0 x.batteryPct u2 < wakeThresholdPct x)))) =
      candOk x alive d2 allowOv u2
    rw [hfa]
    rfl

theorem C10_witness :
    domainFaultActive (setDomainFault (initSched cfgFault) "u1" "a" none false) "u1" "a" 5 = false :=
  (C10_noop (initSched cfgFault) "u1" "a" none (Or.inl rfl) 5 (by decide)).1

/-- C1 counterexample: one domain requiring 2 units with a single fielded
unit yields a **partial** assignment of exactly 1 unit — a strictly
intermediate count, which the claim's "0 or exactly `required_active`"
dichotomy forbids. -/
theorem C1_counterexample :
    (initSched cfgPartial).requiredGet "radar" = 2 ∧
    ((exPartial1.assignMap "radar").length : ℤ) = 1 ∧
    ¬(((exPartial1.assignMap "radar").length : ℤ) = 0 ∨
      ((exPartial1.assignMap "radar").length : ℤ) = (initSched cfgPartial).requiredGet "radar") := by
  decide

/-- C2 counterexample: units `u1, u2` with capacity 1, domains `a, b`
each requiring 1, and a permanent `(u2, b)` fault.  The matching
`a → u2, b → u1` staffs both domains (the candidate lists below show it
is feasible), but the greedy tier search gives `a` to the
lexicographically smaller `u1` and then finds nothing for `b`:
`unmet_requirements` is emitted although staffing was physically
possible. -/
theorem C2_counterexample :
    (tickCtx sFault aliveFault).s.capacityPerUnit = 1 ∧
    sFault.requiredGet "a" = 1 ∧ sFault.requiredGet "b" = 1 ∧
    pdOverride (tickCtx sFault aliveFault) "a" = ["u1", "u2"] ∧
    pdOverride (tickCtx sFault aliveFault) "b" = ["u1"] ∧
    exFault.assignMap "a" = ["u1"] ∧
    exFault.assignMap "b" = [] ∧
    Ev.unmetDomain "b" 1 ∈ exFault.events := by decide

/-- C3 counterexample: requirement 2, one unit, `max_gap_ticks = 1`,
strict off.  The requirement is never met in full (1 of 2 every tick),
so the claim's gap — ticks since the last full service — is 2 on tick 2
and should trigger `GAP_EXCEEDED`; but the code resets
`last_service_tick` on the partial assignment (it equals the current
tick after each tick), so no gap `mission_failure` is ever emitted. -/
theorem C3_counterexample :
    (initSched cfgPartial).maxGapTicks = 1 ∧
    (initSched cfgPartial).requiredGet "radar" = 2 ∧
    exPartialRun.map (fun r => r.assignMap "radar") = [["u1"], ["u1"]] ∧
    exPartialRun.map (fun r => r.state.lastServiceTick "radar") = [1, 2] ∧
    exPartialRun.map (fun r => r.events.filter isGapFailureEv) = [[], []] ∧
    exPartialRun.map (fun r => r.raised) = [false, false] := by decide

/-- C4 counterexample: two domains sharing one capacity-1 unit,
`max_gap_ticks = 2`, strict on.  The unmet aggregates show `b` unmet at
ticks 1 and 3 and `a` unmet at tick 2 only — no domain is ever unmet
`max_gap_ticks + 1 = 3` ticks in a row — yet tick 3 raises, because the
code's streak is global across domains.  The raise also happens on a
tick that is not the claimed "streak reaches `max_gap_ticks + 1`" tick
of any domain. -/
theorem C4_counterexample :
    (initSched cfgTwoDom).maxGapTicks = 2 ∧
    (initSched cfgTwoDom).strictMissionFailure = true ∧
    exTwoDomRun.map (fun r => r.raised) = [false, false, true] ∧
    exTwoDomRun.map (fun r => r.events.filter isUnmetAggregateEv) =
      [[Ev.unmetAggregate [("b", 1, 0)]], [Ev.unmetAggregate [("a", 1, 0)]],
        [Ev.unmetAggregate [("b", 1, 0)]]] ∧
    exTwoDomRun.map (fun r => r.events.filter isStreakFailureEv) =
      [[], [], [Ev.missionFailureStreak [("b", 1, 0)]]] := by decide

end AUFalkon
